import Mathlib

/-!
Shallow embedding of the Bayesian-network inference core of the repository
(`bayes_network.py`, `utils.py`).

Numbers: Python floats are modelled as exact rationals (ℚ).  `round(x, 5)`
is modelled as exact round-half-to-even at 5 decimal digits (`round5`),
matching Python's documented rounding mode.

Variables of the network (`BNNode`) follow the source's ad-hoc structural
dispatch: the string "season", vertex coordinate pairs, and edge pairs of
coordinate pairs.  The season domain strings "low"/"medium"/"high" are
embedded as the enumeration `SeasonV`; evidence values (`BNVal`) are either
booleans or season strings, as in the Python `dict[BNNode, bool | str]`.

Python dicts are embedded as association lists with first-match lookup and
replace-in-place-or-append assignment (`einsert`), which is exactly the
observable behaviour of dict assignment (key order preserved on overwrite,
new keys appended).  Dict lookups that would raise `KeyError` in Python
(e.g. reading a parent value that is not yet assigned) are total here and
return a junk default; every theorem below only exercises them on inputs
where the Python code does not raise, as noted in the doc comments.
-/

/-- Round-half-to-even at 5 decimal digits: the model of Python's
`round(x, ROUND_DIGITS)` with `ROUND_DIGITS = 5` (`bayes_network.py` line 6,
`utils.py` line 3). -/
def round5 (x : ℚ) : ℚ :=
  let y := x * 100000
  let r := ⌊y⌋
  let f := y - r
  (if f < 1/2 then r else if 1/2 < f then r + 1
   else if r % 2 = 0 then r else r + 1 : ℤ) / 100000

/-- The three values of the season domain, embedding the Python strings
`'low'`, `'medium'`, `'high'` (the keys of the season CPT and the option
list in `EnumerationAsk`/`EnumerationAll`). -/
inductive SeasonV where
  | low
  | medium
  | high
deriving DecidableEq

/-- A grid-vertex coordinate, embedding the Python `tuple[int, int]` of
nonnegative grid indices. -/
abbrev Coord := ℕ × ℕ

/-- A grid edge: a pair of vertex coordinates, embedding the Python
`tuple[tuple[int, int], tuple[int, int]]`. -/
abbrev GEdge := Coord × Coord

/-- A value stored in the evidence dict: a boolean (for vertex and edge
variables) or a season string, embedding `bool | str`. -/
inductive BNVal where
  | b : Bool → BNVal
  | s : SeasonV → BNVal
deriving DecidableEq

/-- A node of the Bayesian network: the string `"season"`, a vertex
coordinate pair, or an edge pair of coordinate pairs.  This is the tagged
form of the source's `isinstance`-based dispatch (`str` / tuple of ints /
tuple of tuples). -/
inductive BNNode where
  | season : BNNode
  | vertex : Coord → BNNode
  | edge : Coord → Coord → BNNode
deriving DecidableEq

/-- Lexicographic non-strict comparison on coordinate pairs, the order used
by Python's `sorted` on 2-tuples of ints. -/
def coordLeB (a b : Coord) : Bool :=
  a.1 < b.1 || (a.1 = b.1 && a.2 ≤ b.2)

/-- The query/variable canonicalisation of `bayes_network.py` lines 248 and
280: `tuple(sorted(q))` applied when `q` is a tuple of tuples (an edge);
other variables are unchanged. -/
def canon : BNNode → BNNode
  | .edge a b => if coordLeB a b then .edge a b else .edge b a
  | n => n

/-- An evidence mapping, embedding the Python `dict[BNNode, bool | str]` as
an association list (unique keys when built by `einsert`). -/
abbrev Evid := List (BNNode × BNVal)

/-- First-match lookup in an evidence dict (`e[k]` / `k in e`). -/
def elookup : Evid → BNNode → Option BNVal
  | [], _ => none
  | kv :: rest, k => if kv.1 = k then some kv.2 else elookup rest k

/-- Key-membership test, embedding Python's `k in e` on a dict. -/
def emem (e : Evid) (k : BNNode) : Bool :=
  (elookup e k).isSome

/-- Evidence read `e[k]`; total with a junk default (`False`) on missing
keys, where Python would raise `KeyError`.  All uses below are guarded by
`emem` or by invariants of the call sites. -/
def eget (e : Evid) (k : BNNode) : BNVal :=
  (elookup e k).getD (.b false)

/-- Dict assignment `e[k] = v` (and the dict-union `e | {k: v}`): replaces
the binding in place if the key is present, appends it otherwise — exactly
Python's dict key-order behaviour. -/
def einsert : Evid → BNNode → BNVal → Evid
  | [], k, v => [(k, v)]
  | kv :: rest, k, v => if kv.1 = k then (k, v) :: rest else kv :: einsert rest k v

/-- The data of a `BayesNetwork` instance (`bayes_network.py` lines 28-41):
the season prior (a dict with the three season keys, each holding a
one-element list of floats — stored here as the three rationals), the
vertex CPT dict `nodesCPT` (key list + total lookup function; only keys in
`verts` are meaningful, other arguments return a junk value where Python
would raise `KeyError`), the edge CPT dict `fragEdgesCPT` likewise, and the
grid dimensions `x`, `y` passed to the constructor. -/
structure BNet where
  pLow : ℚ
  pMed : ℚ
  pHigh : ℚ
  verts : List Coord
  vertCPT : Coord → SeasonV → ℚ
  edges : List GEdge
  edgeCPT : GEdge → Bool → Bool → ℚ
  gx : ℕ
  gy : ℕ

/-- Lookup in the season prior dict: `self.season[option][0]`. -/
def seasonP (net : BNet) : SeasonV → ℚ
  | .low => net.pLow
  | .medium => net.pMed
  | .high => net.pHigh

/-- The directed graph `self._bn` as built by the constructor
(`bayes_network.py` lines 32-40): node insertion order is `"season"`, then
the fragile-edge keys, then the vertex keys; arcs are season → each vertex,
then vertex → each incident edge (outer loop over vertices, inner over
edges, keeping those with `node in edge`). -/
structure BGraph where
  nodes : List BNNode
  arcs : List (BNNode × BNNode)

/-- Build `self._bn` from the CPT key lists, mirroring `__init__`. -/
def mkBN (net : BNet) : BGraph where
  nodes := .season :: ((net.edges.map fun ed => .edge ed.1 ed.2) ++ net.verts.map .vertex)
  arcs := (net.verts.map fun v => (.season, .vertex v))
    ++ net.verts.flatMap fun v => net.edges.filterMap fun ed =>
        if v = ed.1 ∨ v = ed.2 then some (.vertex v, .edge ed.1 ed.2) else none

/-- In-degree of a node: the number of arcs pointing at it
(networkx `in_degree`). -/
def inDeg (g : BGraph) (n : BNNode) : ℕ :=
  (g.arcs.filter fun a => a.2 = n).length

/-- Out-degree of a node (networkx `out_degree`). -/
def outDeg (g : BGraph) (n : BNNode) : ℕ :=
  (g.arcs.filter fun a => a.1 = n).length

/-- networkx `remove_node`: drop the node and every incident arc. -/
def removeNode (g : BGraph) (n : BNNode) : BGraph where
  nodes := g.nodes.erase n
  arcs := g.arcs.filter fun a => a.1 ≠ n ∧ a.2 ≠ n

/-- Remove a list of nodes in order. -/
def removeNodes (g : BGraph) (ns : List BNNode) : BGraph :=
  ns.foldl removeNode g

/-- One generation-peeling pass of Kahn's algorithm with explicit fuel:
repeatedly emit (in node-list order) all nodes of in-degree zero, remove
them, and continue.  This is the behaviour of networkx
`topological_sort` / `topological_generations`, which yields each
generation in node insertion order. -/
def kahn : ℕ → BGraph → List BNNode
  | 0, _ => []
  | fuel + 1, g =>
    let gen := g.nodes.filter fun n => inDeg g n = 0
    if gen.isEmpty then [] else gen ++ kahn fuel (removeNodes g gen)

/-- `list(nx.topological_sort(G))`. -/
def topoSort (g : BGraph) : List BNNode :=
  kahn g.nodes.length g

/-- `RemoveBarrenNodes` (`bayes_network.py` lines 351-368) as a function on
the graph: two passes over the topological order of the *original* graph,
with degree tests against the evolving copy.  Forward pass: remove any node
of current in-degree 0 that is in the evidence and not in the query.
Backward pass (same order reversed): skip already-removed nodes, then
remove any node of current out-degree 0 that is in neither the evidence nor
the query.  The CPT data of the deep copy is unchanged, so only the graph
is returned. -/
def removeBarren (g : BGraph) (query : List BNNode) (e : Evid) : BGraph :=
  let order := topoSort g
  let g1 := order.foldl
    (fun h n => if inDeg h n = 0 ∧ emem e n ∧ n ∉ query then removeNode h n else h) g
  order.reverse.foldl
    (fun h n =>
      if n ∈ h.nodes ∧ outDeg h n = 0 ∧ ¬ emem e n ∧ n ∉ query then removeNode h n else h)
    g1

/-- Python truthiness of an evidence value (`if option:` in `Probability`):
booleans are themselves, the season strings are non-empty hence truthy. -/
def truthy : BNVal → Bool
  | .b x => x
  | .s _ => true

/-- Read an evidence value as a season string (the conditioning key
`e['season']` of a vertex variable).  On a boolean value Python would raise
`KeyError` when it is then used as a CPT dict key; junk default. -/
def asSeason : BNVal → SeasonV
  | .s x => x
  | .b _ => .low

/-- Read an evidence value as a boolean (a component of the conditioning
key `(e[node[0]], e[node[1]])` of an edge variable).  On a season string
Python would raise `KeyError` at the CPT dict lookup; junk default. -/
def asBool : BNVal → Bool
  | .b x => x
  | .s _ => false

/-- `Probability(y, e, option)` (`bayes_network.py` lines 290-305), with
`VarCPT` (lines 307-319) and `Parent` (lines 321-334) inlined per variable
kind: the season variable returns its prior for `option` directly; a vertex
variable conditions on `e['season']`; an edge variable conditions on the
pair `(e[a], e[b])` of its endpoint values; non-season variables return the
CPT entry if `option` is truthy and one minus it otherwise. -/
def Probability (net : BNet) (y : BNNode) (e : Evid) (v : BNVal) : ℚ :=
  match y with
  | .season => seasonP net (asSeason v)
  | .vertex p =>
    let c := net.vertCPT p (asSeason (eget e .season))
    if truthy v then c else 1 - c
  | .edge a b =>
    let c := net.edgeCPT (a, b) (asBool (eget e (.vertex a))) (asBool (eget e (.vertex b)))
    if truthy v then c else 1 - c

/-- The per-variable option list: `['low', 'medium', 'high']` for the
season string, `[True, False]` otherwise. -/
def optionsOf (y : BNNode) : List BNVal :=
  if y = .season then [.s .low, .s .medium, .s .high] else [.b true, .b false]

/-- `EnumerationAll(nodes, e)` (`bayes_network.py` lines 264-288): empty
list → 1; otherwise canonicalise the head, multiply its probability by the
recursion if it is observed, and otherwise sum (`np.inner`) over its
options, extending the evidence with `e | {y: option}`. -/
def enumAll (net : BNet) : List BNNode → Evid → ℚ
  | [], _ => 1
  | y0 :: rest, e =>
    let y := canon y0
    if emem e y then Probability net y e (eget e y) * enumAll net rest e
    else ((optionsOf y).map fun v => Probability net y e v * enumAll net rest (einsert e y v)).sum

/-- `Normalize` (`bayes_network.py` lines 336-349): if the values sum to
zero return the dict unchanged, otherwise divide each entry by the sum and
round to 5 digits. -/
def Normalize (d : List (BNVal × ℚ)) : List (BNVal × ℚ) :=
  let s := (d.map Prod.snd).sum
  if s = 0 then d else d.map fun kv => (kv.1, round5 (kv.2 / s))

/-- First-match lookup in a returned distribution dict (`p[False]`). -/
def dlookup : List (BNVal × ℚ) → BNVal → Option ℚ
  | [], _ => none
  | kv :: rest, k => if kv.1 = k then some kv.2 else dlookup rest k

/-- `EnumerationAsk(query, e)` (`bayes_network.py` lines 234-262).  The
result is the returned distribution *paired with the caller's evidence dict
after the call*, because the loop `for q in options: e[query] = q ...`
mutates the dict the caller passed in; the fold threads that dict exactly
as the loop does (each iteration overwrites the query binding, then hands
fresh copies `e | {}` to `RemoveBarrenNodes` and `EnumerationAll`).
An empty query list would raise `IndexError` at `[...][0]` in Python; the
junk result for that unreachable case is `([], e)`. -/
def EnumerationAsk (net : BNet) (query : List BNNode) (e : Evid) :
    List (BNVal × ℚ) × Evid :=
  match query with
  | [] => ([], e)
  | q0 :: _ =>
    let q := canon q0
    if q ∉ (mkBN net).nodes then ([(.b true, 0), (.b false, 1)], e)
    else if emem e q then
      ((eget e q, 1) :: ((optionsOf q).erase (eget e q)).map fun o => (o, 0), e)
    else
      let step := (optionsOf q).foldl
        (fun (acc : List (BNVal × ℚ) × Evid) opt =>
          let e' := einsert acc.2 q opt
          let pruned := removeBarren (mkBN net) [q] e'
          (acc.1 ++ [(opt, enumAll net (topoSort pruned) e')], e'))
        ([], e)
      (Normalize step.1, step.2)

/-- `EnumerationAskSet(querySet, e)` (`bayes_network.py` lines 200-216):
empty query set → 1.0; otherwise look up the `False` probability of the
head (`EnumerationAsk` receives the fresh copy `e | {}`, so its writes stay
in that copy and the value it returns is all that matters here), recurse on
the tail with `e | {head: False}`, and round the product at 5 digits.
`p[False]` raises `KeyError` in Python when the head is the season
variable; the total model reads 0 in that unreachable-for-the-program case. -/
def EnumerationAskSet (net : BNet) : List BNNode → Evid → ℚ
  | [], _ => 1
  | q :: rest, e =>
    let pf := (dlookup (EnumerationAsk net [q] e).1 (.b false)).getD 0
    round5 (pf * EnumerationAskSet net rest (einsert e q (.b false)))

/-- `EnumerationAskSet` with the caller-visible evidence dict made
explicit: the body passes the fresh copy `e | {}` to `EnumerationAsk` (so
the callee's writes land in a dict the caller never sees) and builds the
new dict `e | {head: False}` for the tail, so the caller's dict after the
call is the unchanged `e` returned in the second component. -/
def EnumerationAskSetFull (net : BNet) : List BNNode → Evid → ℚ × Evid
  | [], e => (1, e)
  | q :: rest, e =>
    let call := EnumerationAsk net [q] e
    let pf := (dlookup call.1 (.b false)).getD 0
    let r := EnumerationAskSetFull net rest (einsert e q (.b false))
    (round5 (pf * r.1), e)

/-- Node list of `nx.grid_2d_graph(m, n)`: row-major coordinates. -/
def gridNodes (m n : ℕ) : List Coord :=
  (List.range m).flatMap fun i => (List.range n).map fun j => (i, j)

/-- Edge insertion order of `nx.grid_2d_graph(m, n)`: first the column
edges `((pi+1, j), (pi, j))` (outer loop over consecutive row pairs, inner
over columns), then the row edges `((i, pj+1), (i, pj))` (outer loop over
rows, inner over consecutive column pairs). -/
def gridEdges (m n : ℕ) : List GEdge :=
  ((List.range (m - 1)).flatMap fun pi => (List.range n).map fun j => ((pi + 1, j), (pi, j)))
    ++ (List.range m).flatMap fun i => (List.range (n - 1)).map fun pj => ((i, pj + 1), (i, pj))

/-- Append `v` to `u`'s adjacency list (networkx `add_edge` direction
`u → v`; the node key already exists because all grid nodes are inserted
first). -/
def addNbr (adj : List (Coord × List Coord)) (u v : Coord) : List (Coord × List Coord) :=
  adj.map fun kv => if kv.1 = u then (kv.1, if v ∈ kv.2 then kv.2 else kv.2 ++ [v]) else kv

/-- The adjacency structure of `nx.grid_2d_graph(m, n)`: all nodes with
empty neighbour lists, then each edge inserted in both directions in
`gridEdges` order.  Neighbour iteration order is insertion order, as in
networkx. -/
def gridAdj (m n : ℕ) : List (Coord × List Coord) :=
  (gridEdges m n).foldl (fun adj ed => addNbr (addNbr adj ed.1 ed.2) ed.2 ed.1)
    ((gridNodes m n).map fun v => (v, []))

/-- Neighbour list of a node (empty for nodes outside the grid, where
networkx would raise). -/
def nbrs : List (Coord × List Coord) → Coord → List Coord
  | [], _ => []
  | kv :: rest, u => if kv.1 = u then kv.2 else nbrs rest u

/-- Depth-first enumeration of all simple paths to `tgt`, visiting
neighbours in adjacency order — the behaviour and output order of
`nx.all_simple_paths` on this graph.  `visited` is the path so far
(including the current node); fuel bounds the recursion depth (any value
at least the number of grid nodes is exact, since simple paths cannot
revisit a node). -/
def dfsPaths (adj : List (Coord × List Coord)) (tgt : Coord) :
    ℕ → Coord → List Coord → List (List Coord)
  | 0, _, _ => []
  | fuel + 1, cur, visited =>
    (nbrs adj cur).flatMap fun nb =>
      if nb ∈ visited then []
      else if nb = tgt then [visited ++ [nb]]
      else dfsPaths adj tgt fuel nb (visited ++ [nb])

/-- `AllSimplePathsStartToEndEdges` (`bayes_network.py` lines 160-174):
every simple grid path from `start` to `tgt`, rendered as its list of
consecutive-node edge pairs, in `nx.all_simple_paths` order. -/
def AllSimplePathsStartToEndEdges (net : BNet) (start tgt : Coord) : List (List GEdge) :=
  let m := net.gx + 1
  let n := net.gy + 1
  (dfsPaths (gridAdj m n) tgt (m * n) start [start]).map fun p => p.zip p.tail

/-- Strict lexicographic comparison on coordinate pairs (Python `<` on int
2-tuples). -/
def coordLtB (a b : Coord) : Bool :=
  a.1 < b.1 || (a.1 = b.1 && a.2 < b.2)

/-- Strict lexicographic comparison on grid edges (Python `<` on pairs of
int 2-tuples). -/
def gedgeLtB (a b : GEdge) : Bool :=
  coordLtB a.1 b.1 || (a.1 = b.1 && coordLtB a.2 b.2)

/-- Strict lexicographic comparison on edge lists (Python `<` on lists). -/
def pathLtB : List GEdge → List GEdge → Bool
  | _, [] => false
  | [], _ :: _ => true
  | x :: xs, y :: ys => gedgeLtB x y || (x = y && pathLtB xs ys)

/-- Strict comparison on `(score, path)` pairs (Python `<` on tuples):
compare scores first, then paths lexicographically. -/
def pairLtB (a b : ℚ × List GEdge) : Bool :=
  a.1 < b.1 || (a.1 = b.1 && pathLtB a.2 b.2)

/-- Python `max(a, b)`: returns `b` exactly when `b > a`. -/
def pyMax (a b : ℚ × List GEdge) : ℚ × List GEdge :=
  if pairLtB a b then b else a

/-- `FindNonBlockedPath` (`bayes_network.py` lines 176-198): score every
simple path from `start` to `tgt` by `EnumerationAskSet` on its edge list
(passing the fresh evidence copy `e | {}`), and fold Python `max` over the
`(score, path)` pairs starting from the sentinel `(0, [])`. -/
def FindNonBlockedPath (net : BNet) (start tgt : Coord) (e : Evid) : ℚ × List GEdge :=
  (AllSimplePathsStartToEndEdges net start tgt).foldl
    (fun high path =>
      pyMax high (EnumerationAskSet net (path.map fun pr => BNNode.edge pr.1 pr.2) e, path))
    (0, [])

/-- The unpruned comparison point of the pruning-invariance claim,
following the spec's words: `EnumerationAsk` with the barren-node step
skipped, evaluating `EnumerationAll` over the full unpruned topological
order of the network.  Identical to `EnumerationAsk` except that the
weight of each option is computed on `topoSort (mkBN net)` itself. -/
def EnumerationAskNoPrune (net : BNet) (query : List BNNode) (e : Evid) :
    List (BNVal × ℚ) × Evid :=
  match query with
  | [] => ([], e)
  | q0 :: _ =>
    let q := canon q0
    if q ∉ (mkBN net).nodes then ([(.b true, 0), (.b false, 1)], e)
    else if emem e q then
      ((eget e q, 1) :: ((optionsOf q).erase (eget e q)).map fun o => (o, 0), e)
    else
      let step := (optionsOf q).foldl
        (fun (acc : List (BNVal × ℚ) × Evid) opt =>
          let e' := einsert acc.2 q opt
          (acc.1 ++ [(opt, enumAll net (topoSort (mkBN net)) e')], e'))
        ([], e)
      (Normalize step.1, step.2)

/-- `CPTVertex(p)` (`utils.py` lines 5-16). -/
def CPTVertex (p : ℚ) : SeasonV → ℚ
  | .low => round5 p
  | .medium => round5 (min 1 (p * 2))
  | .high => round5 (min 1 (p * 3))

/-- `CPTEdge(qi, leakage)` (`utils.py` lines 18-33).  Note the `(False,
False)` entry is the raw leakage value, not rounded. -/
def CPTEdge (qi leakage : ℚ) : Bool → Bool → ℚ
  | false, false => leakage
  | true, false => round5 (1 - qi)
  | false, true => round5 (1 - qi)
  | true, true => round5 (1 - qi ^ 2)

/-- The edge-CPT entry as built by `InitBN` (`utils.py` lines 65-67):
`CPTEdge(1 - blockParam, leakage)` for the block parameter read from the
definition file. -/
def fragEdgeEntry (blockParam leakage : ℚ) : Bool → Bool → ℚ :=
  CPTEdge (1 - blockParam) leakage

/-! ### Basic lemmas about the evidence dict and the `EnumerationAsk` loop -/

theorem einsert_overwrite (e : Evid) (k : BNNode) (v w : BNVal) :
    einsert (einsert e k v) k w = einsert e k w := by
  induction e with
  | nil => simp [einsert]
  | cons kv rest ih =>
    by_cases h : kv.1 = k
    · simp [einsert, h]
    · simp [einsert, h, ih]

theorem elookup_einsert_self (e : Evid) (k : BNNode) (v : BNVal) :
    elookup (einsert e k v) k = some v := by
  induction e with
  | nil => simp [einsert, elookup]
  | cons kv rest ih =>
    by_cases h : kv.1 = k
    · simp [einsert, h, elookup]
    · simp [einsert, h, elookup, ih]

theorem elookup_einsert_ne (e : Evid) (k k' : BNNode) (v : BNVal) (h : k' ≠ k) :
    elookup (einsert e k v) k' = elookup e k' := by
  have hk : k ≠ k' := fun hh => h hh.symm
  induction e with
  | nil => simp [einsert, elookup, hk]
  | cons kv rest ih =>
    by_cases hkv : kv.1 = k
    · subst hkv
      simp [einsert, elookup, hk]
    · simp only [einsert, if_neg hkv]
      by_cases hk' : kv.1 = k'
      · simp [elookup, hk']
      · simp [elookup, hk', ih]

theorem optionsOf_ne_season {q : BNNode} (hq : q ≠ .season) :
    optionsOf q = [.b true, .b false] := by
  rw [optionsOf, if_neg hq]

theorem optionsOf_season : optionsOf .season = [.s .low, .s .medium, .s .high] := rfl

/-- Unrolling the option loop of `EnumerationAsk`: starting from any
evidence dict that assigns through `einsert` the same way as `e` does, the
fold produces one weight per option (each computed at `e` extended with
that option, since each iteration overwrites the previous query binding)
and leaves the query bound to the last option. -/
theorem askFoldGen (q : BNNode) (e : Evid) (W : Evid → BNVal → ℚ) :
    ∀ (opts : List BNVal) (acc : List (BNVal × ℚ)) (e0 : Evid),
      (∀ v, einsert e0 q v = einsert e q v) →
      opts.foldl (fun (a : List (BNVal × ℚ) × Evid) opt =>
          (a.1 ++ [(opt, W (einsert a.2 q opt) opt)], einsert a.2 q opt)) (acc, e0)
        = (acc ++ opts.map fun opt => (opt, W (einsert e q opt) opt),
           (opts.getLast?).elim e0 fun v => einsert e q v) := by
  intro opts
  induction opts with
  | nil => intro acc e0 _; simp
  | cons opt rest ih =>
    intro acc e0 h0
    simp only [List.foldl_cons, h0]
    rw [ih (acc ++ [(opt, W (einsert e q opt) opt)]) (einsert e q opt)
      (fun v => einsert_overwrite e q opt v)]
    refine congrArg₂ Prod.mk (by simp) ?_
    cases rest with
    | nil => rfl
    | cons r rs => simp [List.getLast?]

/-- The last element of the option list: `False` for boolean variables,
`'high'` for the season variable. -/
theorem optionsOf_getLast (q : BNNode) :
    (optionsOf q).getLast? = some (if q = .season then .s .high else .b false) := by
  by_cases hq : q = .season <;> simp [optionsOf, hq, List.getLast?]

/-- Full unfolding of `EnumerationAsk` in the interesting branch: the query
is a member of the network and not yet observed.  The returned distribution
normalizes one weight per option of the (canonicalised) query, each weight
an `EnumerationAll` run over the pruned topological order with the query
bound to that option; the caller's evidence dict is left with the query
bound to the last option of the loop. -/
theorem enumAsk_eval (net : BNet) (q0 : BNNode) (rest : List BNNode) (e : Evid)
    (hmem : canon q0 ∈ (mkBN net).nodes) (hobs : emem e (canon q0) = false) :
    EnumerationAsk net (q0 :: rest) e =
      (Normalize ((optionsOf (canon q0)).map fun opt =>
          (opt, enumAll net
            (topoSort (removeBarren (mkBN net) [canon q0] (einsert e (canon q0) opt)))
            (einsert e (canon q0) opt))),
       einsert e (canon q0) (if canon q0 = .season then .s .high else .b false)) := by
  simp only [EnumerationAsk]
  rw [if_neg (not_not_intro hmem), if_neg (by simp [hobs])]
  rw [askFoldGen (canon q0) e
    (fun e' opt => enumAll net (topoSort (removeBarren (mkBN net) [canon q0] e')) e')
    (optionsOf (canon q0)) [] e (fun _ => rfl)]
  rw [optionsOf_getLast]
  simp

/-- The same unfolding for the unpruned comparison function. -/
theorem enumAskNP_eval (net : BNet) (q0 : BNNode) (rest : List BNNode) (e : Evid)
    (hmem : canon q0 ∈ (mkBN net).nodes) (hobs : emem e (canon q0) = false) :
    EnumerationAskNoPrune net (q0 :: rest) e =
      (Normalize ((optionsOf (canon q0)).map fun opt =>
          (opt, enumAll net (topoSort (mkBN net)) (einsert e (canon q0) opt))),
       einsert e (canon q0) (if canon q0 = .season then .s .high else .b false)) := by
  simp only [EnumerationAskNoPrune]
  rw [if_neg (not_not_intro hmem), if_neg (by simp [hobs])]
  rw [askFoldGen (canon q0) e
    (fun e' _ => enumAll net (topoSort (mkBN net)) e')
    (optionsOf (canon q0)) [] e (fun _ => rfl)]
  rw [optionsOf_getLast]
  simp

/-- Specialisation of `enumAskNP_eval` to a non-season query, with the two
boolean options spelled out. -/
theorem enumAskNP_hidden_bool (net : BNet) (q0 : BNNode) (rest : List BNNode) (e : Evid)
    (hq : canon q0 ≠ .season)
    (hmem : canon q0 ∈ (mkBN net).nodes)
    (hobs : emem e (canon q0) = false) :
    (EnumerationAskNoPrune net (q0 :: rest) e).1 =
      Normalize
        [(.b true, enumAll net (topoSort (mkBN net)) (einsert e (canon q0) (.b true))),
         (.b false, enumAll net (topoSort (mkBN net)) (einsert e (canon q0) (.b false)))] := by
  rw [enumAskNP_eval net q0 rest e hmem hobs]
  simp [optionsOf_ne_season hq]

/-- Specialisation of `enumAsk_eval` to a non-season query, with the two
boolean options spelled out. -/
theorem enumAsk_hidden_bool (net : BNet) (q0 : BNNode) (rest : List BNNode) (e : Evid)
    (hq : canon q0 ≠ .season)
    (hmem : canon q0 ∈ (mkBN net).nodes)
    (hobs : emem e (canon q0) = false) :
    (EnumerationAsk net (q0 :: rest) e).1 =
      Normalize
        [(.b true, enumAll net
            (topoSort (removeBarren (mkBN net) [canon q0] (einsert e (canon q0) (.b true))))
            (einsert e (canon q0) (.b true))),
         (.b false, enumAll net
            (topoSort (removeBarren (mkBN net) [canon q0] (einsert e (canon q0) (.b false))))
            (einsert e (canon q0) (.b false)))] := by
  rw [enumAsk_eval net q0 rest e hmem hobs]
  simp [optionsOf_ne_season hq]

/-! ### Concrete instances used by the claims -/

/-- The network of the spec's worked example: season prior
`{low: 0.5, medium: 0.3, high: 0.2}`, a single vertex `(0,0)` with base
risk `0.1`, no fragile edges. -/
def net2 : BNet where
  pLow := 1/2
  pMed := 3/10
  pHigh := 1/5
  verts := [(0,0)]
  vertCPT := fun v => if v = (0,0) then CPTVertex (1/10) else fun _ => 0
  edges := []
  edgeCPT := fun _ _ _ => 0
  gx := 1
  gy := 1

theorem net2_vertCPT : net2.vertCPT = fun v => if v = (0,0) then CPTVertex (1/10) else fun _ => 0 :=
  rfl

theorem net2_seasonP_low : seasonP net2 .low = 1/2 := rfl

theorem net2_prune_true : topoSort (removeBarren (mkBN net2) [.vertex (0,0)]
      [(.season, .s .low), (.vertex (0,0), .b true)]) = [.vertex (0,0)] := by decide

theorem net2_prune_false : topoSort (removeBarren (mkBN net2) [.vertex (0,0)]
      [(.season, .s .low), (.vertex (0,0), .b false)]) = [.vertex (0,0)] := by decide

/-- C2: on the concrete instance with season prior
`{low: 0.5, medium: 0.3, high: 0.2}` and vertex `(0,0)` base risk `0.1`,
the derived vertex CPT is `{low: 0.1, medium: 0.2, high: 0.3}` (via
`CPTVertex`'s `p`, `min(1, 2p)`, `min(1, 3p)` with rounding), and
`EnumerationAsk` on query `(0,0)` with evidence `{season: 'low'}` returns
`{True: 0.1, False: 0.9}`. -/
theorem C2_concrete_instance :
    (CPTVertex (1/10) .low = 1/10 ∧ CPTVertex (1/10) .medium = 2/10 ∧
      CPTVertex (1/10) .high = 3/10) ∧
    (EnumerationAsk net2 [.vertex (0,0)] [(.season, .s .low)]).1
      = [(.b true, 1/10), (.b false, 9/10)] := by
  refine ⟨⟨?_, ?_, ?_⟩, ?_⟩
  · norm_num [CPTVertex, round5]
  · norm_num [CPTVertex, round5, min_def]
  · norm_num [CPTVertex, round5, min_def]
  · rw [enumAsk_hidden_bool net2 (.vertex (0,0)) [] [(.season, .s .low)]
      (by decide) (by decide) (by decide)]
    rw [show canon (BNNode.vertex (0,0)) = .vertex (0,0) from rfl]
    rw [show einsert [(BNNode.season, BNVal.s .low)] (.vertex (0,0)) (.b true)
        = [(.season, .s .low), (.vertex (0,0), .b true)] from by decide]
    rw [show einsert [(BNNode.season, BNVal.s .low)] (.vertex (0,0)) (.b false)
        = [(.season, .s .low), (.vertex (0,0), .b false)] from by decide]
    rw [net2_prune_true, net2_prune_false]
    norm_num +decide [enumAll, Probability, net2_vertCPT, net2_seasonP_low, emem, elookup,
      eget, einsert, canon, optionsOf, truthy, asSeason, asBool, CPTVertex, round5,
      Normalize, min_def]

/-- C3: `EnumerationAskSet` satisfies the chain-rule recursion — the empty
sequence yields 1.0, a non-empty sequence yields the head's `False`
probability under `EnumerationAsk` times the recursive value on the tail
with the head bound to `False`, rounded at 5 digits at each step; in
particular a singleton yields the head's `False` probability up to that
rounding. -/
theorem C3_chain_rule :
    (∀ (net : BNet) (e : Evid), EnumerationAskSet net [] e = 1) ∧
    (∀ (net : BNet) (q : BNNode) (rest : List BNNode) (e : Evid),
      EnumerationAskSet net (q :: rest) e =
        round5 ((dlookup (EnumerationAsk net [q] e).1 (.b false)).getD 0 *
          EnumerationAskSet net rest (einsert e q (.b false)))) ∧
    (∀ (net : BNet) (x : BNNode) (e : Evid),
      EnumerationAskSet net [x] e =
        round5 ((dlookup (EnumerationAsk net [x] e).1 (.b false)).getD 0)) := by
  refine ⟨fun _ _ => rfl, fun _ _ _ _ => rfl, fun net x e => ?_⟩
  have h : EnumerationAskSet net [x] e =
      round5 ((dlookup (EnumerationAsk net [x] e).1 (.b false)).getD 0 *
        EnumerationAskSet net [] (einsert e x (.b false))) := rfl
  rw [h, show EnumerationAskSet net [] (einsert e x (.b false)) = 1 from rfl, mul_one]

/-- Looking up any element of a list of zero-weight entries yields 0. -/
theorem dlookup_map_zero (l : List BNVal) (o : BNVal) (h : o ∈ l) :
    dlookup (l.map fun x => (x, (0:ℚ))) o = some 0 := by
  induction l with
  | nil => cases h
  | cons x xs ih =>
    by_cases hx : x = o
    · simp [dlookup, hx]
    · have : o ∈ xs := by
        rcases List.mem_cons.1 h with h' | h'
        · exact absurd h'.symm hx
        · exact h'
      simp [dlookup, hx, ih this]

/-- C5: when the (canonicalised) query is a node of the network and is
observed in the evidence with a value of its domain, `EnumerationAsk`
returns the point mass: the observed value first with probability 1.0 and
every other domain value with probability 0.0. -/
theorem C5_point_mass (net : BNet) (q0 : BNNode) (rest : List BNNode) (e : Evid) (v : BNVal)
    (hmem : canon q0 ∈ (mkBN net).nodes)
    (hobs : elookup e (canon q0) = some v)
    (hdom : v ∈ optionsOf (canon q0)) :
    (EnumerationAsk net (q0 :: rest) e).1
      = (v, 1) :: ((optionsOf (canon q0)).erase v).map (fun o => (o, 0)) ∧
    dlookup (EnumerationAsk net (q0 :: rest) e).1 v = some 1 ∧
    (∀ o ∈ optionsOf (canon q0), o ≠ v →
      dlookup (EnumerationAsk net (q0 :: rest) e).1 o = some 0) := by
  have hmm : emem e (canon q0) = true := by simp [emem, hobs]
  have hget : eget e (canon q0) = v := by simp [eget, hobs]
  have h1 : (EnumerationAsk net (q0 :: rest) e).1
      = (v, 1) :: ((optionsOf (canon q0)).erase v).map (fun o => (o, 0)) := by
    simp only [EnumerationAsk]
    rw [if_neg (not_not_intro hmem), if_pos (by simp [hmm] : (emem e (canon q0) : Prop)), hget]
  refine ⟨h1, ?_, ?_⟩
  · rw [h1]; simp [dlookup]
  · intro o ho hne
    rw [h1]
    have hh : dlookup ((v, (1:ℚ)) :: ((optionsOf (canon q0)).erase v).map (fun o => (o, 0))) o
        = dlookup (((optionsOf (canon q0)).erase v).map (fun o => (o, 0))) o := by
      have : v ≠ o := fun hvo => hne hvo.symm
      simp [dlookup, this]
    rw [hh]
    exact dlookup_map_zero _ o ((List.mem_erase_of_ne hne).2 ho)

/-- Witness for C5 at a concrete instance: vertex `(0,0)` observed `True`. -/
theorem C5_witness :
    dlookup (EnumerationAsk net2 [.vertex (0,0)] [(.vertex (0,0), .b true)]).1 (.b true)
      = some 1 ∧
    dlookup (EnumerationAsk net2 [.vertex (0,0)] [(.vertex (0,0), .b true)]).1 (.b false)
      = some 0 := by
  have h := C5_point_mass net2 (.vertex (0,0)) [] [(.vertex (0,0), .b true)] (.b true)
    (by decide) (by decide) (by decide)
  exact ⟨h.2.1, h.2.2 (.b false) (by decide) (by decide)⟩

/-- C6 counterexample: the `(False, False)` entry of the edge CPT is the
raw leakage value, not its 5-digit rounding — with leakage `1e-6` the
stored entry differs from the rounded value the claim asserts. -/
theorem C6_counterexample :
    fragEdgeEntry (1/2) (1/1000000) false false ≠ round5 (1/1000000) := by
  norm_num [fragEdgeEntry, CPTEdge, round5]

/-- C6 amended: with `qi = 1 - blockParameter` as passed by `InitBN`, the
edge CPT maps `(False, False)` to the *unrounded* leakage, `(True, False)`
and `(False, True)` to `round5 (1 - qi)`, and `(True, True)` to
`round5 (1 - qi²)`. -/
theorem C6_amended (bp l : ℚ) :
    fragEdgeEntry bp l false false = l ∧
    fragEdgeEntry bp l true false = round5 (1 - (1 - bp)) ∧
    fragEdgeEntry bp l false true = round5 (1 - (1 - bp)) ∧
    fragEdgeEntry bp l true true = round5 (1 - (1 - bp) ^ 2) :=
  ⟨rfl, rfl, rfl, rfl⟩

/-- C8: when the (canonicalised) query variable is not a node of the
network, `EnumerationAsk` returns the fixed fallback distribution
`{True: 0.0, False: 1.0}` (and the evidence dict untouched), with no
error raised. -/
theorem C8_fallback (net : BNet) (q0 : BNNode) (rest : List BNNode) (e : Evid)
    (h : canon q0 ∉ (mkBN net).nodes) :
    EnumerationAsk net (q0 :: rest) e = ([(.b true, 0), (.b false, 1)], e) := by
  simp only [EnumerationAsk]
  rw [if_pos h]

/-- Witness for C8: a vertex outside the concrete network. -/
theorem C8_witness :
    EnumerationAsk net2 [.vertex (5,5)] [(.season, .s .low)]
      = ([(.b true, 0), (.b false, 1)], [(.season, .s .low)]) :=
  C8_fallback net2 (.vertex (5,5)) [] [(.season, .s .low)] (by decide)

/-- C7: when the unnormalized weights collected by `EnumerationAsk` are all
exactly zero (contradictory evidence), `Normalize` returns the all-zero
dict unchanged instead of dividing by zero, so `EnumerationAsk` returns
the all-zero distribution rather than raising. -/
theorem Normalize_zero_sum (d : List (BNVal × ℚ)) (h : (d.map Prod.snd).sum = 0) :
    Normalize d = d := by
  simp [Normalize, h]

theorem C7_zero_evidence :
    (∀ d : List (BNVal × ℚ), (d.map Prod.snd).sum = 0 → Normalize d = d) ∧
    (∀ (net : BNet) (q0 : BNNode) (rest : List BNNode) (e : Evid),
      canon q0 ∈ (mkBN net).nodes → emem e (canon q0) = false →
      (∀ opt ∈ optionsOf (canon q0),
        enumAll net
          (topoSort (removeBarren (mkBN net) [canon q0] (einsert e (canon q0) opt)))
          (einsert e (canon q0) opt) = 0) →
      (EnumerationAsk net (q0 :: rest) e).1 = (optionsOf (canon q0)).map fun o => (o, 0)) := by
  constructor
  · exact Normalize_zero_sum
  · intro net q0 rest e hmem hobs hz
    rw [show (EnumerationAsk net (q0 :: rest) e).1
        = Normalize ((optionsOf (canon q0)).map fun opt =>
            (opt, enumAll net
              (topoSort (removeBarren (mkBN net) [canon q0] (einsert e (canon q0) opt)))
              (einsert e (canon q0) opt)))
        from by rw [enumAsk_eval net q0 rest e hmem hobs]]
    rw [List.map_congr_left (fun opt hopt => by rw [hz opt hopt])]
    refine Normalize_zero_sum _ ?_
    rw [List.map_map]
    have hc : (Prod.snd ∘ fun o : BNVal => (o, (0:ℚ))) = fun _ => 0 := rfl
    rw [hc]
    induction optionsOf (canon q0) with
    | nil => simp
    | cons x xs ih => simp [ih]

/-- A contradictory-evidence instance: vertex `(0,0)` has base risk 0, so
observing it `True` gives every enumeration weight the factor
`P((0,0)=True | season) = 0`. -/
def netC : BNet where
  pLow := 1/2
  pMed := 3/10
  pHigh := 1/5
  verts := [(0,0), (0,1)]
  vertCPT := fun v => if v = (0,0) then CPTVertex 0 else CPTVertex (1/10)
  edges := [((0,0),(0,1))]
  edgeCPT := fun _ => CPTEdge (1/2) (3/10)
  gx := 1
  gy := 1

theorem netC_vertCPT :
    netC.vertCPT = fun v => if v = (0,0) then CPTVertex 0 else CPTVertex (1/10) := rfl

theorem netC_edgeCPT : netC.edgeCPT = fun _ => CPTEdge (1/2) (3/10) := rfl

theorem netC_seasonP : seasonP netC .low = 1/2 ∧ seasonP netC .medium = 3/10 ∧
    seasonP netC .high = 1/5 := ⟨rfl, rfl, rfl⟩

theorem netC_prune_true : topoSort (removeBarren (mkBN netC) [.edge (0,0) (0,1)]
      [(.vertex (0,0), .b true), (.edge (0,0) (0,1), .b true)])
    = [.season, .vertex (0,0), .vertex (0,1), .edge (0,0) (0,1)] := by decide

theorem netC_prune_false : topoSort (removeBarren (mkBN netC) [.edge (0,0) (0,1)]
      [(.vertex (0,0), .b true), (.edge (0,0) (0,1), .b false)])
    = [.season, .vertex (0,0), .vertex (0,1), .edge (0,0) (0,1)] := by decide

theorem netC_weight_zero_true :
    enumAll netC [.season, .vertex (0,0), .vertex (0,1), .edge (0,0) (0,1)]
      [(.vertex (0,0), .b true), (.edge (0,0) (0,1), .b true)] = 0 := by
  norm_num +decide [enumAll, Probability, netC_vertCPT, netC_edgeCPT, netC_seasonP.1,
    netC_seasonP.2.1, netC_seasonP.2.2, emem, elookup, eget, einsert, canon, coordLeB,
    optionsOf, truthy, asSeason, asBool, CPTVertex, CPTEdge, seasonP, round5, min_def]

theorem netC_weight_zero_false :
    enumAll netC [.season, .vertex (0,0), .vertex (0,1), .edge (0,0) (0,1)]
      [(.vertex (0,0), .b true), (.edge (0,0) (0,1), .b false)] = 0 := by
  norm_num +decide [enumAll, Probability, netC_vertCPT, netC_edgeCPT, netC_seasonP.1,
    netC_seasonP.2.1, netC_seasonP.2.2, emem, elookup, eget, einsert, canon, coordLeB,
    optionsOf, truthy, asSeason, asBool, CPTVertex, CPTEdge, seasonP, round5, min_def]

/-- Witness for C7: on the contradictory instance, both weights are zero
and `EnumerationAsk` returns the all-zero distribution. -/
theorem C7_witness :
    (EnumerationAsk netC [.edge (0,0) (0,1)] [(.vertex (0,0), .b true)]).1
      = [(.b true, 0), (.b false, 0)] := by
  have h := C7_zero_evidence.2 netC (.edge (0,0) (0,1)) [] [(.vertex (0,0), .b true)]
    (by decide) (by decide) ?_
  · rw [h]
    decide
  · intro opt hopt
    have hco : canon (BNNode.edge (0,0) (0,1)) = .edge (0,0) (0,1) := by decide
    rw [hco] at hopt ⊢
    rw [optionsOf_ne_season (by decide)] at hopt
    have : opt = .b true ∨ opt = .b false := by
      rcases List.mem_cons.1 hopt with h' | h'
      · exact Or.inl h'
      · rcases List.mem_cons.1 h' with h'' | h''
        · exact Or.inr h''
        · cases h''
    rcases this with h' | h' <;> subst h'
    · rw [show einsert [(BNNode.vertex (0,0), BNVal.b true)] (.edge (0,0) (0,1)) (.b true)
          = [(.vertex (0,0), .b true), (.edge (0,0) (0,1), .b true)] from by decide,
        netC_prune_true, netC_weight_zero_true]
    · rw [show einsert [(BNNode.vertex (0,0), BNVal.b true)] (.edge (0,0) (0,1)) (.b false)
          = [(.vertex (0,0), .b true), (.edge (0,0) (0,1), .b false)] from by decide,
        netC_prune_false, netC_weight_zero_false]

/-- C9 counterexample: `EnumerationAsk` is not pure in its evidence
argument — after asking for the unobserved in-network vertex `(0,0)`, the
caller's evidence dict has gained the binding `(0,0) ↦ False` left behind
by the option loop. -/
theorem C9_counterexample :
    (EnumerationAsk net2 [.vertex (0,0)] [(.season, .s .low)]).2 ≠ [(.season, .s .low)] := by
  rw [enumAsk_eval net2 (.vertex (0,0)) [] [(.season, .s .low)] (by decide) (by decide)]
  decide

/-- C9 amended: `EnumerationAsk` leaves the caller's evidence unchanged
when the canonicalised query is absent from the network or already
observed; otherwise the call adds exactly one binding, mapping the
canonicalised query to the last option of the loop (`'high'` for the
season variable, `False` otherwise), leaving every other key's binding
unchanged. -/
theorem C9_amended (net : BNet) (q0 : BNNode) (rest : List BNNode) (e : Evid) :
    (canon q0 ∉ (mkBN net).nodes → (EnumerationAsk net (q0 :: rest) e).2 = e) ∧
    (canon q0 ∈ (mkBN net).nodes → emem e (canon q0) = true →
      (EnumerationAsk net (q0 :: rest) e).2 = e) ∧
    (canon q0 ∈ (mkBN net).nodes → emem e (canon q0) = false →
      (EnumerationAsk net (q0 :: rest) e).2
          = einsert e (canon q0) (if canon q0 = .season then .s .high else .b false) ∧
      elookup (EnumerationAsk net (q0 :: rest) e).2 (canon q0)
          = some (if canon q0 = .season then .s .high else .b false) ∧
      ∀ k, k ≠ canon q0 →
        elookup (EnumerationAsk net (q0 :: rest) e).2 k = elookup e k) := by
  refine ⟨fun h => ?_, fun hmem hobs => ?_, fun hmem hobs => ?_⟩
  · simp only [EnumerationAsk]
    rw [if_pos h]
  · simp only [EnumerationAsk]
    rw [if_neg (not_not_intro hmem), if_pos (by simp [hobs] : (emem e (canon q0) : Prop))]
  · rw [enumAsk_eval net q0 rest e hmem hobs]
    exact ⟨rfl, elookup_einsert_self e (canon q0) _,
      fun k hk => elookup_einsert_ne e (canon q0) k _ hk⟩

/-- Witness for C9 amended, third branch: asking for `(0,0)` under
season-only evidence appends the binding `(0,0) ↦ False`. -/
theorem C9_witness :
    (EnumerationAsk net2 [.vertex (0,0)] [(.season, .s .high)]).2
      = [(.season, .s .high), (.vertex (0,0), .b false)] := by
  have h := (C9_amended net2 (.vertex (0,0)) [] [(.season, .s .high)]).2.2
    (by decide) (by decide)
  rw [h.1]
  decide

/-- C10: `EnumerationAskSet` never mutates its evidence argument: it hands
`EnumerationAsk` the fresh copy `e | {}` (so the callee's write-back lands
in a dict the caller never sees) and recurses on the newly built
`e | {head: False}`, leaving the caller's dict exactly as it was — even
though `EnumerationAsk` itself does write into the dict it receives, as
the second conjunct shows on a concrete instance. -/
theorem C10_askset_frame :
    (∀ (net : BNet) (qs : List BNNode) (e : Evid),
      (EnumerationAskSetFull net qs e).2 = e ∧
      (EnumerationAskSetFull net qs e).1 = EnumerationAskSet net qs e) ∧
    (EnumerationAsk net2 [.vertex (0,0)] [(.season, .s .medium)]).2
      ≠ [(.season, .s .medium)] := by
  constructor
  · intro net qs
    induction qs with
    | nil => exact fun e => ⟨rfl, rfl⟩
    | cons q rest ih =>
      intro e
      refine ⟨rfl, ?_⟩
      simp only [EnumerationAskSetFull, EnumerationAskSet]
      rw [(ih _).2]
  · rw [enumAsk_eval net2 (.vertex (0,0)) [] [(.season, .s .medium)] (by decide) (by decide)]
    decide

/-! ### The tie-breaking counterexample instance for path search (C4) -/

/-- A symmetric 2×2-grid network: every vertex has base risk 0 (so the
vertices are deterministically `False` and the four edges are mutually
independent given the season), every edge has the same CPT.  The two
simple paths between opposite corners then tie exactly. -/
def net4 : BNet where
  pLow := 1/2
  pMed := 3/10
  pHigh := 1/5
  verts := [(0,0), (0,1), (1,0), (1,1)]
  vertCPT := fun _ => CPTVertex 0
  edges := [((0,0),(0,1)), ((0,0),(1,0)), ((0,1),(1,1)), ((1,0),(1,1))]
  edgeCPT := fun _ => CPTEdge (1/2) (3/10)
  gx := 1
  gy := 1

theorem net4_vertCPT : net4.vertCPT = fun _ => CPTVertex 0 := rfl

theorem net4_edgeCPT : net4.edgeCPT = fun _ => CPTEdge (1/2) (3/10) := rfl

theorem net4_seasonP_low : seasonP net4 .low = 1/2 := rfl

theorem c4_prune1 : topoSort (removeBarren (mkBN net4) [.edge (0,0) (1,0)]
      [(.season, .s .low), (.edge (0,0) (1,0), .b true)]) =
    [.vertex (0,0), .vertex (1,0), .edge (0,0) (1,0)] := by decide

theorem c4_prune2 : topoSort (removeBarren (mkBN net4) [.edge (0,0) (1,0)]
      [(.season, .s .low), (.edge (0,0) (1,0), .b false)]) =
    [.vertex (0,0), .vertex (1,0), .edge (0,0) (1,0)] := by decide

theorem c4_prune3 : topoSort (removeBarren (mkBN net4) [.edge (0,0) (0,1)]
      [(.season, .s .low), (.edge (1,0) (0,0), .b false), (.edge (0,0) (0,1), .b true)]) =
    [.vertex (0,0), .vertex (0,1), .edge (0,0) (0,1)] := by decide

theorem c4_prune4 : topoSort (removeBarren (mkBN net4) [.edge (0,0) (0,1)]
      [(.season, .s .low), (.edge (1,0) (0,0), .b false), (.edge (0,0) (0,1), .b false)]) =
    [.vertex (0,0), .vertex (0,1), .edge (0,0) (0,1)] := by decide

theorem c4_prune5 : topoSort (removeBarren (mkBN net4) [.edge (1,0) (1,1)]
      [(.season, .s .low), (.edge (1,0) (1,1), .b true)]) =
    [.vertex (1,0), .vertex (1,1), .edge (1,0) (1,1)] := by decide

theorem c4_prune6 : topoSort (removeBarren (mkBN net4) [.edge (1,0) (1,1)]
      [(.season, .s .low), (.edge (1,0) (1,1), .b false)]) =
    [.vertex (1,0), .vertex (1,1), .edge (1,0) (1,1)] := by decide

theorem c4_prune7 : topoSort (removeBarren (mkBN net4) [.edge (0,1) (1,1)]
      [(.season, .s .low), (.edge (1,0) (1,1), .b false), (.edge (0,1) (1,1), .b true)]) =
    [.vertex (0,1), .vertex (1,0), .vertex (1,1), .edge (0,1) (1,1), .edge (1,0) (1,1)] := by
  decide

theorem c4_prune8 : topoSort (removeBarren (mkBN net4) [.edge (0,1) (1,1)]
      [(.season, .s .low), (.edge (1,0) (1,1), .b false), (.edge (0,1) (1,1), .b false)]) =
    [.vertex (0,1), .vertex (1,0), .vertex (1,1), .edge (0,1) (1,1), .edge (1,0) (1,1)] := by
  decide

theorem c4_askA1 : (EnumerationAsk net4 [.edge (1,0) (0,0)] [(.season, .s .low)]).1
    = [(.b true, 3/10), (.b false, 7/10)] := by
  rw [enumAsk_hidden_bool net4 (.edge (1,0) (0,0)) [] [(.season, .s .low)]
    (by decide) (by decide) (by decide)]
  rw [show canon (BNNode.edge (1,0) (0,0)) = .edge (0,0) (1,0) from by decide]
  rw [show einsert [(BNNode.season, BNVal.s .low)] (.edge (0,0) (1,0)) (.b true)
      = [(.season, .s .low), (.edge (0,0) (1,0), .b true)] from by decide]
  rw [show einsert [(BNNode.season, BNVal.s .low)] (.edge (0,0) (1,0)) (.b false)
      = [(.season, .s .low), (.edge (0,0) (1,0), .b false)] from by decide]
  rw [c4_prune1, c4_prune2]
  norm_num +decide [enumAll, Probability, net4_vertCPT, net4_edgeCPT, net4_seasonP_low,
    emem, elookup, eget, einsert, canon, coordLeB, optionsOf, truthy, asSeason, asBool,
    CPTVertex, CPTEdge, round5, Normalize, min_def]

theorem c4_askA2 : (EnumerationAsk net4 [.edge (0,0) (0,1)]
      [(.season, .s .low), (.edge (1,0) (0,0), .b false)]).1
    = [(.b true, 3/10), (.b false, 7/10)] := by
  rw [enumAsk_hidden_bool net4 (.edge (0,0) (0,1)) []
    [(.season, .s .low), (.edge (1,0) (0,0), .b false)] (by decide) (by decide) (by decide)]
  rw [show canon (BNNode.edge (0,0) (0,1)) = .edge (0,0) (0,1) from by decide]
  rw [show einsert [(BNNode.season, BNVal.s .low), (.edge (1,0) (0,0), .b false)]
        (.edge (0,0) (0,1)) (.b true)
      = [(.season, .s .low), (.edge (1,0) (0,0), .b false), (.edge (0,0) (0,1), .b true)]
      from by decide]
  rw [show einsert [(BNNode.season, BNVal.s .low), (.edge (1,0) (0,0), .b false)]
        (.edge (0,0) (0,1)) (.b false)
      = [(.season, .s .low), (.edge (1,0) (0,0), .b false), (.edge (0,0) (0,1), .b false)]
      from by decide]
  rw [c4_prune3, c4_prune4]
  norm_num +decide [enumAll, Probability, net4_vertCPT, net4_edgeCPT, net4_seasonP_low,
    emem, elookup, eget, einsert, canon, coordLeB, optionsOf, truthy, asSeason, asBool,
    CPTVertex, CPTEdge, round5, Normalize, min_def]

theorem c4_askB1 : (EnumerationAsk net4 [.edge (1,0) (1,1)] [(.season, .s .low)]).1
    = [(.b true, 3/10), (.b false, 7/10)] := by
  rw [enumAsk_hidden_bool net4 (.edge (1,0) (1,1)) [] [(.season, .s .low)]
    (by decide) (by decide) (by decide)]
  rw [show canon (BNNode.edge (1,0) (1,1)) = .edge (1,0) (1,1) from by decide]
  rw [show einsert [(BNNode.season, BNVal.s .low)] (.edge (1,0) (1,1)) (.b true)
      = [(.season, .s .low), (.edge (1,0) (1,1), .b true)] from by decide]
  rw [show einsert [(BNNode.season, BNVal.s .low)] (.edge (1,0) (1,1)) (.b false)
      = [(.season, .s .low), (.edge (1,0) (1,1), .b false)] from by decide]
  rw [c4_prune5, c4_prune6]
  norm_num +decide [enumAll, Probability, net4_vertCPT, net4_edgeCPT, net4_seasonP_low,
    emem, elookup, eget, einsert, canon, coordLeB, optionsOf, truthy, asSeason, asBool,
    CPTVertex, CPTEdge, round5, Normalize, min_def]

theorem c4_askB2 : (EnumerationAsk net4 [.edge (1,1) (0,1)]
      [(.season, .s .low), (.edge (1,0) (1,1), .b false)]).1
    = [(.b true, 3/10), (.b false, 7/10)] := by
  rw [enumAsk_hidden_bool net4 (.edge (1,1) (0,1)) []
    [(.season, .s .low), (.edge (1,0) (1,1), .b false)] (by decide) (by decide) (by decide)]
  rw [show canon (BNNode.edge (1,1) (0,1)) = .edge (0,1) (1,1) from by decide]
  rw [show einsert [(BNNode.season, BNVal.s .low), (.edge (1,0) (1,1), .b false)]
        (.edge (0,1) (1,1)) (.b true)
      = [(.season, .s .low), (.edge (1,0) (1,1), .b false), (.edge (0,1) (1,1), .b true)]
      from by decide]
  rw [show einsert [(BNNode.season, BNVal.s .low), (.edge (1,0) (1,1), .b false)]
        (.edge (0,1) (1,1)) (.b false)
      = [(.season, .s .low), (.edge (1,0) (1,1), .b false), (.edge (0,1) (1,1), .b false)]
      from by decide]
  rw [c4_prune7, c4_prune8]
  norm_num +decide [enumAll, Probability, net4_vertCPT, net4_edgeCPT, net4_seasonP_low,
    emem, elookup, eget, einsert, canon, coordLeB, optionsOf, truthy, asSeason, asBool,
    CPTVertex, CPTEdge, round5, Normalize, min_def]

theorem c4_scoreA : EnumerationAskSet net4 [.edge (1,0) (0,0), .edge (0,0) (0,1)]
    [(.season, .s .low)] = 49/100 := by
  simp only [EnumerationAskSet, c4_askA1,
    show einsert [(BNNode.season, BNVal.s .low)] (.edge (1,0) (0,0)) (.b false)
      = [(.season, .s .low), (.edge (1,0) (0,0), .b false)] from by decide, c4_askA2]
  norm_num [dlookup, round5]

theorem c4_scoreB : EnumerationAskSet net4 [.edge (1,0) (1,1), .edge (1,1) (0,1)]
    [(.season, .s .low)] = 49/100 := by
  simp only [EnumerationAskSet, c4_askB1,
    show einsert [(BNNode.season, BNVal.s .low)] (.edge (1,0) (1,1)) (.b false)
      = [(.season, .s .low), (.edge (1,0) (1,1), .b false)] from by decide, c4_askB2]
  norm_num [dlookup, round5]

theorem c4_paths : AllSimplePathsStartToEndEdges net4 (1,0) (0,1)
    = [[((1,0),(0,0)), ((0,0),(0,1))], [((1,0),(1,1)), ((1,1),(0,1))]] := by decide

/-- C4 counterexample: on the symmetric 2×2 grid the two simple paths from
`(1,0)` to `(0,1)` have exactly equal scores, the path via `(0,0)` is
enumerated first, yet `FindNonBlockedPath` returns the path via `(1,1)` —
Python's tuple `max` breaks score ties toward the lexicographically larger
edge list, not the first-encountered path. -/
theorem C4_counterexample :
    FindNonBlockedPath net4 (1,0) (0,1) [(.season, .s .low)]
        = (49/100, [((1,0),(1,1)), ((1,1),(0,1))]) ∧
    AllSimplePathsStartToEndEdges net4 (1,0) (0,1)
        = [[((1,0),(0,0)), ((0,0),(0,1))], [((1,0),(1,1)), ((1,1),(0,1))]] ∧
    EnumerationAskSet net4 [.edge (1,0) (0,0), .edge (0,0) (0,1)] [(.season, .s .low)]
        = EnumerationAskSet net4 [.edge (1,0) (1,1), .edge (1,1) (0,1)] [(.season, .s .low)] ∧
    [((1,0),(0,0)), ((0,0),(0,1))] ≠ [((1,0),(1,1)), ((1,1),(0,1))] := by
  refine ⟨?_, c4_paths, by rw [c4_scoreA, c4_scoreB], by decide⟩
  simp only [FindNonBlockedPath, c4_paths, List.foldl_cons, List.foldl_nil, List.map_cons,
    List.map_nil, c4_scoreA, c4_scoreB, pyMax, pairLtB]
  norm_num +decide [pathLtB, gedgeLtB, coordLtB]

/-! ### The comparison used by Python tuple `max` is a strict total order -/

theorem coordLtB_irrefl (a : Coord) : coordLtB a a = false := by
  simp [coordLtB]

theorem coordLtB_trans {a b c : Coord} (h1 : coordLtB a b) (h2 : coordLtB b c) :
    coordLtB a c := by
  simp only [coordLtB, Bool.or_eq_true, Bool.and_eq_true, decide_eq_true_eq] at *
  omega

theorem coordLtB_asymm_eq {a b : Coord} (h1 : coordLtB a b = false)
    (h2 : coordLtB b a = false) : a = b := by
  rcases a with ⟨a1, a2⟩
  rcases b with ⟨b1, b2⟩
  simp only [coordLtB, Bool.or_eq_false_iff, Bool.and_eq_false_iff, decide_eq_false_iff_not,
    not_lt, Prod.mk.injEq] at *
  omega

theorem gedgeLtB_irrefl (a : GEdge) : gedgeLtB a a = false := by
  simp [gedgeLtB, coordLtB_irrefl]

theorem gedgeLtB_trans {a b c : GEdge} (h1 : gedgeLtB a b) (h2 : gedgeLtB b c) :
    gedgeLtB a c := by
  simp only [gedgeLtB, Bool.or_eq_true, Bool.and_eq_true, decide_eq_true_eq] at *
  rcases h1 with h1 | ⟨h1e, h1t⟩ <;> rcases h2 with h2 | ⟨h2e, h2t⟩
  · exact Or.inl (coordLtB_trans h1 h2)
  · exact Or.inl (h2e ▸ h1)
  · exact Or.inl (h1e ▸ h2)
  · exact Or.inr ⟨h1e.trans h2e, coordLtB_trans h1t h2t⟩

theorem gedgeLtB_asymm_eq {a b : GEdge} (h1 : gedgeLtB a b = false)
    (h2 : gedgeLtB b a = false) : a = b := by
  simp only [gedgeLtB, Bool.or_eq_false_iff, Bool.and_eq_false_iff,
    decide_eq_false_iff_not] at *
  have hf : a.1 = b.1 := coordLtB_asymm_eq h1.1 h2.1
  rcases h1.2 with h | h
  · exact absurd hf h
  · rcases h2.2 with h' | h'
    · exact absurd hf.symm h'
    · exact Prod.ext hf (coordLtB_asymm_eq h h')

theorem pathLtB_irrefl : ∀ l : List GEdge, pathLtB l l = false
  | [] => rfl
  | x :: xs => by simp [pathLtB, gedgeLtB_irrefl, pathLtB_irrefl xs]

theorem pathLtB_trans : ∀ {l1 l2 l3 : List GEdge},
    pathLtB l1 l2 → pathLtB l2 l3 → pathLtB l1 l3
  | _, [], _, h1, _ => by simp [pathLtB] at h1
  | _, _ :: _, [], _, h2 => by simp [pathLtB] at h2
  | [], x2 :: xs2, x3 :: xs3, _, _ => by simp [pathLtB]
  | x1 :: xs1, x2 :: xs2, x3 :: xs3, h1, h2 => by
    simp only [pathLtB, Bool.or_eq_true, Bool.and_eq_true, decide_eq_true_eq] at *
    rcases h1 with h1 | ⟨h1e, h1t⟩ <;> rcases h2 with h2 | ⟨h2e, h2t⟩
    · exact Or.inl (gedgeLtB_trans h1 h2)
    · exact Or.inl (h2e ▸ h1)
    · exact Or.inl (h1e ▸ h2)
    · exact Or.inr ⟨h1e.trans h2e, pathLtB_trans h1t h2t⟩

theorem pathLtB_asymm_eq : ∀ {l1 l2 : List GEdge},
    pathLtB l1 l2 = false → pathLtB l2 l1 = false → l1 = l2
  | [], [], _, _ => rfl
  | [], _ :: _, h1, _ => by simp [pathLtB] at h1
  | _ :: _, [], _, h2 => by simp [pathLtB] at h2
  | x1 :: xs1, x2 :: xs2, h1, h2 => by
    simp only [pathLtB, Bool.or_eq_false_iff, Bool.and_eq_false_iff,
      decide_eq_false_iff_not] at h1 h2
    have hx : x1 = x2 := gedgeLtB_asymm_eq h1.1 h2.1
    rcases h1.2 with h | h
    · exact absurd hx h
    · rcases h2.2 with h' | h'
      · exact absurd hx.symm h'
      · rw [hx, pathLtB_asymm_eq h h']

theorem pairLtB_irrefl (a : ℚ × List GEdge) : pairLtB a a = false := by
  simp [pairLtB, pathLtB_irrefl]

theorem pairLtB_trans {a b c : ℚ × List GEdge} (h1 : pairLtB a b) (h2 : pairLtB b c) :
    pairLtB a c := by
  simp only [pairLtB, Bool.or_eq_true, Bool.and_eq_true, decide_eq_true_eq] at *
  rcases h1 with h1 | ⟨h1e, h1t⟩ <;> rcases h2 with h2 | ⟨h2e, h2t⟩
  · exact Or.inl (h1.trans h2)
  · exact Or.inl (h2e ▸ h1)
  · exact Or.inl (h1e ▸ h2)
  · exact Or.inr ⟨h1e.trans h2e, pathLtB_trans h1t h2t⟩

theorem pairLtB_asymm_eq {a b : ℚ × List GEdge} (h1 : pairLtB a b = false)
    (h2 : pairLtB b a = false) : a = b := by
  simp only [pairLtB, Bool.or_eq_false_iff, Bool.and_eq_false_iff,
    decide_eq_false_iff_not, not_lt] at h1 h2
  have hf : a.1 = b.1 := le_antisymm h2.1 h1.1
  rcases h1.2 with h | h
  · exact absurd hf h
  · rcases h2.2 with h' | h'
    · exact absurd hf.symm h'
    · exact Prod.ext hf (pathLtB_asymm_eq h h')

/-- Negative transitivity of the Python tuple comparison: if `a` is not
beaten by `b` and `b` is not beaten by `c`, then `a` is not beaten by `c`. -/
theorem pairLtB_neg_trans {a b c : ℚ × List GEdge} (h1 : pairLtB b a = false)
    (h2 : pairLtB c b = false) : pairLtB c a = false := by
  by_contra hca
  rw [Bool.not_eq_false] at hca
  by_cases hbc : pairLtB b c = true
  · exact absurd (pairLtB_trans hbc hca) (by simp [h1])
  · rw [pairLtB_asymm_eq (by simpa using hbc) h2] at h1
    exact absurd hca (by simp [h1])

theorem pyMax_cases (a b : ℚ × List GEdge) : pyMax a b = a ∨ pyMax a b = b := by
  rw [pyMax]
  by_cases h : pairLtB a b = true
  · exact Or.inr (by rw [if_pos h])
  · exact Or.inl (by rw [if_neg h])

theorem pyMax_not_lt_left (a b : ℚ × List GEdge) : pairLtB (pyMax a b) a = false := by
  rw [pyMax]
  by_cases h : pairLtB a b = true
  · rw [if_pos h]
    by_contra hba
    rw [Bool.not_eq_false] at hba
    exact absurd (pairLtB_trans h hba) (by simp [pairLtB_irrefl])
  · rw [if_neg h, pairLtB_irrefl]

theorem pyMax_not_lt_right (a b : ℚ × List GEdge) : pairLtB (pyMax a b) b = false := by
  rw [pyMax]
  by_cases h : pairLtB a b = true
  · rw [if_pos h, pairLtB_irrefl]
  · rw [if_neg h]
    simpa using h

/-- Specification of the fold of Python `max` over a list of pairs: the
result is the initial value or a list element, and nothing in sight beats
it. -/
theorem foldl_pyMax_spec (l : List (ℚ × List GEdge)) :
    ∀ init : ℚ × List GEdge,
      (l.foldl pyMax init = init ∨ l.foldl pyMax init ∈ l) ∧
      pairLtB (l.foldl pyMax init) init = false ∧
      ∀ x ∈ l, pairLtB (l.foldl pyMax init) x = false := by
  induction l with
  | nil => intro init; exact ⟨Or.inl rfl, by simp [pairLtB_irrefl], by simp⟩
  | cons y ys ih =>
    intro init
    obtain ⟨hmem, hinit, hall⟩ := ih (pyMax init y)
    have hstep : ys.foldl pyMax (pyMax init y) = (y :: ys).foldl pyMax init := by
      simp [List.foldl_cons]
    refine ⟨?_, ?_, ?_⟩
    · rw [← hstep]
      rcases hmem with h | h
      · rw [h]
        rcases pyMax_cases init y with h' | h'
        · exact Or.inl h'
        · exact Or.inr (by rw [h']; exact List.mem_cons_self y ys)
      · exact Or.inr (List.mem_cons_of_mem y h)
    · rw [← hstep]
      exact pairLtB_neg_trans (pyMax_not_lt_left init y) hinit
    · intro x hx
      rw [← hstep]
      rcases List.mem_cons.1 hx with h | h
      · subst h
        exact pairLtB_neg_trans (pyMax_not_lt_right init x) hinit
      · exact hall x h

/-- C4 amended: `FindNonBlockedPath` returns the greatest element, under
Python's lexicographic tuple comparison, of the sentinel `(0, [])` and the
`(score, path)` pairs of all simple paths in enumeration order.  In
particular its score is maximal over all simple paths; but ties on the
score are broken toward the lexicographically larger edge list (the
comparison continues into the path component), not toward the
first-encountered path.  When the enumeration finds no path, the result is
the sentinel `(0, [])`. -/
theorem C4_amended (net : BNet) (start tgt : Coord) (e : Evid) :
    (FindNonBlockedPath net start tgt e = (0, []) ∨
      FindNonBlockedPath net start tgt e ∈
        (AllSimplePathsStartToEndEdges net start tgt).map fun p =>
          (EnumerationAskSet net (p.map fun pr => BNNode.edge pr.1 pr.2) e, p)) ∧
    pairLtB (FindNonBlockedPath net start tgt e) (0, []) = false ∧
    (∀ pr ∈ (AllSimplePathsStartToEndEdges net start tgt).map fun p =>
        (EnumerationAskSet net (p.map fun pr => BNNode.edge pr.1 pr.2) e, p),
      pairLtB (FindNonBlockedPath net start tgt e) pr = false) ∧
    (∀ p ∈ AllSimplePathsStartToEndEdges net start tgt,
      EnumerationAskSet net (p.map fun pr => BNNode.edge pr.1 pr.2) e
        ≤ (FindNonBlockedPath net start tgt e).1) ∧
    (AllSimplePathsStartToEndEdges net start tgt = [] →
      FindNonBlockedPath net start tgt e = (0, [])) := by
  have hfold : FindNonBlockedPath net start tgt e =
      ((AllSimplePathsStartToEndEdges net start tgt).map fun p =>
        (EnumerationAskSet net (p.map fun pr => BNNode.edge pr.1 pr.2) e, p)).foldl
        pyMax (0, []) := by
    rw [FindNonBlockedPath, List.foldl_map]
  obtain ⟨hmem, hinit, hall⟩ := foldl_pyMax_spec
    ((AllSimplePathsStartToEndEdges net start tgt).map fun p =>
      (EnumerationAskSet net (p.map fun pr => BNNode.edge pr.1 pr.2) e, p)) (0, [])
  refine ⟨by rw [hfold]; exact hmem, by rw [hfold]; exact hinit,
    fun pr hpr => by rw [hfold]; exact hall pr hpr, fun p hp => ?_, fun hempty => ?_⟩
  · have h := hall (EnumerationAskSet net (p.map fun pr => BNNode.edge pr.1 pr.2) e, p)
      (List.mem_map_of_mem _ hp)
    rw [← hfold] at h
    simp only [pairLtB, Bool.or_eq_false_iff, Bool.and_eq_false_iff,
      decide_eq_false_iff_not, not_lt] at h
    exact h.1
  · rw [FindNonBlockedPath, hempty]
    rfl

/-- Witness for C4 amended on the concrete 2×2 instance: the result beats
the sentinel and dominates the first path's score. -/
theorem C4_amended_witness :
    pairLtB (FindNonBlockedPath net4 (1,0) (0,1) [(.season, .s .low)]) (0, []) = false ∧
    EnumerationAskSet net4 [.edge (1,0) (0,0), .edge (0,0) (0,1)] [(.season, .s .low)]
      ≤ (FindNonBlockedPath net4 (1,0) (0,1) [(.season, .s .low)]).1 := by
  refine ⟨(C4_amended net4 (1,0) (0,1) [(.season, .s .low)]).2.1, ?_⟩
  have h := (C4_amended net4 (1,0) (0,1) [(.season, .s .low)]).2.2.2.1
    [((1,0),(0,0)), ((0,0),(0,1))] (by rw [c4_paths]; exact List.mem_cons_self _ _)
  simpa using h

/-! ### Pruning invariance: the zero-probability counterexample (C1) -/

/-- A network whose evidence `{season: 'low'}` has prior probability zero:
the unpruned enumeration keeps the season factor 0 in every weight and
normalisation returns the all-zero dict, while the pruning step removes
the observed season root and produces a proper distribution. -/
def netZ : BNet where
  pLow := 0
  pMed := 3/10
  pHigh := 7/10
  verts := [(0,0)]
  vertCPT := fun _ => CPTVertex (1/10)
  edges := []
  edgeCPT := fun _ _ _ => 0
  gx := 1
  gy := 1

theorem netZ_vertCPT : netZ.vertCPT = fun _ => CPTVertex (1/10) := rfl

theorem netZ_seasonP_low : seasonP netZ .low = 0 := rfl

theorem netZ_pLow : netZ.pLow = 0 := rfl

theorem netZ_prune_true : topoSort (removeBarren (mkBN netZ) [.vertex (0,0)]
      [(.season, .s .low), (.vertex (0,0), .b true)]) = [.vertex (0,0)] := by decide

theorem netZ_prune_false : topoSort (removeBarren (mkBN netZ) [.vertex (0,0)]
      [(.season, .s .low), (.vertex (0,0), .b false)]) = [.vertex (0,0)] := by decide

theorem netZ_full_order : topoSort (mkBN netZ) = [.season, .vertex (0,0)] := by decide

/-- C1 counterexample: with an evidence of probability zero (`season`
observed at a zero-prior value), `EnumerationAsk` with barren-node pruning
returns `{True: 0.1, False: 0.9}` while the same query evaluated by
`EnumerationAll` over the full unpruned topological order returns the
all-zero dict — the two differ by 0.9, far beyond the 5-decimal rounding
tolerance. -/
theorem C1_counterexample :
    (EnumerationAsk netZ [.vertex (0,0)] [(.season, .s .low)]).1
      = [(.b true, 1/10), (.b false, 9/10)] ∧
    (EnumerationAskNoPrune netZ [.vertex (0,0)] [(.season, .s .low)]).1
      = [(.b true, 0), (.b false, 0)] ∧
    ¬ |(9:ℚ)/10 - 0| ≤ 1/100000 := by
  refine ⟨?_, ?_, by rw [abs_of_nonneg (by norm_num)]; norm_num⟩
  · rw [enumAsk_hidden_bool netZ (.vertex (0,0)) [] [(.season, .s .low)]
      (by decide) (by decide) (by decide)]
    rw [show canon (BNNode.vertex (0,0)) = .vertex (0,0) from rfl]
    rw [show einsert [(BNNode.season, BNVal.s .low)] (.vertex (0,0)) (.b true)
        = [(.season, .s .low), (.vertex (0,0), .b true)] from by decide]
    rw [show einsert [(BNNode.season, BNVal.s .low)] (.vertex (0,0)) (.b false)
        = [(.season, .s .low), (.vertex (0,0), .b false)] from by decide]
    rw [netZ_prune_true, netZ_prune_false]
    norm_num +decide [enumAll, Probability, netZ_vertCPT, netZ_seasonP_low, emem, elookup,
      eget, einsert, canon, optionsOf, truthy, asSeason, asBool, CPTVertex, round5,
      Normalize, min_def]
  · rw [enumAskNP_hidden_bool netZ (.vertex (0,0)) [] [(.season, .s .low)]
      (by decide) (by decide) (by decide)]
    rw [show canon (BNNode.vertex (0,0)) = .vertex (0,0) from rfl, netZ_full_order]
    rw [show einsert [(BNNode.season, BNVal.s .low)] (.vertex (0,0)) (.b true)
        = [(.season, .s .low), (.vertex (0,0), .b true)] from by decide]
    rw [show einsert [(BNNode.season, BNVal.s .low)] (.vertex (0,0)) (.b false)
        = [(.season, .s .low), (.vertex (0,0), .b false)] from by decide]
    norm_num +decide [enumAll, Probability, netZ_vertCPT, netZ_seasonP_low, netZ_pLow,
      emem, elookup, eget, einsert, canon, optionsOf, truthy, asSeason, asBool, CPTVertex,
      round5, Normalize, seasonP, min_def]

/-! ### Pruning invariance (C1): semantic lemmas about `EnumerationAll`

`EnumerationAll` consumes a node list while reading and extending the
evidence.  The lemmas below isolate the three facts barren-node pruning
relies on: the value only depends on the evidence through lookups
(`enumAll_congr`), a binding for a variable that no listed variable equals
or reads is invisible (`enumAll_insert_invisible`), an observed variable
whose parents are observed contributes a fixed multiplicative factor at any
list position (`enumAll_pull_observed`), and an unobserved variable that no
later variable reads sums out to the factor 1 (boolean domain) or to the
sum of the season priors (`enumAll_sumout_bool` / `enumAll_sumout_season`). -/

/-- The evidence keys `Probability` reads for a given variable: a vertex
reads the season, an edge reads its two endpoints, the season reads
nothing. -/
def reads : BNNode → List BNNode
  | .season => []
  | .vertex _ => [.season]
  | .edge a b => [.vertex a, .vertex b]

theorem Probability_congr (net : BNet) (y : BNNode) {e1 e2 : Evid}
    (h : ∀ k ∈ reads y, elookup e1 k = elookup e2 k) (v : BNVal) :
    Probability net y e1 v = Probability net y e2 v := by
  cases y with
  | season => rfl
  | vertex p =>
    have hs := h .season (by simp [reads])
    simp [Probability, eget, hs]
  | edge a b =>
    have ha := h (.vertex a) (by simp [reads])
    have hb := h (.vertex b) (by simp [reads])
    simp [Probability, eget, ha, hb]

theorem enumAll_congr (net : BNet) :
    ∀ (L : List BNNode) {e1 e2 : Evid},
      (∀ k, elookup e1 k = elookup e2 k) →
      enumAll net L e1 = enumAll net L e2 := by
  intro L
  induction L with
  | nil => intro e1 e2 _; rfl
  | cons y0 rest ih =>
    intro e1 e2 h
    have hmm : emem e1 (canon y0) = emem e2 (canon y0) := by
      simp [emem, h (canon y0)]
    have hget : eget e1 (canon y0) = eget e2 (canon y0) := by
      simp [eget, h (canon y0)]
    have hp : ∀ v, Probability net (canon y0) e1 v = Probability net (canon y0) e2 v :=
      Probability_congr net (canon y0) (fun k _ => h k)
    simp only [enumAll, hmm, hget, hp]
    by_cases hc : emem e2 (canon y0) = true
    · rw [if_pos hc, if_pos hc, ih h]
    · rw [if_neg hc, if_neg hc]
      refine congrArg List.sum (List.map_congr_left fun v _ => ?_)
      rw [ih fun k => ?_]
      by_cases hk : k = canon y0
      · subst hk; rw [elookup_einsert_self, elookup_einsert_self]
      · rw [elookup_einsert_ne _ _ _ _ hk, elookup_einsert_ne _ _ _ _ hk, h k]

theorem emem_einsert_ne (e : Evid) (k k' : BNNode) (v : BNVal) (h : k' ≠ k) :
    emem (einsert e k v) k' = emem e k' := by
  simp [emem, elookup_einsert_ne e k k' v h]

theorem eget_einsert_ne (e : Evid) (k k' : BNNode) (v : BNVal) (h : k' ≠ k) :
    eget (einsert e k v) k' = eget e k' := by
  simp [eget, elookup_einsert_ne e k k' v h]

/-- A binding for a variable that no listed variable canonicalises to and
no listed variable reads is invisible to `EnumerationAll`. -/
theorem enumAll_insert_invisible (net : BNet) (n : BNNode) (v : BNVal) :
    ∀ (L : List BNNode) (e : Evid),
      (∀ y ∈ L, canon y ≠ n ∧ n ∉ reads (canon y)) →
      enumAll net L (einsert e n v) = enumAll net L e := by
  intro L
  induction L with
  | nil => intro e _; rfl
  | cons y0 rest ih =>
    intro e h
    obtain ⟨hne, hrd⟩ := h y0 (List.mem_cons_self _ _)
    have hrest : ∀ y ∈ rest, canon y ≠ n ∧ n ∉ reads (canon y) :=
      fun y hy => h y (List.mem_cons_of_mem _ hy)
    have hmm : emem (einsert e n v) (canon y0) = emem e (canon y0) :=
      emem_einsert_ne e n (canon y0) v hne
    have hget : eget (einsert e n v) (canon y0) = eget e (canon y0) :=
      eget_einsert_ne e n (canon y0) v hne
    have hp : ∀ w, Probability net (canon y0) (einsert e n v) w
        = Probability net (canon y0) e w := by
      intro w
      refine Probability_congr net (canon y0) (fun k hk => ?_) w
      have : k ≠ n := fun hkn => hrd (hkn ▸ hk)
      exact elookup_einsert_ne e n k v this
    simp only [enumAll, hmm, hget, hp]
    by_cases hc : emem e (canon y0) = true
    · rw [if_pos hc, if_pos hc, ih e hrest]
    · rw [if_neg hc, if_neg hc]
      refine congrArg List.sum (List.map_congr_left fun w _ => ?_)
      have hcomm : ∀ k, elookup (einsert (einsert e n v) (canon y0) w) k
          = elookup (einsert (einsert e (canon y0) w) n v) k := by
        intro k
        by_cases hk1 : k = canon y0
        · subst hk1
          rw [elookup_einsert_self, elookup_einsert_ne _ _ _ _ hne,
            elookup_einsert_self]
        · rw [elookup_einsert_ne _ _ _ _ hk1]
          by_cases hk2 : k = n
          · subst hk2
            rw [elookup_einsert_self, elookup_einsert_self]
          · rw [elookup_einsert_ne _ _ _ _ hk2, elookup_einsert_ne _ _ _ _ hk2,
              elookup_einsert_ne _ _ _ _ hk1]
      rw [enumAll_congr net rest hcomm, ih (einsert e (canon y0) w) hrest]

/-- An observed variable whose read keys are all observed contributes the
fixed factor `Probability net n e (e[n])` from any position of the node
list: the bindings added by earlier hidden variables can touch neither `n`
nor its read keys, because those are already present in the evidence. -/
theorem enumAll_pull_observed (net : BNet) (n : BNNode) (hcn : canon n = n)
    (L2 : List BNNode) :
    ∀ (L1 : List BNNode) (e : Evid), emem e n = true →
      (∀ k ∈ reads n, emem e k = true) →
      enumAll net (L1 ++ n :: L2) e
        = Probability net n e (eget e n) * enumAll net (L1 ++ L2) e := by
  intro L1
  induction L1 with
  | nil =>
    intro e hobs _
    simp only [List.nil_append, enumAll, hcn]
    rw [if_pos hobs]
  | cons y0 L1' ih =>
    intro e hobs hrds
    simp only [List.cons_append, enumAll, List.append_eq]
    by_cases hc : emem e (canon y0) = true
    · rw [if_pos hc, if_pos hc, ih e hobs hrds]
      ring
    · rw [if_neg hc, if_neg hc]
      have hyn : canon y0 ≠ n := fun hh => by rw [hh] at hc; exact hc hobs
      have hterm : ∀ w ∈ optionsOf (canon y0),
          Probability net (canon y0) e w * enumAll net (L1' ++ n :: L2) (einsert e (canon y0) w)
          = Probability net n e (eget e n) *
              (Probability net (canon y0) e w * enumAll net (L1' ++ L2) (einsert e (canon y0) w)) := by
        intro w _
        have hobs2 : emem (einsert e (canon y0) w) n = true := by
          rw [emem_einsert_ne e (canon y0) n w (Ne.symm hyn)]; exact hobs
        have hrds2 : ∀ k ∈ reads n, emem (einsert e (canon y0) w) k = true := by
          intro k hk
          have hkny : k ≠ canon y0 := fun hh => by
            rw [hh] at hk
            exact hc (hrds _ hk)
          rw [emem_einsert_ne e (canon y0) k w hkny]
          exact hrds k hk
        rw [ih (einsert e (canon y0) w) hobs2 hrds2]
        have hpn : Probability net n (einsert e (canon y0) w) (eget (einsert e (canon y0) w) n)
            = Probability net n e (eget e n) := by
          rw [eget_einsert_ne e (canon y0) n w (Ne.symm hyn)]
          refine Probability_congr net n (fun k hk => ?_) _
          have hkny : k ≠ canon y0 := fun hh => by
            rw [hh] at hk
            exact hc (hrds _ hk)
          exact elookup_einsert_ne e (canon y0) k w hkny
        rw [hpn]
        ring
      rw [List.map_congr_left hterm, List.sum_map_mul_left]

/-- An unobserved non-season variable that nothing later in the list reads
and nothing canonicalises to sums out to the factor 1. -/
theorem enumAll_sumout_bool (net : BNet) (n : BNNode) (hcn : canon n = n)
    (hns : n ≠ .season) (L2 : List BNNode)
    (hL2 : ∀ y ∈ L2, canon y ≠ n ∧ n ∉ reads (canon y)) :
    ∀ (L1 : List BNNode) (e : Evid), emem e n = false →
      (∀ y ∈ L1, canon y ≠ n) →
      enumAll net (L1 ++ n :: L2) e = enumAll net (L1 ++ L2) e := by
  intro L1
  induction L1 with
  | nil =>
    intro e hhid _
    simp only [List.nil_append, enumAll, hcn]
    rw [if_neg (by simp [hhid]), optionsOf_ne_season hns]
    have hinv : ∀ w : BNVal, enumAll net L2 (einsert e n w) = enumAll net L2 e :=
      fun w => enumAll_insert_invisible net n w L2 e hL2
    simp only [List.map_cons, List.map_nil, List.sum_cons, List.sum_nil, hinv]
    have hsum : Probability net n e (.b true) + Probability net n e (.b false) = 1 := by
      cases n with
      | season => exact absurd rfl hns
      | vertex p => simp [Probability, truthy]
      | edge a b => simp [Probability, truthy]
    have : Probability net n e (.b true) * enumAll net L2 e
        + (Probability net n e (.b false) * enumAll net L2 e + 0)
        = (Probability net n e (.b true) + Probability net n e (.b false))
            * enumAll net L2 e := by ring
    rw [this, hsum, one_mul]
  | cons y0 L1' ih =>
    intro e hhid hL1
    have hyn : canon y0 ≠ n := hL1 y0 (List.mem_cons_self _ _)
    have hL1' : ∀ y ∈ L1', canon y ≠ n := fun y hy => hL1 y (List.mem_cons_of_mem _ hy)
    simp only [List.cons_append, enumAll, List.append_eq]
    by_cases hc : emem e (canon y0) = true
    · rw [if_pos hc, if_pos hc, ih e hhid hL1']
    · rw [if_neg hc, if_neg hc]
      refine congrArg List.sum (List.map_congr_left fun w _ => ?_)
      have hhid2 : emem (einsert e (canon y0) w) n = false := by
        rw [emem_einsert_ne e (canon y0) n w (Ne.symm hyn)]; exact hhid
      rw [ih (einsert e (canon y0) w) hhid2 hL1']

/-- The unobserved season variable, when no remaining variable reads it,
sums out to the sum of the three season priors. -/
theorem enumAll_sumout_season (net : BNet) (L2 : List BNNode)
    (hL2 : ∀ y ∈ L2, canon y ≠ .season ∧ BNNode.season ∉ reads (canon y)) :
    ∀ (L1 : List BNNode) (e : Evid), emem e .season = false →
      (∀ y ∈ L1, canon y ≠ .season) →
      enumAll net (L1 ++ .season :: L2) e
        = (net.pLow + net.pMed + net.pHigh) * enumAll net (L1 ++ L2) e := by
  intro L1
  induction L1 with
  | nil =>
    intro e hhid _
    simp only [List.nil_append, enumAll, canon]
    rw [if_neg (by simp [hhid]), optionsOf_season]
    have hinv : ∀ w : BNVal, enumAll net L2 (einsert e .season w) = enumAll net L2 e :=
      fun w => enumAll_insert_invisible net .season w L2 e hL2
    simp only [List.map_cons, List.map_nil, List.sum_cons, List.sum_nil, hinv]
    simp only [Probability, asSeason, seasonP]
    ring
  | cons y0 L1' ih =>
    intro e hhid hL1
    have hyn : canon y0 ≠ .season := hL1 y0 (List.mem_cons_self _ _)
    have hL1' : ∀ y ∈ L1', canon y ≠ .season := fun y hy => hL1 y (List.mem_cons_of_mem _ hy)
    simp only [List.cons_append, enumAll, List.append_eq]
    by_cases hc : emem e (canon y0) = true
    · rw [if_pos hc, if_pos hc, ih e hhid hL1']
      ring
    · rw [if_neg hc, if_neg hc]
      have hterm : ∀ w ∈ optionsOf (canon y0),
          Probability net (canon y0) e w
              * enumAll net (L1' ++ .season :: L2) (einsert e (canon y0) w)
          = (net.pLow + net.pMed + net.pHigh) *
              (Probability net (canon y0) e w
                * enumAll net (L1' ++ L2) (einsert e (canon y0) w)) := by
        intro w _
        have hhid2 : emem (einsert e (canon y0) w) .season = false := by
          rw [emem_einsert_ne e (canon y0) .season w (Ne.symm hyn)]; exact hhid
        rw [ih (einsert e (canon y0) w) hhid2 hL1']
        ring
      rw [List.map_congr_left hterm, List.sum_map_mul_left]

/-! ### The network graph and its topological order -/

/-- The graph node of a grid edge. -/
def edgeN (ed : GEdge) : BNNode := .edge ed.1 ed.2

/-- Vertex nodes of the network, in `nodesCPT` key order. -/
def vNodes (net : BNet) : List BNNode := net.verts.map .vertex

/-- Edge nodes of the network, in `fragEdgesCPT` key order. -/
def eNodes (net : BNet) : List BNNode := net.edges.map edgeN

/-- Well-formedness of a network instance as `InitBN` produces it for a
working run of the program: distinct vertex keys, distinct edge keys, and
every edge key an ordered (hence canonical as `tuple(sorted(...))` leaves
it unchanged) pair of distinct vertex keys.  A file violating these would
crash the Python program with a `KeyError` inside `VarCPT`. -/
def WFNet (net : BNet) : Prop :=
  net.verts.Nodup ∧ net.edges.Nodup ∧
  ∀ ed ∈ net.edges, ed.1 ∈ net.verts ∧ ed.2 ∈ net.verts ∧ coordLtB ed.1 ed.2

theorem mkBN_nodes (net : BNet) :
    (mkBN net).nodes = .season :: (eNodes net ++ vNodes net) := rfl

theorem mem_mkBN_arcs (net : BNet) (a : BNNode × BNNode) :
    a ∈ (mkBN net).arcs ↔
      (∃ v ∈ net.verts, a = (.season, .vertex v)) ∨
      (∃ v ∈ net.verts, ∃ ed ∈ net.edges, (v = ed.1 ∨ v = ed.2) ∧ a = (.vertex v, edgeN ed)) := by
  simp only [mkBN, List.mem_append, List.mem_map, List.mem_flatMap, List.mem_filterMap]
  constructor
  · rintro (⟨v, hv, ha⟩ | ⟨v, hv, ed, hed, ha⟩)
    · exact Or.inl ⟨v, hv, ha.symm⟩
    · by_cases hc : v = ed.1 ∨ v = ed.2
      · rw [if_pos hc] at ha
        exact Or.inr ⟨v, hv, ed, hed, hc, (Option.some.inj ha).symm⟩
      · rw [if_neg hc] at ha
        cases ha
  · rintro (⟨v, hv, ha⟩ | ⟨v, hv, ed, hed, hc, ha⟩)
    · exact Or.inl ⟨v, hv, ha.symm⟩
    · exact Or.inr ⟨v, hv, ed, hed, by rw [if_pos hc, ha]; rfl⟩

theorem inDeg_eq_zero_iff (g : BGraph) (n : BNNode) :
    inDeg g n = 0 ↔ ∀ a ∈ g.arcs, a.2 ≠ n := by
  rw [inDeg, List.length_eq_zero, List.filter_eq_nil_iff]
  simp

theorem outDeg_eq_zero_iff (g : BGraph) (n : BNNode) :
    outDeg g n = 0 ↔ ∀ a ∈ g.arcs, a.1 ≠ n := by
  rw [outDeg, List.length_eq_zero, List.filter_eq_nil_iff]
  simp

theorem inDeg_ne_zero (g : BGraph) (a : BNNode × BNNode) (ha : a ∈ g.arcs) :
    inDeg g a.2 ≠ 0 := by
  rw [Ne, inDeg_eq_zero_iff]
  intro h
  exact h a ha rfl

theorem outDeg_ne_zero (g : BGraph) (a : BNNode × BNNode) (ha : a ∈ g.arcs) :
    outDeg g a.1 ≠ 0 := by
  rw [Ne, outDeg_eq_zero_iff]
  intro h
  exact h a ha rfl

theorem removeNodes_nodes (ns : List BNNode) :
    ∀ g : BGraph, (removeNodes g ns).nodes = ns.foldl List.erase g.nodes := by
  induction ns with
  | nil => intro g; rfl
  | cons n rest ih =>
    intro g
    rw [removeNodes, List.foldl_cons, ← removeNodes, ih (removeNode g n), List.foldl_cons]
    rfl

theorem removeNodes_arcs (ns : List BNNode) :
    ∀ g : BGraph, (removeNodes g ns).arcs
      = g.arcs.filter fun a => a.1 ∉ ns ∧ a.2 ∉ ns := by
  induction ns with
  | nil =>
    intro g
    simp [removeNodes]
  | cons n rest ih =>
    intro g
    rw [removeNodes, List.foldl_cons, ← removeNodes, ih (removeNode g n)]
    show (g.arcs.filter _).filter _ = _
    rw [List.filter_filter]
    refine List.filter_congr fun a _ => ?_
    simp only [List.mem_cons, ← Bool.decide_and, decide_eq_decide]
    push_neg
    tauto

theorem kahn_empty (fuel : ℕ) (arcs : List (BNNode × BNNode)) :
    kahn fuel ⟨[], arcs⟩ = [] := by
  cases fuel with
  | zero => rfl
  | succ k => rw [kahn]; rfl

theorem kahn_step (fuel : ℕ) (g : BGraph) (gen : List BNNode)
    (hgen : (g.nodes.filter fun n => inDeg g n = 0) = gen) (hne : gen ≠ []) :
    kahn (fuel + 1) g = gen ++ kahn fuel (removeNodes g gen) := by
  rw [kahn]
  simp only [hgen]
  rw [if_neg (by simpa [List.isEmpty_iff] using hne)]

theorem kahn_nil (fuel : ℕ) (g : BGraph) (h : g.nodes = []) : kahn fuel g = [] := by
  cases fuel with
  | zero => rfl
  | succ k => simp [kahn, h]

theorem foldl_erase_append (M : List BNNode) :
    ∀ K : List BNNode, (∀ x ∈ M, x ∉ K) → M.foldl List.erase (K ++ M) = K := by
  induction M with
  | nil => intro K _; simp
  | cons m M' ih =>
    intro K hdis
    rw [List.foldl_cons, List.erase_append_right _ (hdis m (List.mem_cons_self _ _)),
      List.erase_cons_head]
    exact ih K fun x hx => hdis x (List.mem_cons_of_mem _ hx)

theorem vertex_injective : Function.Injective BNNode.vertex := by
  intro a b h
  injection h

theorem edgeN_injective : Function.Injective edgeN := by
  intro p q h
  injection h with h1 h2
  exact Prod.ext h1 h2

theorem vNodes_nodup (net : BNet) (h : net.verts.Nodup) : (vNodes net).Nodup :=
  h.map vertex_injective

theorem eNodes_nodup (net : BNet) (h : net.edges.Nodup) : (eNodes net).Nodup :=
  h.map edgeN_injective

theorem vNodes_not_mem_eNodes (net : BNet) : ∀ x ∈ vNodes net, x ∉ eNodes net := by
  intro x hx hmem
  obtain ⟨v, _, rfl⟩ := List.mem_map.1 hx
  obtain ⟨ed, _, hEq⟩ := List.mem_map.1 hmem
  cases hEq

/-- The networkx topological order of the full three-layer network: season
first, then all vertices in key order, then all edges in key order. -/
theorem topoSort_mkBN (net : BNet) (hwf : WFNet net) :
    topoSort (mkBN net) = .season :: (vNodes net ++ eNodes net) := by
  obtain ⟨hvn, hen, hed⟩ := hwf
  have hseason0 : inDeg (mkBN net) .season = 0 := by
    rw [inDeg_eq_zero_iff]
    intro a ha
    rcases (mem_mkBN_arcs net a).1 ha with ⟨v, _, rfl⟩ | ⟨v, _, ed, _, _, rfl⟩ <;>
      simp [edgeN]
  have hvert_pos : ∀ v ∈ net.verts, inDeg (mkBN net) (.vertex v) ≠ 0 := by
    intro v hv
    exact inDeg_ne_zero _ (.season, .vertex v) ((mem_mkBN_arcs net _).2 (Or.inl ⟨v, hv, rfl⟩))
  have hedge_pos : ∀ ed ∈ net.edges, inDeg (mkBN net) (edgeN ed) ≠ 0 := by
    intro ed hede
    exact inDeg_ne_zero _ (.vertex ed.1, edgeN ed)
      ((mem_mkBN_arcs net _).2 (Or.inr ⟨ed.1, (hed ed hede).1, ed, hede, Or.inl rfl, rfl⟩))
  have hgen1 : ((mkBN net).nodes.filter fun n => inDeg (mkBN net) n = 0) = [.season] := by
    rw [mkBN_nodes, List.filter_cons, List.filter_append]
    rw [if_pos (by simp [hseason0])]
    have he : ((eNodes net).filter fun n => inDeg (mkBN net) n = 0) = [] := by
      refine List.filter_eq_nil_iff.2 fun x hx => ?_
      obtain ⟨ed, hede, rfl⟩ := List.mem_map.1 hx
      simp [hedge_pos ed hede]
    have hv : ((vNodes net).filter fun n => inDeg (mkBN net) n = 0) = [] := by
      refine List.filter_eq_nil_iff.2 fun x hx => ?_
      obtain ⟨v, hv, rfl⟩ := List.mem_map.1 hx
      simp [hvert_pos v hv]
    rw [he, hv]
    rfl
  have hg1nodes : (removeNodes (mkBN net) [.season]).nodes = eNodes net ++ vNodes net := by
    rw [removeNodes_nodes, mkBN_nodes]
    simp [List.erase_cons_head]
  have hg1arcs_mem : ∀ a, a ∈ (removeNodes (mkBN net) [.season]).arcs ↔
      a ∈ (mkBN net).arcs ∧ a.1 ≠ .season ∧ a.2 ≠ .season := by
    intro a
    rw [removeNodes_arcs, List.mem_filter]
    simp
  have hvert0 : ∀ v ∈ net.verts, inDeg (removeNodes (mkBN net) [.season]) (.vertex v) = 0 := by
    intro v _
    rw [inDeg_eq_zero_iff]
    intro a ha
    obtain ⟨hmem, h1, _⟩ := (hg1arcs_mem a).1 ha
    rcases (mem_mkBN_arcs net a).1 hmem with ⟨w, _, rfl⟩ | ⟨w, _, ed, _, _, rfl⟩
    · exact absurd rfl h1
    · simp [edgeN]
  have hedge1_pos : ∀ ed ∈ net.edges,
      inDeg (removeNodes (mkBN net) [.season]) (edgeN ed) ≠ 0 := by
    intro ed hede
    refine inDeg_ne_zero _ (.vertex ed.1, edgeN ed) ((hg1arcs_mem _).2 ?_)
    exact ⟨(mem_mkBN_arcs net _).2 (Or.inr ⟨ed.1, (hed ed hede).1, ed, hede, Or.inl rfl, rfl⟩),
      by simp, by simp [edgeN]⟩
  have hgen2 : ((removeNodes (mkBN net) [.season]).nodes.filter
      fun n => inDeg (removeNodes (mkBN net) [.season]) n = 0) = vNodes net := by
    rw [hg1nodes, List.filter_append]
    have he : ((eNodes net).filter
        fun n => inDeg (removeNodes (mkBN net) [.season]) n = 0) = [] := by
      refine List.filter_eq_nil_iff.2 fun x hx => ?_
      obtain ⟨ed, hede, rfl⟩ := List.mem_map.1 hx
      simp [hedge1_pos ed hede]
    have hv : ((vNodes net).filter
        fun n => inDeg (removeNodes (mkBN net) [.season]) n = 0) = vNodes net := by
      refine List.filter_eq_self.2 fun x hx => ?_
      obtain ⟨v, hv, rfl⟩ := List.mem_map.1 hx
      simp [hvert0 v hv]
    rw [he, hv, List.nil_append]
  have hg2nodes : (removeNodes (removeNodes (mkBN net) [.season]) (vNodes net)).nodes
      = eNodes net := by
    rw [removeNodes_nodes, hg1nodes]
    exact foldl_erase_append (vNodes net) (eNodes net)
      (fun x hx hmem => vNodes_not_mem_eNodes net x hx hmem)
  have hg2arcs : (removeNodes (removeNodes (mkBN net) [.season]) (vNodes net)).arcs = [] := by
    rw [removeNodes_arcs]
    refine List.filter_eq_nil_iff.2 fun a ha => ?_
    obtain ⟨hmem, h1, _⟩ := (hg1arcs_mem a).1 ha
    rcases (mem_mkBN_arcs net a).1 hmem with ⟨w, hw, rfl⟩ | ⟨w, hw, ed, _, _, rfl⟩
    · exact absurd rfl h1
    · simp only [decide_eq_true_eq]
      rintro ⟨hc1, -⟩
      exact hc1 (List.mem_map.2 ⟨w, hw, rfl⟩)
  have hgen3 : ((removeNodes (removeNodes (mkBN net) [.season]) (vNodes net)).nodes.filter
      fun n => inDeg (removeNodes (removeNodes (mkBN net) [.season]) (vNodes net)) n = 0)
      = eNodes net := by
    rw [hg2nodes]
    refine List.filter_eq_self.2 fun x _ => ?_
    have : inDeg (removeNodes (removeNodes (mkBN net) [.season]) (vNodes net)) x = 0 := by
      rw [inDeg_eq_zero_iff, hg2arcs]
      intro a ha
      cases ha
    simp [this]
  have hg3nodes : (removeNodes (removeNodes (removeNodes (mkBN net) [.season]) (vNodes net))
      (eNodes net)).nodes = [] := by
    rw [removeNodes_nodes, hg2nodes]
    have := foldl_erase_append (eNodes net) [] (fun x _ hmem => by cases hmem)
    simpa using this
  rw [topoSort]
  have hlen : (mkBN net).nodes.length = 1 + (net.edges.length + net.verts.length) := by
    rw [mkBN_nodes]
    simp [eNodes, vNodes]
    omega
  by_cases hV : net.verts = []
  · have hE : net.edges = [] :=
      List.eq_nil_iff_forall_not_mem.2 fun ed hmem => by
        have h1 := (hed ed hmem).1
        rw [hV] at h1
        cases h1
    have hfuel : (mkBN net).nodes.length = 0 + 1 := by
      rw [hlen, hV, hE]
      rfl
    rw [hfuel, kahn_step 0 _ [.season] hgen1 (by simp)]
    simp [kahn, vNodes, eNodes, hV, hE]
  · have hvne : vNodes net ≠ [] := by simp [vNodes, hV]
    by_cases hE : net.edges = []
    · obtain ⟨k, hk⟩ : ∃ k, (mkBN net).nodes.length = (k + 1) + 1 := by
        have h1 : 0 < net.verts.length := List.length_pos.2 hV
        exact ⟨net.verts.length - 1, by rw [hlen, hE]; simp; omega⟩
      rw [hk, kahn_step _ _ [.season] hgen1 (by simp),
        kahn_step _ _ (vNodes net) hgen2 hvne,
        kahn_nil _ _ (by rw [hg2nodes]; simp [eNodes, hE])]
      simp [eNodes, hE]
    · have hene : eNodes net ≠ [] := by simp [eNodes, hE]
      obtain ⟨k, hk⟩ : ∃ k, (mkBN net).nodes.length = ((k + 1) + 1) + 1 := by
        have h1 : 0 < net.verts.length := List.length_pos.2 hV
        have h2 : 0 < net.edges.length := List.length_pos.2 hE
        exact ⟨net.edges.length + net.verts.length - 2, by rw [hlen]; omega⟩
      rw [hk, kahn_step _ _ [.season] hgen1 (by simp),
        kahn_step _ _ (vNodes net) hgen2 hvne,
        kahn_step _ _ (eNodes net) hgen3 hene,
        kahn_nil _ _ hg3nodes]
      simp

/-! ### Characterising `RemoveBarrenNodes` on the three-layer network

The two passes of `RemoveBarrenNodes` remove a node set with a closed
form: forward, the season root when observed and unqueried (`sRb`), then
observed unqueried vertices once the season root is gone (`vRb`), then
observed unqueried edges whose endpoints are both gone (`edRb`); backward,
unobserved unqueried edges (`edBb`), vertices all of whose incident edges
are gone (`vBb`), and the season root once every vertex is gone (`sBb`). -/

/-- Forward pass removes the season root: observed and not the query. -/
def sRb (q : BNNode) (e' : Evid) : Bool :=
  emem e' .season && decide (BNNode.season ≠ q)

/-- Forward pass removes a vertex: season gone, observed, not the query. -/
def vRb (q : BNNode) (e' : Evid) (v : Coord) : Bool :=
  sRb q e' && emem e' (.vertex v) && decide (BNNode.vertex v ≠ q)

/-- Forward pass removes an edge: both endpoints gone, observed, not the
query. -/
def edRb (q : BNNode) (e' : Evid) (ed : GEdge) : Bool :=
  vRb q e' ed.1 && vRb q e' ed.2 && emem e' (edgeN ed) && decide (edgeN ed ≠ q)

/-- Backward pass removes an edge: still present, unobserved, not the
query (edges always have out-degree 0). -/
def edBb (q : BNNode) (e' : Evid) (ed : GEdge) : Bool :=
  !edRb q e' ed && !emem e' (edgeN ed) && decide (edgeN ed ≠ q)

/-- An edge is removed by one of the two passes. -/
def edRemb (q : BNNode) (e' : Evid) (ed : GEdge) : Bool :=
  edRb q e' ed || edBb q e' ed

/-- Backward pass removes a vertex: still present, every incident edge
removed, unobserved, not the query. -/
def vBb (net : BNet) (q : BNNode) (e' : Evid) (v : Coord) : Bool :=
  !vRb q e' v
    && net.edges.all (fun ed => !(decide (v = ed.1 ∨ v = ed.2)) || edRemb q e' ed)
    && !emem e' (.vertex v) && decide (BNNode.vertex v ≠ q)

/-- A vertex is removed by one of the two passes. -/
def vRemb (net : BNet) (q : BNNode) (e' : Evid) (v : Coord) : Bool :=
  vRb q e' v || vBb net q e' v

/-- Backward pass removes the season root: still present, every vertex
removed, unobserved, not the query. -/
def sBb (net : BNet) (q : BNNode) (e' : Evid) : Bool :=
  !sRb q e' && net.verts.all (vRemb net q e') && !emem e' .season
    && decide (BNNode.season ≠ q)

/-- The season root is removed by one of the two passes. -/
def sRemb (net : BNet) (q : BNNode) (e' : Evid) : Bool :=
  sRb q e' || sBb net q e'

/-- The full removal predicate of `RemoveBarrenNodes` for query `[q]` and
evidence `e'` (membership conjuncts keep it meaningful on graph nodes
only). -/
def remPb (net : BNet) (q : BNNode) (e' : Evid) : BNNode → Bool
  | .season => sRemb net q e'
  | .vertex v => decide (v ∈ net.verts) && vRemb net q e' v
  | .edge a b => decide ((a, b) ∈ net.edges) && edRemb q e' (a, b)

/-- The subgraph of `g0` obtained by deleting the nodes satisfying `P`. -/
def fGraph (g0 : BGraph) (P : BNNode → Bool) : BGraph where
  nodes := g0.nodes.filter fun x => !P x
  arcs := g0.arcs.filter fun a => !P a.1 && !P a.2

theorem fGraph_false (g0 : BGraph) : fGraph g0 (fun _ => false) = g0 := by
  simp [fGraph]

theorem fGraph_congr (g0 : BGraph) {P Q : BNNode → Bool} (h : ∀ x, P x = Q x) :
    fGraph g0 P = fGraph g0 Q := by
  have hP : P = Q := funext h
  rw [hP]

theorem mem_fGraph_nodes (g0 : BGraph) (P : BNNode → Bool) (x : BNNode) :
    x ∈ (fGraph g0 P).nodes ↔ x ∈ g0.nodes ∧ P x = false := by
  simp [fGraph, List.mem_filter]

theorem mem_fGraph_arcs (g0 : BGraph) (P : BNNode → Bool) (a : BNNode × BNNode) :
    a ∈ (fGraph g0 P).arcs ↔ a ∈ g0.arcs ∧ P a.1 = false ∧ P a.2 = false := by
  simp [fGraph, List.mem_filter]

theorem removeNode_fGraph (g0 : BGraph) (hnd : g0.nodes.Nodup) (P : BNNode → Bool)
    (n : BNNode) :
    removeNode (fGraph g0 P) n = fGraph g0 (fun x => P x || x = n) := by
  have hfn : (fGraph g0 P).nodes.Nodup := hnd.filter _
  refine congrArg₂ BGraph.mk ?_ ?_
  · show (fGraph g0 P).nodes.erase n = _
    rw [hfn.erase_eq_filter]
    simp only [fGraph]
    rw [List.filter_filter]
    refine List.filter_congr fun x _ => ?_
    cases hx : P x <;> by_cases hxn : x = n <;> simp [hx, hxn]
  · show (fGraph g0 P).arcs.filter _ = _
    simp only [fGraph]
    rw [List.filter_filter]
    refine List.filter_congr fun a _ => ?_
    cases h1 : P a.1 <;> cases h2 : P a.2 <;>
      by_cases hn1 : a.1 = n <;> by_cases hn2 : a.2 = n <;>
        simp [h1, h2, hn1, hn2]

theorem inDeg_fGraph_eq_zero (g0 : BGraph) (P : BNNode → Bool) (n : BNNode) :
    inDeg (fGraph g0 P) n = 0 ↔
      ∀ a ∈ g0.arcs, a.2 = n → (P a.1 = true ∨ P a.2 = true) := by
  rw [inDeg_eq_zero_iff]
  constructor
  · intro h a ha h2
    by_contra hc
    push_neg at hc
    obtain ⟨h1, h2'⟩ := hc
    exact h a ((mem_fGraph_arcs g0 P a).2
      ⟨ha, Bool.not_eq_true _ ▸ h1, Bool.not_eq_true _ ▸ h2'⟩) h2
  · intro h a ha h2
    obtain ⟨hmem, h1, h2'⟩ := (mem_fGraph_arcs g0 P a).1 ha
    rcases h a hmem h2 with hc | hc
    · rw [h1] at hc; cases hc
    · rw [h2'] at hc; cases hc

theorem outDeg_fGraph_eq_zero (g0 : BGraph) (P : BNNode → Bool) (n : BNNode) :
    outDeg (fGraph g0 P) n = 0 ↔
      ∀ a ∈ g0.arcs, a.1 = n → (P a.1 = true ∨ P a.2 = true) := by
  rw [outDeg_eq_zero_iff]
  constructor
  · intro h a ha h1
    by_contra hc
    push_neg at hc
    obtain ⟨h1', h2'⟩ := hc
    exact h a ((mem_fGraph_arcs g0 P a).2
      ⟨ha, Bool.not_eq_true _ ▸ h1', Bool.not_eq_true _ ▸ h2'⟩) h1
  · intro h a ha h1
    obtain ⟨hmem, h1', h2'⟩ := (mem_fGraph_arcs g0 P a).1 ha
    rcases h a hmem h1 with hc | hc
    · rw [h1'] at hc; cases hc
    · rw [h2'] at hc; cases hc

theorem mkBN_nodes_nodup (net : BNet) (hwf : WFNet net) : (mkBN net).nodes.Nodup := by
  obtain ⟨hvn, hen, _⟩ := hwf
  rw [mkBN_nodes]
  refine List.nodup_cons.2 ⟨?_, ?_⟩
  · intro hmem
    rcases List.mem_append.1 hmem with h | h
    · obtain ⟨ed, _, hEq⟩ := List.mem_map.1 h
      cases hEq
    · obtain ⟨v, _, hEq⟩ := List.mem_map.1 h
      cases hEq
  · refine List.Nodup.append (eNodes_nodup net hen) (vNodes_nodup net hvn) ?_
    intro x hx hy
    exact vNodes_not_mem_eNodes net x hy hx

theorem inDeg_mkBN_season (net : BNet) : inDeg (mkBN net) .season = 0 := by
  rw [inDeg_eq_zero_iff]
  intro a ha
  rcases (mem_mkBN_arcs net a).1 ha with ⟨v, _, rfl⟩ | ⟨v, _, ed, _, _, rfl⟩ <;> simp [edgeN]

theorem arc_target_vertex (net : BNet) (a : BNNode × BNNode) (w : Coord)
    (ha : a ∈ (mkBN net).arcs) (h2 : a.2 = .vertex w) :
    a = (.season, .vertex w) ∧ w ∈ net.verts := by
  rcases (mem_mkBN_arcs net a).1 ha with ⟨v, hv, rfl⟩ | ⟨v, _, ed, _, _, rfl⟩
  · simp only at h2
    injection h2 with h3
    subst h3
    exact ⟨rfl, hv⟩
  · simp only [edgeN] at h2
    cases h2

theorem arc_target_edge (net : BNet) (a : BNNode × BNNode) (ed : GEdge)
    (ha : a ∈ (mkBN net).arcs) (h2 : a.2 = edgeN ed) :
    ∃ w ∈ net.verts, (w = ed.1 ∨ w = ed.2) ∧ ed ∈ net.edges ∧ a = (.vertex w, edgeN ed) := by
  rcases (mem_mkBN_arcs net a).1 ha with ⟨v, _, rfl⟩ | ⟨v, hv, ed', hed', hc, rfl⟩
  · simp only [edgeN] at h2
    cases h2
  · simp only at h2
    have : ed' = ed := edgeN_injective h2
    subst this
    exact ⟨v, hv, hc, hed', rfl⟩

theorem arc_source (net : BNet) (a : BNNode × BNNode) (ha : a ∈ (mkBN net).arcs) :
    (a.1 = .season ∧ ∃ w ∈ net.verts, a.2 = .vertex w) ∨
    (∃ w ∈ net.verts, a.1 = .vertex w ∧
      ∃ ed ∈ net.edges, (w = ed.1 ∨ w = ed.2) ∧ a.2 = edgeN ed) := by
  rcases (mem_mkBN_arcs net a).1 ha with ⟨v, hv, rfl⟩ | ⟨v, hv, ed, hed, hc, rfl⟩
  · exact Or.inl ⟨rfl, v, hv, rfl⟩
  · exact Or.inr ⟨v, hv, rfl, ed, hed, hc, rfl⟩

/-- Intermediate forward-pass predicate after the season step and the
vertices in `pre`. -/
def fwdPv (q : BNNode) (e' : Evid) (pre : List Coord) : BNNode → Bool
  | .season => sRb q e'
  | .vertex v => decide (v ∈ pre) && vRb q e' v
  | .edge _ _ => false

/-- Intermediate forward-pass predicate after all vertices and the edges
in `pre`. -/
def fwdPe (net : BNet) (q : BNNode) (e' : Evid) (pre : List GEdge) : BNNode → Bool
  | .season => sRb q e'
  | .vertex v => decide (v ∈ net.verts) && vRb q e' v
  | .edge a b => decide ((a, b) ∈ pre) && edRb q e' (a, b)

theorem fwdFold_verts (net : BNet) (hwf : WFNet net) (q : BNNode) (e' : Evid) :
    ∀ (suf pre : List Coord), net.verts = pre ++ suf →
      (suf.map BNNode.vertex).foldl
        (fun h n => if inDeg h n = 0 ∧ emem e' n = true ∧ n ∉ [q] then removeNode h n else h)
        (fGraph (mkBN net) (fwdPv q e' pre))
      = fGraph (mkBN net) (fwdPv q e' (pre ++ suf)) := by
  intro suf
  induction suf with
  | nil => intro pre _; simp
  | cons v suf' ih =>
    intro pre hsplit
    have hvmem : v ∈ net.verts := by rw [hsplit]; simp
    have hvpre : v ∉ pre := by
      have hnd := hwf.1
      rw [hsplit] at hnd
      intro hin
      exact (List.disjoint_of_nodup_append hnd) hin (List.mem_cons_self _ _)
    have hdeg : inDeg (fGraph (mkBN net) (fwdPv q e' pre)) (.vertex v) = 0 ↔
        sRb q e' = true := by
      rw [inDeg_fGraph_eq_zero]
      constructor
      · intro h
        have harc : (BNNode.season, BNNode.vertex v) ∈ (mkBN net).arcs :=
          (mem_mkBN_arcs net _).2 (Or.inl ⟨v, hvmem, rfl⟩)
        rcases h _ harc rfl with hc | hc
        · exact hc
        · rw [show fwdPv q e' pre (BNNode.vertex v) = (decide (v ∈ pre) && vRb q e' v)
              from rfl, decide_eq_false hvpre, Bool.false_and] at hc
          cases hc
      · intro hs a ha h2
        obtain ⟨rfl, -⟩ := arc_target_vertex net a v ha h2
        exact Or.inl hs
    have hcond : (inDeg (fGraph (mkBN net) (fwdPv q e' pre)) (.vertex v) = 0
        ∧ emem e' (.vertex v) = true ∧ BNNode.vertex v ∉ [q]) ↔ vRb q e' v = true := by
      rw [hdeg, vRb]
      simp only [Bool.and_eq_true, decide_eq_true_eq, List.mem_singleton]
      tauto
    rw [List.map_cons, List.foldl_cons]
    by_cases hvR : vRb q e' v = true
    · rw [if_pos (hcond.2 hvR), removeNode_fGraph _ (mkBN_nodes_nodup net hwf)]
      have hcongr : (fun x => fwdPv q e' pre x || decide (x = BNNode.vertex v))
          = fwdPv q e' (pre ++ [v]) := by
        funext x
        cases x with
        | season => simp [fwdPv]
        | vertex w =>
          by_cases hw : w = v
          · subst hw
            simp [fwdPv, hvpre, hvR]
          · simp [fwdPv, hw, List.mem_append, List.mem_singleton]
        | edge a b => simp [fwdPv]
      rw [hcongr, ih (pre ++ [v]) (by rw [hsplit]; simp)]
      simp
    · rw [if_neg (fun hc => hvR (hcond.1 hc))]
      have hcongr : fwdPv q e' pre = fwdPv q e' (pre ++ [v]) := by
        funext x
        cases x with
        | season => simp [fwdPv]
        | vertex w =>
          by_cases hw : w = v
          · subst hw
            simp [fwdPv, hvpre, Bool.eq_false_iff.2 hvR]
          · simp [fwdPv, hw, List.mem_append, List.mem_singleton]
        | edge a b => simp [fwdPv]
      rw [hcongr, ih (pre ++ [v]) (by rw [hsplit]; simp)]
      simp

theorem fwdFold_edges (net : BNet) (hwf : WFNet net) (q : BNNode) (e' : Evid) :
    ∀ (suf pre : List GEdge), net.edges = pre ++ suf →
      (suf.map edgeN).foldl
        (fun h n => if inDeg h n = 0 ∧ emem e' n = true ∧ n ∉ [q] then removeNode h n else h)
        (fGraph (mkBN net) (fwdPe net q e' pre))
      = fGraph (mkBN net) (fwdPe net q e' (pre ++ suf)) := by
  intro suf
  induction suf with
  | nil => intro pre _; simp
  | cons ed suf' ih =>
    intro pre hsplit
    have hemem : ed ∈ net.edges := by rw [hsplit]; simp
    have hepre : ed ∉ pre := by
      have hnd := hwf.2.1
      rw [hsplit] at hnd
      intro hin
      exact (List.disjoint_of_nodup_append hnd) hin (List.mem_cons_self _ _)
    have hends := hwf.2.2 ed hemem
    have hdeg : inDeg (fGraph (mkBN net) (fwdPe net q e' pre)) (edgeN ed) = 0 ↔
        (vRb q e' ed.1 = true ∧ vRb q e' ed.2 = true) := by
      rw [inDeg_fGraph_eq_zero]
      constructor
      · intro h
        have hP : fwdPe net q e' pre (edgeN ed) = false := by
          show (decide (ed ∈ pre) && edRb q e' ed) = false
          rw [decide_eq_false hepre, Bool.false_and]
        constructor
        · have harc : (BNNode.vertex ed.1, edgeN ed) ∈ (mkBN net).arcs :=
            (mem_mkBN_arcs net _).2 (Or.inr ⟨ed.1, hends.1, ed, hemem, Or.inl rfl, rfl⟩)
          rcases h _ harc rfl with hc | hc
          · rw [show fwdPe net q e' pre (BNNode.vertex ed.1)
                = (decide (ed.1 ∈ net.verts) && vRb q e' ed.1) from rfl,
              decide_eq_true hends.1, Bool.true_and] at hc
            exact hc
          · rw [hP] at hc
            cases hc
        · have harc : (BNNode.vertex ed.2, edgeN ed) ∈ (mkBN net).arcs :=
            (mem_mkBN_arcs net _).2 (Or.inr ⟨ed.2, hends.2.1, ed, hemem, Or.inr rfl, rfl⟩)
          rcases h _ harc rfl with hc | hc
          · rw [show fwdPe net q e' pre (BNNode.vertex ed.2)
                = (decide (ed.2 ∈ net.verts) && vRb q e' ed.2) from rfl,
              decide_eq_true hends.2.1, Bool.true_and] at hc
            exact hc
          · rw [hP] at hc
            cases hc
      · rintro ⟨h1, h2⟩ a ha hta
        obtain ⟨w, hw, hwc, -, rfl⟩ := arc_target_edge net a ed ha hta
        refine Or.inl ?_
        show (decide (w ∈ net.verts) && vRb q e' w) = true
        rw [decide_eq_true hw, Bool.true_and]
        rcases hwc with rfl | rfl
        · exact h1
        · exact h2
    have hcond : (inDeg (fGraph (mkBN net) (fwdPe net q e' pre)) (edgeN ed) = 0
        ∧ emem e' (edgeN ed) = true ∧ edgeN ed ∉ [q]) ↔ edRb q e' ed = true := by
      rw [hdeg, edRb]
      simp only [Bool.and_eq_true, decide_eq_true_eq, List.mem_singleton]
      tauto
    rw [List.map_cons, List.foldl_cons]
    by_cases heR : edRb q e' ed = true
    · rw [if_pos (hcond.2 heR), removeNode_fGraph _ (mkBN_nodes_nodup net hwf)]
      have hcongr : (fun x => fwdPe net q e' pre x || decide (x = edgeN ed))
          = fwdPe net q e' (pre ++ [ed]) := by
        funext x
        cases x with
        | season => simp [fwdPe, edgeN]
        | vertex w => simp [fwdPe, edgeN]
        | edge a b =>
          by_cases hab : (a, b) = ed
          · subst hab
            simp [fwdPe, edgeN, hepre, heR]
          · have hx : BNNode.edge a b ≠ edgeN ed := fun hc => hab (by
              injection hc with hc1 hc2
              rw [Prod.ext_iff]
              exact ⟨hc1, hc2⟩)
            simp [fwdPe, hx, hab, List.mem_append, List.mem_singleton]
      rw [hcongr, ih (pre ++ [ed]) (by rw [hsplit]; simp)]
      simp
    · rw [if_neg (fun hc => heR (hcond.1 hc))]
      have hcongr : fwdPe net q e' pre = fwdPe net q e' (pre ++ [ed]) := by
        funext x
        cases x with
        | season => rfl
        | vertex w => rfl
        | edge a b =>
          by_cases hab : (a, b) = ed
          · subst hab
            simp [fwdPe, hepre, Bool.eq_false_iff.2 heR]
          · simp [fwdPe, hab, List.mem_append, List.mem_singleton]
      rw [hcongr, ih (pre ++ [ed]) (by rw [hsplit]; simp)]
      simp

theorem fwd_pass (net : BNet) (hwf : WFNet net) (q : BNNode) (e' : Evid) :
    (topoSort (mkBN net)).foldl
      (fun h n => if inDeg h n = 0 ∧ emem e' n = true ∧ n ∉ [q] then removeNode h n else h)
      (mkBN net)
    = fGraph (mkBN net) (fwdPe net q e' net.edges) := by
  rw [topoSort_mkBN net hwf, List.foldl_cons]
  have hcond : (inDeg (mkBN net) .season = 0 ∧ emem e' .season = true ∧ BNNode.season ∉ [q])
      ↔ sRb q e' = true := by
    rw [sRb]
    simp only [Bool.and_eq_true, decide_eq_true_eq, List.mem_singleton,
      inDeg_mkBN_season net]
    tauto
  have hstep : (if inDeg (mkBN net) .season = 0 ∧ emem e' .season = true
        ∧ BNNode.season ∉ [q] then removeNode (mkBN net) .season else mkBN net)
      = fGraph (mkBN net) (fwdPv q e' []) := by
    by_cases hs : sRb q e' = true
    · rw [if_pos (hcond.2 hs)]
      conv_lhs => rw [← fGraph_false (mkBN net)]
      rw [removeNode_fGraph _ (mkBN_nodes_nodup net hwf)]
      refine fGraph_congr _ fun x => ?_
      cases x with
      | season => simp [fwdPv, hs]
      | vertex w => simp [fwdPv]
      | edge a b => simp [fwdPv]
    · rw [if_neg (fun hc => hs (hcond.1 hc))]
      conv_lhs => rw [← fGraph_false (mkBN net)]
      refine fGraph_congr _ fun x => ?_
      cases x with
      | season => simp [fwdPv, Bool.eq_false_iff.2 hs]
      | vertex w => simp [fwdPv]
      | edge a b => simp [fwdPv]
  rw [hstep, List.foldl_append]
  rw [show vNodes net = net.verts.map BNNode.vertex from rfl,
    fwdFold_verts net hwf q e' net.verts [] (by simp)]
  have hbridge : fwdPv q e' ([] ++ net.verts) = fwdPe net q e' [] := by
    funext x
    cases x with
    | season => rfl
    | vertex w => simp [fwdPv, fwdPe]
    | edge a b => simp [fwdPv, fwdPe]
  rw [hbridge, show eNodes net = net.edges.map edgeN from rfl,
    fwdFold_edges net hwf q e' net.edges [] (by simp)]
  simp

/-- Intermediate backward-pass predicate after the backward edges in
`pre`. -/
def bwdPe (net : BNet) (q : BNNode) (e' : Evid) (pre : List GEdge) : BNNode → Bool
  | .season => sRb q e'
  | .vertex v => decide (v ∈ net.verts) && vRb q e' v
  | .edge a b => (decide ((a, b) ∈ net.edges) && edRb q e' (a, b))
      || (decide ((a, b) ∈ pre) && edBb q e' (a, b))

/-- Intermediate backward-pass predicate after all backward edges and the
backward vertices in `pre`. -/
def bwdPv (net : BNet) (q : BNNode) (e' : Evid) (pre : List Coord) : BNNode → Bool
  | .season => sRb q e'
  | .vertex v => (decide (v ∈ net.verts) && vRb q e' v)
      || (decide (v ∈ pre) && vBb net q e' v)
  | .edge a b => decide ((a, b) ∈ net.edges) && edRemb q e' (a, b)

theorem outDeg_fGraph_edge (net : BNet) (P : BNNode → Bool) (ed : GEdge) :
    outDeg (fGraph (mkBN net) P) (edgeN ed) = 0 := by
  rw [outDeg_fGraph_eq_zero]
  intro a ha h1
  rcases arc_source net a ha with ⟨h1', -⟩ | ⟨w, -, h1', -⟩
  · rw [h1'] at h1
    cases h1
  · rw [h1'] at h1
    cases h1

theorem bwdFold_edges (net : BNet) (hwf : WFNet net) (q : BNNode) (e' : Evid) :
    ∀ (suf pre : List GEdge), net.edges.reverse = pre ++ suf →
      (suf.map edgeN).foldl
        (fun h n => if n ∈ h.nodes ∧ outDeg h n = 0 ∧ ¬ emem e' n = true ∧ n ∉ [q]
          then removeNode h n else h)
        (fGraph (mkBN net) (bwdPe net q e' pre))
      = fGraph (mkBN net) (bwdPe net q e' (pre ++ suf)) := by
  intro suf
  induction suf with
  | nil => intro pre _; simp
  | cons ed suf' ih =>
    intro pre hsplit
    have hemem : ed ∈ net.edges := by
      rw [← List.mem_reverse, hsplit]
      simp
    have hepre : ed ∉ pre := by
      have hnd := List.nodup_reverse.2 hwf.2.1
      rw [hsplit] at hnd
      intro hin
      exact (List.disjoint_of_nodup_append hnd) hin (List.mem_cons_self _ _)
    have hnmem : edgeN ed ∈ (mkBN net).nodes := by
      rw [mkBN_nodes]
      exact List.mem_cons_of_mem _ (List.mem_append_left _ (List.mem_map_of_mem _ hemem))
    have hPv : bwdPe net q e' pre (edgeN ed) = edRb q e' ed := by
      show ((decide (ed ∈ net.edges) && edRb q e' ed)
          || (decide (ed ∈ pre) && edBb q e' ed)) = _
      rw [decide_eq_true hemem, Bool.true_and, decide_eq_false hepre, Bool.false_and,
        Bool.or_false]
    have hcond : (edgeN ed ∈ (fGraph (mkBN net) (bwdPe net q e' pre)).nodes
        ∧ outDeg (fGraph (mkBN net) (bwdPe net q e' pre)) (edgeN ed) = 0
        ∧ ¬ emem e' (edgeN ed) = true ∧ edgeN ed ∉ [q]) ↔ edBb q e' ed = true := by
      rw [mem_fGraph_nodes, hPv, edBb]
      simp only [outDeg_fGraph_edge, Bool.and_eq_true, Bool.not_eq_true',
        decide_eq_true_eq, List.mem_singleton, Bool.not_eq_true]
      constructor
      · rintro ⟨⟨-, h1⟩, -, h2, h3⟩
        exact ⟨⟨h1, h2⟩, h3⟩
      · rintro ⟨⟨h1, h2⟩, h3⟩
        exact ⟨⟨hnmem, h1⟩, trivial, h2, h3⟩
    rw [List.map_cons, List.foldl_cons]
    by_cases heB : edBb q e' ed = true
    · rw [if_pos (hcond.2 heB), removeNode_fGraph _ (mkBN_nodes_nodup net hwf)]
      have hcongr : (fun x => bwdPe net q e' pre x || decide (x = edgeN ed))
          = bwdPe net q e' (pre ++ [ed]) := by
        funext x
        cases x with
        | season => simp [bwdPe, edgeN]
        | vertex w => simp [bwdPe, edgeN]
        | edge a b =>
          by_cases hab : (a, b) = ed
          · subst hab
            simp [bwdPe, edgeN, hemem, hepre, heB]
          · have hx : BNNode.edge a b ≠ edgeN ed := fun hc => hab (by
              injection hc with hc1 hc2
              rw [Prod.ext_iff]
              exact ⟨hc1, hc2⟩)
            simp [bwdPe, hx, hab, List.mem_append, List.mem_singleton]
      rw [hcongr, ih (pre ++ [ed]) (by rw [hsplit]; simp)]
      simp
    · rw [if_neg (fun hc => heB (hcond.1 hc))]
      have hcongr : bwdPe net q e' pre = bwdPe net q e' (pre ++ [ed]) := by
        funext x
        cases x with
        | season => rfl
        | vertex w => rfl
        | edge a b =>
          by_cases hab : (a, b) = ed
          · subst hab
            simp [bwdPe, hepre, Bool.eq_false_iff.2 heB]
          · simp [bwdPe, hab, List.mem_append, List.mem_singleton]
      rw [hcongr, ih (pre ++ [ed]) (by rw [hsplit]; simp)]
      simp

theorem bwdFold_verts (net : BNet) (hwf : WFNet net) (q : BNNode) (e' : Evid) :
    ∀ (suf pre : List Coord), net.verts.reverse = pre ++ suf →
      (suf.map BNNode.vertex).foldl
        (fun h n => if n ∈ h.nodes ∧ outDeg h n = 0 ∧ ¬ emem e' n = true ∧ n ∉ [q]
          then removeNode h n else h)
        (fGraph (mkBN net) (bwdPv net q e' pre))
      = fGraph (mkBN net) (bwdPv net q e' (pre ++ suf)) := by
  intro suf
  induction suf with
  | nil => intro pre _; simp
  | cons v suf' ih =>
    intro pre hsplit
    have hvmem : v ∈ net.verts := by
      rw [← List.mem_reverse, hsplit]
      simp
    have hvpre : v ∉ pre := by
      have hnd := List.nodup_reverse.2 hwf.1
      rw [hsplit] at hnd
      intro hin
      exact (List.disjoint_of_nodup_append hnd) hin (List.mem_cons_self _ _)
    have hnmem : BNNode.vertex v ∈ (mkBN net).nodes := by
      rw [mkBN_nodes]
      exact List.mem_cons_of_mem _ (List.mem_append_right _ (List.mem_map_of_mem _ hvmem))
    have hPv : bwdPv net q e' pre (.vertex v) = vRb q e' v := by
      show ((decide (v ∈ net.verts) && vRb q e' v) || (decide (v ∈ pre) && vBb net q e' v)) = _
      rw [decide_eq_true hvmem, Bool.true_and, decide_eq_false hvpre, Bool.false_and,
        Bool.or_false]
    have hcond : (BNNode.vertex v ∈ (fGraph (mkBN net) (bwdPv net q e' pre)).nodes
        ∧ outDeg (fGraph (mkBN net) (bwdPv net q e' pre)) (.vertex v) = 0
        ∧ ¬ emem e' (.vertex v) = true ∧ BNNode.vertex v ∉ [q]) ↔
        vBb net q e' v = true := by
      rw [mem_fGraph_nodes, hPv, vBb]
      simp only [Bool.and_eq_true, Bool.not_eq_true', decide_eq_true_eq,
        List.mem_singleton, Bool.not_eq_true, List.all_eq_true, Bool.or_eq_true]
      constructor
      · rintro ⟨⟨-, hR⟩, hdg, hem, hq⟩
        refine ⟨⟨⟨hR, fun ed hed => ?_⟩, hem⟩, hq⟩
        by_cases hinc : v = ed.1 ∨ v = ed.2
        · rw [outDeg_fGraph_eq_zero] at hdg
          have harc : (BNNode.vertex v, edgeN ed) ∈ (mkBN net).arcs :=
            (mem_mkBN_arcs net _).2 (Or.inr ⟨v, hvmem, ed, hed, hinc, rfl⟩)
          rcases hdg _ harc rfl with hc | hc
          · rw [show bwdPv net q e' pre (BNNode.vertex v)
                = vRb q e' v from hPv, hR] at hc
            cases hc
          · right
            have : bwdPv net q e' pre (edgeN ed)
                = (decide (ed ∈ net.edges) && edRemb q e' ed) := rfl
            rw [this, decide_eq_true hed, Bool.true_and] at hc
            exact hc
        · left
          simp [hinc]
      · rintro ⟨⟨⟨hR, hall⟩, hem⟩, hq⟩
        refine ⟨⟨hnmem, hR⟩, ?_, hem, hq⟩
        rw [outDeg_fGraph_eq_zero]
        intro a ha h1
        rcases arc_source net a ha with ⟨h1', -⟩ | ⟨w, hw, h1', ed, hed, hcw, h2'⟩
        · rw [h1'] at h1
          cases h1
        · rw [h1'] at h1
          injection h1 with hwv
          subst hwv
          right
          rw [h2']
          show (decide (ed ∈ net.edges) && edRemb q e' ed) = true
          rw [decide_eq_true hed, Bool.true_and]
          rcases hall ed hed with hc | hc
          · exact absurd hcw (by simpa using hc)
          · exact hc
    rw [List.map_cons, List.foldl_cons]
    by_cases hvB : vBb net q e' v = true
    · rw [if_pos (hcond.2 hvB), removeNode_fGraph _ (mkBN_nodes_nodup net hwf)]
      have hcongr : (fun x => bwdPv net q e' pre x || decide (x = BNNode.vertex v))
          = bwdPv net q e' (pre ++ [v]) := by
        funext x
        cases x with
        | season => simp [bwdPv]
        | vertex w =>
          by_cases hw : w = v
          · subst hw
            simp [bwdPv, hvpre, hvB]
          · simp [bwdPv, hw, List.mem_append, List.mem_singleton]
        | edge a b => simp [bwdPv]
      rw [hcongr, ih (pre ++ [v]) (by rw [hsplit]; simp)]
      simp
    · rw [if_neg (fun hc => hvB (hcond.1 hc))]
      have hcongr : bwdPv net q e' pre = bwdPv net q e' (pre ++ [v]) := by
        funext x
        cases x with
        | season => rfl
        | vertex w =>
          by_cases hw : w = v
          · subst hw
            simp [bwdPv, hvpre, Bool.eq_false_iff.2 hvB]
          · simp [bwdPv, hw, List.mem_append, List.mem_singleton]
        | edge a b => rfl
      rw [hcongr, ih (pre ++ [v]) (by rw [hsplit]; simp)]
      simp

/-- `RemoveBarrenNodes` on the three-layer network removes exactly the
nodes of the closed-form predicate `remPb`. -/
theorem removeBarren_mkBN (net : BNet) (hwf : WFNet net) (q : BNNode) (e' : Evid) :
    removeBarren (mkBN net) [q] e' = fGraph (mkBN net) (remPb net q e') := by
  rw [removeBarren]
  have hfwd := fwd_pass net hwf q e'
  rw [hfwd]
  rw [topoSort_mkBN net hwf, List.reverse_cons, List.reverse_append]
  have hbridge1 : fwdPe net q e' net.edges = bwdPe net q e' [] := by
    funext x
    cases x with
    | season => rfl
    | vertex w => rfl
    | edge a b => simp [fwdPe, bwdPe]
  rw [hbridge1]
  have hrevE : (eNodes net).reverse = (net.edges.reverse).map edgeN := by
    rw [eNodes, List.map_reverse]
  have hrevV : (vNodes net).reverse = (net.verts.reverse).map BNNode.vertex := by
    rw [vNodes, List.map_reverse]
  rw [List.foldl_append, List.foldl_append, hrevE,
    bwdFold_edges net hwf q e' net.edges.reverse [] (by simp)]
  have hbridge2 : bwdPe net q e' ([] ++ net.edges.reverse) = bwdPv net q e' [] := by
    funext x
    cases x with
    | season => rfl
    | vertex w => simp [bwdPe, bwdPv]
    | edge a b =>
      show ((decide ((a, b) ∈ net.edges) && edRb q e' (a, b))
          || (decide ((a, b) ∈ [] ++ net.edges.reverse) && edBb q e' (a, b)))
        = (decide ((a, b) ∈ net.edges) && edRemb q e' (a, b))
      rw [edRemb]
      by_cases hm : (a, b) ∈ net.edges
      · rw [decide_eq_true hm, decide_eq_true (by simpa using hm), Bool.true_and,
          Bool.true_and, Bool.true_and]
      · rw [decide_eq_false hm, decide_eq_false (by simpa using hm), Bool.false_and,
          Bool.false_and, Bool.false_and, Bool.or_false]
  rw [hbridge2, hrevV, bwdFold_verts net hwf q e' net.verts.reverse [] (by simp)]
  rw [List.foldl_cons, List.foldl_nil]
  have hPs : bwdPv net q e' ([] ++ net.verts.reverse) .season = sRb q e' := rfl
  have hsmem : BNNode.season ∈ (mkBN net).nodes := by
    rw [mkBN_nodes]
    exact List.mem_cons_self _ _
  have hcond : (BNNode.season ∈ (fGraph (mkBN net)
        (bwdPv net q e' ([] ++ net.verts.reverse))).nodes
      ∧ outDeg (fGraph (mkBN net) (bwdPv net q e' ([] ++ net.verts.reverse))) .season = 0
      ∧ ¬ emem e' .season = true ∧ BNNode.season ∉ [q]) ↔
      sBb net q e' = true := by
    rw [mem_fGraph_nodes, hPs, sBb]
    simp only [Bool.and_eq_true, Bool.not_eq_true', decide_eq_true_eq,
      List.mem_singleton, Bool.not_eq_true, List.all_eq_true]
    constructor
    · rintro ⟨⟨-, hR⟩, hdg, hem, hq⟩
      refine ⟨⟨⟨hR, fun v hv => ?_⟩, hem⟩, hq⟩
      rw [outDeg_fGraph_eq_zero] at hdg
      have harc : (BNNode.season, BNNode.vertex v) ∈ (mkBN net).arcs :=
        (mem_mkBN_arcs net _).2 (Or.inl ⟨v, hv, rfl⟩)
      rcases hdg _ harc rfl with hc | hc
      · rw [hPs, hR] at hc
        cases hc
      · show vRemb net q e' v = true
        have : bwdPv net q e' ([] ++ net.verts.reverse) (.vertex v)
            = ((decide (v ∈ net.verts) && vRb q e' v)
              || (decide (v ∈ [] ++ net.verts.reverse) && vBb net q e' v)) := rfl
        rw [this, decide_eq_true hv, decide_eq_true (by simpa using hv), Bool.true_and,
          Bool.true_and] at hc
        exact hc
    · rintro ⟨⟨⟨hR, hall⟩, hem⟩, hq⟩
      refine ⟨⟨hsmem, hR⟩, ?_, hem, hq⟩
      rw [outDeg_fGraph_eq_zero]
      intro a ha h1
      rcases arc_source net a ha with ⟨-, w, hw, h2'⟩ | ⟨w, -, h1', -⟩
      · right
        rw [h2']
        show ((decide (w ∈ net.verts) && vRb q e' w)
            || (decide (w ∈ [] ++ net.verts.reverse) && vBb net q e' w)) = true
        rw [decide_eq_true hw, decide_eq_true (by simpa using hw), Bool.true_and,
          Bool.true_and]
        exact hall w hw
      · rw [h1'] at h1
        cases h1
  by_cases hsB : sBb net q e' = true
  · rw [if_pos (hcond.2 hsB), removeNode_fGraph _ (mkBN_nodes_nodup net hwf)]
    refine fGraph_congr _ fun x => ?_
    cases x with
    | season => simp [bwdPv, remPb, sRemb, hsB]
    | vertex w =>
      show (((decide (w ∈ net.verts) && vRb q e' w)
          || (decide (w ∈ [] ++ net.verts.reverse) && vBb net q e' w))
          || decide (BNNode.vertex w = BNNode.season))
        = (decide (w ∈ net.verts) && vRemb net q e' w)
      rw [vRemb]
      by_cases hm : w ∈ net.verts
      · rw [decide_eq_true hm, decide_eq_true (by simpa using hm)]
        simp [Bool.and_or_distrib_left]
      · rw [decide_eq_false hm, decide_eq_false (by simpa using hm)]
        simp
    | edge a b => simp [bwdPv, remPb]
  · rw [if_neg (fun hc => hsB (hcond.1 hc))]
    refine fGraph_congr _ fun x => ?_
    cases x with
    | season => simp [bwdPv, remPb, sRemb, Bool.eq_false_iff.2 hsB]
    | vertex w =>
      show ((decide (w ∈ net.verts) && vRb q e' w)
          || (decide (w ∈ [] ++ net.verts.reverse) && vBb net q e' w))
        = (decide (w ∈ net.verts) && vRemb net q e' w)
      rw [vRemb]
      by_cases hm : w ∈ net.verts
      · rw [decide_eq_true hm, decide_eq_true (by simpa using hm)]
        simp [Bool.and_or_distrib_left]
      · rw [decide_eq_false hm, decide_eq_false (by simpa using hm)]
        simp
    | edge a b => simp [bwdPv, remPb]

/-! ### Topological order of the pruned graph -/

theorem inDeg_fGraph_season (net : BNet) (P : BNNode → Bool) :
    inDeg (fGraph (mkBN net) P) .season = 0 := by
  rw [inDeg_eq_zero_iff]
  intro a ha
  obtain ⟨hmem, -, -⟩ := (mem_fGraph_arcs _ _ _).1 ha
  rcases (mem_mkBN_arcs net a).1 hmem with ⟨v, _, rfl⟩ | ⟨v, _, ed, _, _, rfl⟩ <;>
    simp [edgeN]

theorem inDeg_fGraph_vertex (net : BNet) (P : BNNode → Bool) (v : Coord)
    (hv : v ∈ net.verts) :
    inDeg (fGraph (mkBN net) P) (.vertex v) = 0 ↔
      (P .season = true ∨ P (.vertex v) = true) := by
  rw [inDeg_fGraph_eq_zero]
  constructor
  · intro h
    exact h _ ((mem_mkBN_arcs net _).2 (Or.inl ⟨v, hv, rfl⟩)) rfl
  · intro hp a ha h2
    obtain ⟨rfl, -⟩ := arc_target_vertex net a v ha h2
    exact hp

theorem inDeg_fGraph_edge_iff (net : BNet) (hwf : WFNet net) (P : BNNode → Bool)
    (ed : GEdge) (hed : ed ∈ net.edges) :
    inDeg (fGraph (mkBN net) P) (edgeN ed) = 0 ↔
      ((P (.vertex ed.1) = true ∨ P (edgeN ed) = true) ∧
       (P (.vertex ed.2) = true ∨ P (edgeN ed) = true)) := by
  have hends := hwf.2.2 ed hed
  rw [inDeg_fGraph_eq_zero]
  constructor
  · intro h
    exact ⟨h _ ((mem_mkBN_arcs net _).2
        (Or.inr ⟨ed.1, hends.1, ed, hed, Or.inl rfl, rfl⟩)) rfl,
      h _ ((mem_mkBN_arcs net _).2
        (Or.inr ⟨ed.2, hends.2.1, ed, hed, Or.inr rfl, rfl⟩)) rfl⟩
  · rintro ⟨h1, h2⟩ a ha hta
    obtain ⟨w, -, hwc, -, rfl⟩ := arc_target_edge net a ed ha hta
    rcases hwc with rfl | rfl
    · exact h1
    · exact h2

theorem removeNodes_fGraph (g0 : BGraph) (hnd : g0.nodes.Nodup) :
    ∀ (ns : List BNNode) (P : BNNode → Bool),
      removeNodes (fGraph g0 P) ns = fGraph g0 (fun x => P x || x ∈ ns) := by
  intro ns
  induction ns with
  | nil =>
    intro P
    show fGraph g0 P = _
    refine fGraph_congr _ fun x => ?_
    simp
  | cons n rest ih =>
    intro P
    show removeNodes (removeNode (fGraph g0 P) n) rest = _
    rw [removeNode_fGraph _ hnd, ih]
    refine fGraph_congr _ fun x => ?_
    by_cases hx : x = n <;> by_cases hr : x ∈ rest <;> simp [hx, hr]

/-- Edges kept by the pruning (neither pass removes them). -/
def keptEL (net : BNet) (q : BNNode) (e' : Evid) : List GEdge :=
  net.edges.filter fun ed => !edRemb q e' ed

/-- Kept edges both of whose endpoints are removed: their nodes have no
remaining parent arcs, so they appear in the first Kahn generation. -/
def orphanEL (net : BNet) (q : BNNode) (e' : Evid) : List GEdge :=
  (keptEL net q e').filter fun ed => vRemb net q e' ed.1 && vRemb net q e' ed.2

/-- Kept edges with at least one kept endpoint. -/
def otherEL (net : BNet) (q : BNNode) (e' : Evid) : List GEdge :=
  (keptEL net q e').filter fun ed => !(vRemb net q e' ed.1 && vRemb net q e' ed.2)

/-- Vertices kept by the pruning. -/
def keptVL (net : BNet) (q : BNNode) (e' : Evid) : List Coord :=
  net.verts.filter fun v => !vRemb net q e' v

theorem mem_keptEL (net : BNet) (q : BNNode) (e' : Evid) (ed : GEdge) :
    ed ∈ keptEL net q e' ↔ ed ∈ net.edges ∧ edRemb q e' ed = false := by
  simp [keptEL, List.mem_filter]

theorem mem_orphanEL (net : BNet) (q : BNNode) (e' : Evid) (ed : GEdge) :
    ed ∈ orphanEL net q e' ↔
      ed ∈ keptEL net q e' ∧ vRemb net q e' ed.1 = true ∧ vRemb net q e' ed.2 = true := by
  simp [orphanEL, List.mem_filter]

theorem mem_otherEL (net : BNet) (q : BNNode) (e' : Evid) (ed : GEdge) :
    ed ∈ otherEL net q e' ↔
      ed ∈ keptEL net q e' ∧ ¬(vRemb net q e' ed.1 = true ∧ vRemb net q e' ed.2 = true) := by
  simp only [otherEL, List.mem_filter, Bool.not_eq_true', Bool.and_eq_false_iff]
  constructor
  · rintro ⟨hk, h | h⟩ <;> exact ⟨hk, by simp [h]⟩
  · rintro ⟨hk, h⟩
    refine ⟨hk, ?_⟩
    rcases Bool.eq_false_or_eq_true (vRemb net q e' ed.1) with h1 | h1
    · rcases Bool.eq_false_or_eq_true (vRemb net q e' ed.2) with h2 | h2
      · exact absurd ⟨h1, h2⟩ h
      · exact Or.inr h2
    · exact Or.inl h1

theorem mem_keptVL (net : BNet) (q : BNNode) (e' : Evid) (v : Coord) :
    v ∈ keptVL net q e' ↔ v ∈ net.verts ∧ vRemb net q e' v = false := by
  simp [keptVL, List.mem_filter]

theorem vertex_not_mem_edgeN_map (w : Coord) (l : List GEdge) :
    BNNode.vertex w ∉ l.map edgeN := by
  intro h
  obtain ⟨ed, -, hEq⟩ := List.mem_map.1 h
  cases hEq

theorem season_not_mem_edgeN_map (l : List GEdge) :
    BNNode.season ∉ l.map edgeN := by
  intro h
  obtain ⟨ed, -, hEq⟩ := List.mem_map.1 h
  cases hEq

theorem season_not_mem_vertex_map (l : List Coord) :
    BNNode.season ∉ l.map BNNode.vertex := by
  intro h
  obtain ⟨v, -, hEq⟩ := List.mem_map.1 h
  cases hEq

theorem edgeN_not_mem_vertex_map (ed : GEdge) (l : List Coord) :
    edgeN ed ∉ l.map BNNode.vertex := by
  intro h
  obtain ⟨v, -, hEq⟩ := List.mem_map.1 h
  cases hEq

theorem otherEL_endpoint (net : BNet) (hwf : WFNet net) (q : BNNode) (e' : Evid)
    (ed : GEdge) (hed : ed ∈ otherEL net q e') :
    ed.1 ∈ keptVL net q e' ∨ ed.2 ∈ keptVL net q e' := by
  obtain ⟨hk, hnb⟩ := (mem_otherEL net q e' ed).1 hed
  obtain ⟨he, -⟩ := (mem_keptEL net q e' ed).1 hk
  have hends := hwf.2.2 ed he
  by_cases h1 : vRemb net q e' ed.1 = true
  · refine Or.inr ((mem_keptVL net q e' ed.2).2 ⟨hends.2.1, ?_⟩)
    rcases Bool.eq_false_or_eq_true (vRemb net q e' ed.2) with h | h
    · exact absurd ⟨h1, h⟩ hnb
    · exact h
  · exact Or.inl ((mem_keptVL net q e' ed.1).2 ⟨hends.1, Bool.eq_false_iff.2 h1⟩)

theorem keptEL_of_orphan_other_nil (net : BNet) (q : BNNode) (e' : Evid)
    (h1 : orphanEL net q e' = []) (h2 : otherEL net q e' = []) :
    keptEL net q e' = [] := by
  rw [List.eq_nil_iff_forall_not_mem]
  intro ed hed
  by_cases hb : (vRemb net q e' ed.1 && vRemb net q e' ed.2) = true
  · have : ed ∈ orphanEL net q e' := List.mem_filter.2 ⟨hed, hb⟩
    rw [h1] at this
    exact absurd this (List.not_mem_nil ed)
  · have : ed ∈ otherEL net q e' := List.mem_filter.2 ⟨hed, by simp [hb]⟩
    rw [h2] at this
    exact absurd this (List.not_mem_nil ed)

theorem decide_eq_of_iff {p : Prop} [Decidable p] {b : Bool} (h : p ↔ b = true) :
    decide p = b := by
  rcases Bool.eq_false_or_eq_true b with hb | hb <;> subst hb <;> simp [h]

theorem remPb_season (net : BNet) (q : BNNode) (e' : Evid) :
    remPb net q e' .season = sRemb net q e' := rfl

theorem remPb_vertex_mem (net : BNet) (q : BNNode) (e' : Evid) (v : Coord)
    (hv : v ∈ net.verts) :
    remPb net q e' (.vertex v) = vRemb net q e' v := by
  simp [remPb, hv]

theorem remPb_edgeN_mem (net : BNet) (q : BNNode) (e' : Evid) (ed : GEdge)
    (hed : ed ∈ net.edges) :
    remPb net q e' (edgeN ed) = edRemb q e' ed := by
  cases ed with
  | mk a b => simp [edgeN, remPb, hed]

theorem fGraph_mkBN_nodes (net : BNet) (P : BNNode → Bool) :
    (fGraph (mkBN net) P).nodes =
      (if P .season then [] else [.season])
        ++ (net.edges.filter fun ed => !P (edgeN ed)).map edgeN
        ++ (net.verts.filter fun v => !P (.vertex v)).map .vertex := by
  show ((mkBN net).nodes.filter fun x => !P x) = _
  rw [mkBN_nodes, List.filter_cons, List.filter_append, eNodes, vNodes,
    List.filter_map, List.filter_map]
  by_cases hs : P .season = true <;>
    simp [hs, Function.comp_def]

theorem orphanEL_eq (net : BNet) (q : BNNode) (e' : Evid) :
    orphanEL net q e' = net.edges.filter fun ed =>
      !edRemb q e' ed && (vRemb net q e' ed.1 && vRemb net q e' ed.2) := by
  rw [orphanEL, keptEL, List.filter_filter]
  exact List.filter_congr fun ed _ => Bool.and_comm _ _

theorem otherEL_eq (net : BNet) (q : BNNode) (e' : Evid) :
    otherEL net q e' = net.edges.filter fun ed =>
      !edRemb q e' ed && !(vRemb net q e' ed.1 && vRemb net q e' ed.2) := by
  rw [otherEL, keptEL, List.filter_filter]
  exact List.filter_congr fun ed _ => Bool.and_comm _ _

theorem gen_fGraph (net : BNet) (hwf : WFNet net) (P : BNNode → Bool) :
    ((fGraph (mkBN net) P).nodes.filter fun n =>
        inDeg (fGraph (mkBN net) P) n = 0) =
      (if P .season then [] else [.season])
        ++ (net.edges.filter fun ed =>
              !P (edgeN ed) && (P (.vertex ed.1) && P (.vertex ed.2))).map edgeN
        ++ (if P .season then
              (net.verts.filter fun v => !P (.vertex v)).map .vertex else []) := by
  rw [fGraph_mkBN_nodes, List.filter_append, List.filter_append]
  congr 1
  · congr 1
    · by_cases hs : P .season = true
      · simp [hs]
      · simp [hs, List.filter_cons, inDeg_fGraph_season]
    · rw [List.filter_map, List.filter_filter]
      congr 1
      refine List.filter_congr fun ed hed => ?_
      show (decide (inDeg (fGraph (mkBN net) P) (edgeN ed) = 0) && !P (edgeN ed)) = _
      by_cases hpe : P (edgeN ed) = true
      · simp [hpe]
      · simp only [Bool.not_eq_true] at hpe
        have hiff := inDeg_fGraph_edge_iff net hwf P ed hed
        rw [hpe] at hiff ⊢
        simp only [Bool.false_eq_true, or_false] at hiff
        by_cases h1 : P (.vertex ed.1) = true
        · by_cases h2 : P (.vertex ed.2) = true
          · have hz : inDeg (fGraph (mkBN net) P) (edgeN ed) = 0 := hiff.2 ⟨h1, h2⟩
            simp [h1, h2, hz]
          · have hz : ¬inDeg (fGraph (mkBN net) P) (edgeN ed) = 0 :=
              fun hc => h2 (hiff.1 hc).2
            have hd : decide (inDeg (fGraph (mkBN net) P) (edgeN ed) = 0) = false :=
              decide_eq_of_iff (iff_of_false hz (by simp))
            simp [h1, h2, hd]
        · have hz : ¬inDeg (fGraph (mkBN net) P) (edgeN ed) = 0 :=
            fun hc => h1 (hiff.1 hc).1
          have hd : decide (inDeg (fGraph (mkBN net) P) (edgeN ed) = 0) = false :=
            decide_eq_of_iff (iff_of_false hz (by simp))
          simp [h1, hd]
  · rw [List.filter_map, List.filter_filter]
    simp only [Function.comp_apply]
    by_cases hs : P .season = true
    · rw [if_pos hs]
      congr 1
      refine List.filter_congr fun v hv => ?_
      have hiff := inDeg_fGraph_vertex net P v hv
      have hz : inDeg (fGraph (mkBN net) P) (.vertex v) = 0 := hiff.2 (Or.inl hs)
      simp [hz]
    · rw [if_neg hs]
      rw [Bool.not_eq_true] at hs
      have hfa : ∀ v ∈ net.verts,
          (decide (inDeg (fGraph (mkBN net) P) (.vertex v) = 0) && !P (.vertex v)) = false := by
        intro v hv
        have hiff := inDeg_fGraph_vertex net P v hv
        rw [hs] at hiff
        simp only [Bool.false_eq_true, false_or] at hiff
        by_cases h1 : P (.vertex v) = true
        · simp [h1]
        · simp only [Bool.not_eq_true] at h1
          rw [h1] at hiff ⊢
          simp [decide_eq_of_iff hiff]
      rw [List.filter_congr hfa, List.filter_false, List.map_nil]

theorem fGraph_nodes_nil (net : BNet) (P : BNNode → Bool)
    (hs : P .season = true)
    (hv : ∀ v ∈ net.verts, P (.vertex v) = true)
    (he : ∀ ed ∈ net.edges, P (edgeN ed) = true) :
    (fGraph (mkBN net) P).nodes = [] := by
  rw [fGraph_mkBN_nodes, if_pos hs]
  have h1 : (net.edges.filter fun ed => !P (edgeN ed)) = [] := by
    rw [List.eq_nil_iff_forall_not_mem]
    intro ed hmem
    obtain ⟨hm, hp⟩ := List.mem_filter.1 hmem
    rw [he ed hm] at hp
    exact absurd hp (by simp)
  have h2 : (net.verts.filter fun v => !P (.vertex v)) = [] := by
    rw [List.eq_nil_iff_forall_not_mem]
    intro v hmem
    obtain ⟨hm, hp⟩ := List.mem_filter.1 hmem
    rw [hv v hm] at hp
    exact absurd hp (by simp)
  simp [h1, h2]

theorem edFilter_keptEL (net : BNet) (q : BNNode) (e' : Evid) :
    (net.edges.filter fun ed => !remPb net q e' (edgeN ed)) = keptEL net q e' := by
  refine List.filter_congr fun ed hed => ?_
  rw [remPb_edgeN_mem net q e' ed hed]

theorem vFilter_keptVL (net : BNet) (q : BNNode) (e' : Evid) :
    (net.verts.filter fun v => !remPb net q e' (.vertex v)) = keptVL net q e' := by
  refine List.filter_congr fun v hv => ?_
  rw [remPb_vertex_mem net q e' v hv]

theorem edFilter_orphan (net : BNet) (hwf : WFNet net) (q : BNNode) (e' : Evid) :
    (net.edges.filter fun ed =>
        !remPb net q e' (edgeN ed) &&
          (remPb net q e' (.vertex ed.1) && remPb net q e' (.vertex ed.2))) =
      orphanEL net q e' := by
  rw [orphanEL_eq]
  refine List.filter_congr fun ed hed => ?_
  have h3 := hwf.2.2 ed hed
  rw [remPb_edgeN_mem net q e' ed hed, remPb_vertex_mem net q e' ed.1 h3.1,
    remPb_vertex_mem net q e' ed.2 h3.2.1]

theorem vFilter_of_vRemb (net : BNet) (q : BNNode) (e' : Evid) (P : BNNode → Bool)
    (hPv : ∀ v ∈ net.verts, P (.vertex v) = vRemb net q e' v) :
    (net.verts.filter fun v => !P (.vertex v)) = keptVL net q e' := by
  refine List.filter_congr fun v hv => ?_
  rw [hPv v hv]

theorem vFilter_of_true (net : BNet) (P : BNNode → Bool)
    (hPv : ∀ v ∈ net.verts, P (.vertex v) = true) :
    (net.verts.filter fun v => !P (.vertex v)) = [] := by
  rw [List.eq_nil_iff_forall_not_mem]
  intro v hmem
  obtain ⟨hm, hp⟩ := List.mem_filter.1 hmem
  rw [hPv v hm] at hp
  exact absurd hp (by simp)

theorem edFilter_of_post1 (net : BNet) (q : BNNode) (e' : Evid) (P : BNNode → Bool)
    (hPe : ∀ ed ∈ net.edges,
      P (edgeN ed) = (edRemb q e' ed || decide (ed ∈ orphanEL net q e'))) :
    (net.edges.filter fun ed => !P (edgeN ed)) = otherEL net q e' := by
  rw [otherEL_eq]
  refine List.filter_congr fun ed hed => ?_
  rw [hPe ed hed]
  by_cases h1 : edRemb q e' ed = true
  · simp [h1]
  · simp only [Bool.not_eq_true] at h1
    have hmem : ed ∈ orphanEL net q e' ↔
        (vRemb net q e' ed.1 = true ∧ vRemb net q e' ed.2 = true) := by
      rw [mem_orphanEL]
      constructor
      · exact fun h => h.2
      · exact fun h => ⟨(mem_keptEL net q e' ed).2 ⟨hed, h1⟩, h⟩
    have hd : decide (ed ∈ orphanEL net q e') =
        (vRemb net q e' ed.1 && vRemb net q e' ed.2) :=
      decide_eq_of_iff (hmem.trans (Bool.and_eq_true _ _).symm.to_iff)
    rw [h1, hd]
    simp

theorem genEdges_nil_of_post1 (net : BNet) (hwf : WFNet net) (q : BNNode) (e' : Evid)
    (P : BNNode → Bool)
    (hPe : ∀ ed ∈ net.edges,
      P (edgeN ed) = (edRemb q e' ed || decide (ed ∈ orphanEL net q e')))
    (hPv : ∀ v ∈ net.verts, P (.vertex v) = vRemb net q e' v) :
    (net.edges.filter fun ed =>
      !P (edgeN ed) && (P (.vertex ed.1) && P (.vertex ed.2))) = [] := by
  rw [List.eq_nil_iff_forall_not_mem]
  intro ed hmem
  obtain ⟨hed, hp⟩ := List.mem_filter.1 hmem
  have h3 := hwf.2.2 ed hed
  rw [hPe ed hed, hPv ed.1 h3.1, hPv ed.2 h3.2.1] at hp
  simp only [Bool.and_eq_true, Bool.not_eq_true', Bool.or_eq_false_iff,
    decide_eq_false_iff_not] at hp
  exact hp.1.2 ((mem_orphanEL net q e' ed).2
    ⟨(mem_keptEL net q e' ed).2 ⟨hed, hp.1.1⟩, hp.2.1, hp.2.2⟩)

theorem genEdges_other_of_post1 (net : BNet) (hwf : WFNet net) (q : BNNode) (e' : Evid)
    (P : BNNode → Bool)
    (hPe : ∀ ed ∈ net.edges,
      P (edgeN ed) = (edRemb q e' ed || decide (ed ∈ orphanEL net q e')))
    (hPv : ∀ v ∈ net.verts, P (.vertex v) = true) :
    (net.edges.filter fun ed =>
      !P (edgeN ed) && (P (.vertex ed.1) && P (.vertex ed.2))) = otherEL net q e' := by
  have h1 : (net.edges.filter fun ed =>
      !P (edgeN ed) && (P (.vertex ed.1) && P (.vertex ed.2))) =
      net.edges.filter fun ed => !P (edgeN ed) := by
    refine List.filter_congr fun ed hed => ?_
    by_cases hke : (ed.1 ∈ net.verts ∧ ed.2 ∈ net.verts)
    · rw [hPv ed.1 hke.1, hPv ed.2 hke.2]
      simp
    · rw [hPe ed hed]
      by_cases h2 : edRemb q e' ed = true
      · simp [h2]
      · exfalso
        simp only [Bool.not_eq_true] at h2
        rcases hwf.2.2 ed hed with ⟨ha, hb, -⟩
        exact hke ⟨ha, hb⟩
  rw [h1, edFilter_of_post1 net q e' P hPe]

theorem edFilter_nil_of_post2 (net : BNet) (q : BNNode) (e' : Evid)
    (P : BNNode → Bool)
    (hPe : ∀ ed ∈ net.edges,
      P (edgeN ed) = ((edRemb q e' ed || decide (ed ∈ orphanEL net q e'))
        || decide (ed ∈ otherEL net q e'))) :
    (net.edges.filter fun ed => !P (edgeN ed)) = [] := by
  rw [List.eq_nil_iff_forall_not_mem]
  intro ed hmem
  obtain ⟨hed, hp⟩ := List.mem_filter.1 hmem
  rw [hPe ed hed] at hp
  simp only [Bool.not_eq_true', Bool.or_eq_false_iff, decide_eq_false_iff_not] at hp
  obtain ⟨⟨h1, h2⟩, h3⟩ := hp
  have hke : ed ∈ keptEL net q e' := (mem_keptEL net q e' ed).2 ⟨hed, h1⟩
  by_cases hb : (vRemb net q e' ed.1 && vRemb net q e' ed.2) = true
  · exact h2 (List.mem_filter.2 ⟨hke, hb⟩)
  · exact h3 (List.mem_filter.2 ⟨hke, by simp [hb]⟩)

theorem decide_mem_append (x : BNNode) (L1 L2 : List BNNode) :
    decide (x ∈ L1 ++ L2) = (decide (x ∈ L1) || decide (x ∈ L2)) := by
  by_cases h1 : x ∈ L1
  · simp [h1, List.mem_append]
  · by_cases h2 : x ∈ L2 <;> simp [h1, h2, List.mem_append]

theorem decide_mem_cons (x a : BNNode) (l : List BNNode) :
    decide (x ∈ a :: l) = (decide (x = a) || decide (x ∈ l)) := by
  by_cases h1 : x = a
  · simp [h1]
  · by_cases h2 : x ∈ l <;> simp [h1, h2]

theorem decide_edgeN_mem_edgeN_map (ed : GEdge) (l : List GEdge) :
    decide (edgeN ed ∈ l.map edgeN) = decide (ed ∈ l) :=
  decide_eq_decide.2 (List.mem_map_of_injective edgeN_injective)

theorem decide_vertex_mem_vertex_map (v : Coord) (l : List Coord) :
    decide (BNNode.vertex v ∈ l.map BNNode.vertex) = decide (v ∈ l) :=
  decide_eq_decide.2 (List.mem_map_of_injective vertex_injective)

theorem decide_vertex_mem_edgeN_map (w : Coord) (l : List GEdge) :
    decide (BNNode.vertex w ∈ l.map edgeN) = false :=
  decide_eq_of_iff (iff_of_false (vertex_not_mem_edgeN_map w l) (by simp))

theorem decide_edgeN_mem_vertex_map (ed : GEdge) (l : List Coord) :
    decide (edgeN ed ∈ l.map BNNode.vertex) = false :=
  decide_eq_of_iff (iff_of_false (edgeN_not_mem_vertex_map ed l) (by simp))

theorem decide_vertex_eq_season (v : Coord) :
    decide (BNNode.vertex v = BNNode.season) = false :=
  decide_eq_of_iff (iff_of_false (by simp) (by simp))

theorem decide_edgeN_eq_season (ed : GEdge) :
    decide (edgeN ed = BNNode.season) = false :=
  decide_eq_of_iff (iff_of_false (by simp [edgeN]) (by simp))


theorem beq_edgeN_season (ed : GEdge) : (edgeN ed == BNNode.season) = false := by
  rw [beq_eq_false_iff_ne]
  simp [edgeN]

theorem beq_vertex_season (v : Coord) : (BNNode.vertex v == BNNode.season) = false := by
  rw [beq_eq_false_iff_ne]
  simp

/-- Removal predicate extended with an already-output Kahn generation
prefix: a node is gone if the pruning removed it or an earlier generation
contained it. -/
def postP (net : BNet) (q : BNNode) (e' : Evid) (L : List BNNode) : BNNode → Bool :=
  fun x => remPb net q e' x || decide (x ∈ L)

/-- The networkx topological order of the pruned graph: the season root (if
kept), then the kept edges whose endpoints were both removed, then the kept
vertices, then the remaining kept edges. -/
theorem topoSort_pruned (net : BNet) (hwf : WFNet net) (q : BNNode) (e' : Evid) :
    topoSort (fGraph (mkBN net) (remPb net q e')) =
      (if sRemb net q e' then ([] : List BNNode) else [.season])
        ++ (orphanEL net q e').map edgeN
        ++ (keptVL net q e').map .vertex
        ++ (otherEL net q e').map edgeN := by
  have hnd : (mkBN net).nodes.Nodup := mkBN_nodes_nodup net hwf
  have hOle : (otherEL net q e').length ≤ (keptEL net q e').length :=
    List.length_filter_le _ _
  have hOrple : (orphanEL net q e').length ≤ (keptEL net q e').length :=
    List.length_filter_le _ _
  rw [topoSort]
  rcases Bool.eq_false_or_eq_true (sRemb net q e') with hs | hs
  · -- the season root is pruned away
    rw [if_pos hs]
    have hnodes : (fGraph (mkBN net) (remPb net q e')).nodes =
        (keptEL net q e').map edgeN ++ (keptVL net q e').map .vertex := by
      rw [fGraph_mkBN_nodes, remPb_season, edFilter_keptEL, vFilter_keptVL,
        if_pos hs]
      simp
    have hg1 : ((fGraph (mkBN net) (remPb net q e')).nodes.filter fun n =>
        inDeg (fGraph (mkBN net) (remPb net q e')) n = 0) =
        (orphanEL net q e').map edgeN ++ (keptVL net q e').map .vertex := by
      rw [gen_fGraph net hwf, remPb_season, edFilter_orphan net hwf,
        if_pos hs, if_pos hs, vFilter_keptVL]
      simp
    have hrem1 : removeNodes (fGraph (mkBN net) (remPb net q e'))
        ((orphanEL net q e').map edgeN ++ (keptVL net q e').map .vertex) =
        fGraph (mkBN net) (postP net q e'
          ((orphanEL net q e').map edgeN ++ (keptVL net q e').map .vertex)) :=
      removeNodes_fGraph (mkBN net) hnd _ _
    have hP1s : postP net q e'
        ((orphanEL net q e').map edgeN ++ (keptVL net q e').map .vertex)
          .season = true := by
      simp [postP, remPb_season, hs]
    have hP1v : ∀ v ∈ net.verts,
        postP net q e' ((orphanEL net q e').map edgeN
          ++ (keptVL net q e').map .vertex) (.vertex v) = true := by
      intro v hv
      by_cases hvr : vRemb net q e' v = true
      · simp [postP, remPb_vertex_mem net q e' v hv, hvr]
      · simp only [Bool.not_eq_true] at hvr
        have hmem : v ∈ keptVL net q e' := (mem_keptVL net q e' v).2 ⟨hv, hvr⟩
        simp [postP, decide_mem_append,
          decide_vertex_mem_edgeN_map, decide_vertex_mem_vertex_map,
            decide_vertex_eq_season, beq_vertex_season, decide_mem_cons, hmem]
    have hP1e : ∀ ed ∈ net.edges,
        postP net q e' ((orphanEL net q e').map edgeN
          ++ (keptVL net q e').map .vertex) (edgeN ed)
          = (edRemb q e' ed || decide (ed ∈ orphanEL net q e')) := by
      intro ed hed
      simp [postP, remPb_edgeN_mem net q e' ed hed, decide_mem_append,
        decide_edgeN_mem_edgeN_map, decide_edgeN_mem_vertex_map,
            decide_edgeN_eq_season, beq_edgeN_season, decide_mem_cons]
    have hg2 : ((fGraph (mkBN net) (postP net q e'
          ((orphanEL net q e').map edgeN
            ++ (keptVL net q e').map .vertex))).nodes.filter fun n =>
        inDeg (fGraph (mkBN net) (postP net q e'
          ((orphanEL net q e').map edgeN
            ++ (keptVL net q e').map .vertex))) n = 0) =
        (otherEL net q e').map edgeN := by
      rw [gen_fGraph net hwf, genEdges_other_of_post1 net hwf q e' _ hP1e hP1v,
        if_pos hP1s, if_pos hP1s, vFilter_of_true net _ hP1v]
      simp
    by_cases hKV : keptVL net q e' = []
    · have hOther : otherEL net q e' = [] := by
        rw [List.eq_nil_iff_forall_not_mem]
        intro ed hed
        rcases otherEL_endpoint net hwf q e' ed hed with h | h <;>
          · rw [hKV] at h
            cases h
      by_cases hOrp : orphanEL net q e' = []
      · have hKE : keptEL net q e' = [] :=
          keptEL_of_orphan_other_nil net q e' hOrp hOther
        have hn0 : (fGraph (mkBN net) (remPb net q e')).nodes = [] := by
          rw [hnodes, hKE, hKV]
          rfl
        rw [kahn_nil _ _ hn0]
        simp [hOrp, hKV, hOther]
      · have horple : 0 < (orphanEL net q e').length := List.length_pos.2 hOrp
        obtain ⟨k, hk⟩ : ∃ k,
            (fGraph (mkBN net) (remPb net q e')).nodes.length = k + 1 :=
          ⟨(keptEL net q e').length + (keptVL net q e').length - 1, by
            rw [hnodes]
            simp only [List.length_append, List.length_map]
            omega⟩
        rw [hk, kahn_step _ _ _ hg1 (by simp [hOrp]), hrem1]
        have hn1 : (fGraph (mkBN net) (postP net q e'
            ((orphanEL net q e').map edgeN
              ++ (keptVL net q e').map .vertex))).nodes = [] := by
          rw [fGraph_mkBN_nodes, if_pos hP1s, edFilter_of_post1 net q e' _ hP1e,
            hOther, vFilter_of_true net _ hP1v]
          simp
        rw [kahn_nil _ _ hn1]
        simp [hOther]
    · have hkvpos : 0 < (keptVL net q e').length := List.length_pos.2 hKV
      by_cases hOther : otherEL net q e' = []
      · obtain ⟨k, hk⟩ : ∃ k,
            (fGraph (mkBN net) (remPb net q e')).nodes.length = k + 1 :=
          ⟨(keptEL net q e').length + (keptVL net q e').length - 1, by
            rw [hnodes]
            simp only [List.length_append, List.length_map]
            omega⟩
        rw [hk, kahn_step _ _ _ hg1 (by simp [hKV]), hrem1]
        have hn1 : (fGraph (mkBN net) (postP net q e'
            ((orphanEL net q e').map edgeN
              ++ (keptVL net q e').map .vertex))).nodes = [] := by
          rw [fGraph_mkBN_nodes, if_pos hP1s, edFilter_of_post1 net q e' _ hP1e,
            hOther, vFilter_of_true net _ hP1v]
          simp
        rw [kahn_nil _ _ hn1]
        simp [hOther]
      · have hopos : 0 < (otherEL net q e').length := List.length_pos.2 hOther
        have hrem2 : removeNodes (fGraph (mkBN net) (postP net q e'
              ((orphanEL net q e').map edgeN ++ (keptVL net q e').map .vertex)))
              ((otherEL net q e').map edgeN) =
            fGraph (mkBN net) (postP net q e'
              (((orphanEL net q e').map edgeN ++ (keptVL net q e').map .vertex)
                ++ (otherEL net q e').map edgeN)) := by
          rw [removeNodes_fGraph (mkBN net) hnd]
          refine fGraph_congr _ fun x => ?_
          simp [postP, decide_mem_append, Bool.or_assoc]
        have hP2s : postP net q e'
            (((orphanEL net q e').map edgeN ++ (keptVL net q e').map .vertex)
              ++ (otherEL net q e').map edgeN) .season = true := by
          simp [postP, remPb_season, hs]
        have hP2v : ∀ v ∈ net.verts,
            postP net q e' (((orphanEL net q e').map edgeN
              ++ (keptVL net q e').map .vertex)
              ++ (otherEL net q e').map edgeN) (.vertex v) = true := by
          intro v hv
          by_cases hvr : vRemb net q e' v = true
          · simp [postP, remPb_vertex_mem net q e' v hv, hvr]
          · simp only [Bool.not_eq_true] at hvr
            have hmem : v ∈ keptVL net q e' := (mem_keptVL net q e' v).2 ⟨hv, hvr⟩
            simp [postP, decide_mem_append,
              decide_vertex_mem_edgeN_map, decide_vertex_mem_vertex_map,
            decide_vertex_eq_season, beq_vertex_season, decide_mem_cons, hmem]
        have hP2e : ∀ ed ∈ net.edges,
            postP net q e' (((orphanEL net q e').map edgeN
              ++ (keptVL net q e').map .vertex)
              ++ (otherEL net q e').map edgeN) (edgeN ed)
              = ((edRemb q e' ed || decide (ed ∈ orphanEL net q e'))
                || decide (ed ∈ otherEL net q e')) := by
          intro ed hed
          simp [postP, remPb_edgeN_mem net q e' ed hed, decide_mem_append,
            decide_edgeN_mem_edgeN_map, decide_edgeN_mem_vertex_map,
            decide_edgeN_eq_season, beq_edgeN_season, decide_mem_cons,
            Bool.or_assoc]
        have hn2 : (fGraph (mkBN net) (postP net q e'
            (((orphanEL net q e').map edgeN ++ (keptVL net q e').map .vertex)
              ++ (otherEL net q e').map edgeN))).nodes = [] := by
          rw [fGraph_mkBN_nodes, if_pos hP2s, edFilter_nil_of_post2 net q e' _ hP2e,
            vFilter_of_true net _ hP2v]
          simp
        obtain ⟨k, hk⟩ : ∃ k,
            (fGraph (mkBN net) (remPb net q e')).nodes.length = (k + 1) + 1 :=
          ⟨(keptEL net q e').length + (keptVL net q e').length - 2, by
            rw [hnodes]
            simp only [List.length_append, List.length_map]
            omega⟩
        rw [hk, kahn_step _ _ _ hg1 (by simp [hKV]), hrem1,
          kahn_step _ _ _ hg2 (by simp [hOther]), hrem2,
          kahn_nil _ _ hn2]
        simp
  · -- the season root survives the pruning
    rw [if_neg (by simp [hs])]
    have hnodes : (fGraph (mkBN net) (remPb net q e')).nodes =
        .season :: ((keptEL net q e').map edgeN ++ (keptVL net q e').map .vertex) := by
      rw [fGraph_mkBN_nodes, remPb_season, edFilter_keptEL, vFilter_keptVL,
        if_neg (by simp [hs])]
      simp
    have hg1 : ((fGraph (mkBN net) (remPb net q e')).nodes.filter fun n =>
        inDeg (fGraph (mkBN net) (remPb net q e')) n = 0) =
        .season :: (orphanEL net q e').map edgeN := by
      rw [gen_fGraph net hwf, remPb_season, edFilter_orphan net hwf,
        if_neg (by simp [hs]), if_neg (by simp [hs])]
      simp
    have hrem1 : removeNodes (fGraph (mkBN net) (remPb net q e'))
        (.season :: (orphanEL net q e').map edgeN) =
        fGraph (mkBN net) (postP net q e'
          (.season :: (orphanEL net q e').map edgeN)) :=
      removeNodes_fGraph (mkBN net) hnd _ _
    have hP1s : postP net q e'
        (.season :: (orphanEL net q e').map edgeN) .season = true := by
      simp [postP]
    have hP1v : ∀ v ∈ net.verts,
        postP net q e' (.season :: (orphanEL net q e').map edgeN) (.vertex v)
          = vRemb net q e' v := by
      intro v hv
      simp [postP, remPb_vertex_mem net q e' v hv, decide_mem_cons,
        decide_vertex_mem_edgeN_map, decide_vertex_eq_season, beq_vertex_season]
    have hP1e : ∀ ed ∈ net.edges,
        postP net q e' (.season :: (orphanEL net q e').map edgeN) (edgeN ed)
          = (edRemb q e' ed || decide (ed ∈ orphanEL net q e')) := by
      intro ed hed
      have h1 : (edgeN ed = BNNode.season) = False := by simp [edgeN]
      simp [postP, remPb_edgeN_mem net q e' ed hed, h1,
        List.mem_map_of_injective edgeN_injective]
    have hg2 : ((fGraph (mkBN net) (postP net q e'
          (.season :: (orphanEL net q e').map edgeN))).nodes.filter fun n =>
        inDeg (fGraph (mkBN net) (postP net q e'
          (.season :: (orphanEL net q e').map edgeN))) n = 0) =
        (keptVL net q e').map .vertex := by
      rw [gen_fGraph net hwf, genEdges_nil_of_post1 net hwf q e' _ hP1e hP1v,
        if_pos hP1s, if_pos hP1s, vFilter_of_vRemb net q e' _ hP1v]
      simp
    by_cases hKV : keptVL net q e' = []
    · have hOther : otherEL net q e' = [] := by
        rw [List.eq_nil_iff_forall_not_mem]
        intro ed hed
        rcases otherEL_endpoint net hwf q e' ed hed with h | h <;>
          · rw [hKV] at h
            cases h
      obtain ⟨k, hk⟩ : ∃ k,
          (fGraph (mkBN net) (remPb net q e')).nodes.length = k + 1 :=
        ⟨_, by rw [hnodes, List.length_cons]⟩
      rw [hk, kahn_step _ _ _ hg1 (by simp), hrem1]
      have hn1 : (fGraph (mkBN net) (postP net q e'
          (.season :: (orphanEL net q e').map edgeN))).nodes = [] := by
        rw [fGraph_mkBN_nodes, if_pos hP1s, edFilter_of_post1 net q e' _ hP1e,
          hOther, vFilter_of_vRemb net q e' _ hP1v, hKV]
        simp
      rw [kahn_nil _ _ hn1]
      simp [hKV, hOther]
    · have hkvpos : 0 < (keptVL net q e').length := List.length_pos.2 hKV
      have hrem2 : removeNodes (fGraph (mkBN net) (postP net q e'
            (.season :: (orphanEL net q e').map edgeN)))
            ((keptVL net q e').map .vertex) =
          fGraph (mkBN net) (postP net q e'
            ((.season :: (orphanEL net q e').map edgeN)
              ++ (keptVL net q e').map .vertex)) := by
        rw [removeNodes_fGraph (mkBN net) hnd]
        refine fGraph_congr _ fun x => ?_
        simp [postP, decide_mem_append, Bool.or_assoc]
      have hP2s : postP net q e'
          ((.season :: (orphanEL net q e').map edgeN)
            ++ (keptVL net q e').map .vertex) .season = true := by
        simp [postP]
      have hP2v : ∀ v ∈ net.verts,
          postP net q e' ((.season :: (orphanEL net q e').map edgeN)
            ++ (keptVL net q e').map .vertex) (.vertex v) = true := by
        intro v hv
        by_cases hvr : vRemb net q e' v = true
        · simp [postP, remPb_vertex_mem net q e' v hv, hvr]
        · simp only [Bool.not_eq_true] at hvr
          have hmem : v ∈ keptVL net q e' := (mem_keptVL net q e' v).2 ⟨hv, hvr⟩
          simp [postP, decide_mem_append,
            decide_vertex_mem_edgeN_map, decide_vertex_mem_vertex_map,
            decide_vertex_eq_season, beq_vertex_season, decide_mem_cons, hmem]
      have hP2e : ∀ ed ∈ net.edges,
          postP net q e' ((.season :: (orphanEL net q e').map edgeN)
            ++ (keptVL net q e').map .vertex) (edgeN ed)
            = (edRemb q e' ed || decide (ed ∈ orphanEL net q e')) := by
        intro ed hed
        have h1 : (edgeN ed = BNNode.season) = False := by simp [edgeN]
        simp [postP, remPb_edgeN_mem net q e' ed hed, h1, decide_mem_append,
          decide_edgeN_mem_edgeN_map, decide_edgeN_mem_vertex_map,
            decide_edgeN_eq_season, beq_edgeN_season, decide_mem_cons]
      have hg3 : ((fGraph (mkBN net) (postP net q e'
            ((.season :: (orphanEL net q e').map edgeN)
              ++ (keptVL net q e').map .vertex))).nodes.filter fun n =>
          inDeg (fGraph (mkBN net) (postP net q e'
            ((.season :: (orphanEL net q e').map edgeN)
              ++ (keptVL net q e').map .vertex))) n = 0) =
          (otherEL net q e').map edgeN := by
        rw [gen_fGraph net hwf, genEdges_other_of_post1 net hwf q e' _ hP2e hP2v,
          if_pos hP2s, if_pos hP2s, vFilter_of_true net _ hP2v]
        simp
      by_cases hOther : otherEL net q e' = []
      · obtain ⟨k, hk⟩ : ∃ k,
            (fGraph (mkBN net) (remPb net q e')).nodes.length = (k + 1) + 1 :=
          ⟨(keptEL net q e').length + (keptVL net q e').length - 1, by
            rw [hnodes]
            simp only [List.length_cons, List.length_append, List.length_map]
            omega⟩
        rw [hk, kahn_step _ _ _ hg1 (by simp), hrem1,
          kahn_step _ _ _ hg2 (by simp [hKV]), hrem2]
        have hn2 : (fGraph (mkBN net) (postP net q e'
            ((.season :: (orphanEL net q e').map edgeN)
              ++ (keptVL net q e').map .vertex))).nodes = [] := by
          rw [fGraph_mkBN_nodes, if_pos hP2s, edFilter_of_post1 net q e' _ hP2e,
            hOther, vFilter_of_true net _ hP2v]
          simp
        rw [kahn_nil _ _ hn2]
        simp [hOther]
      · have hopos : 0 < (otherEL net q e').length := List.length_pos.2 hOther
        have hrem3 : removeNodes (fGraph (mkBN net) (postP net q e'
              ((.season :: (orphanEL net q e').map edgeN)
                ++ (keptVL net q e').map .vertex)))
              ((otherEL net q e').map edgeN) =
            fGraph (mkBN net) (postP net q e'
              (((.season :: (orphanEL net q e').map edgeN)
                ++ (keptVL net q e').map .vertex)
                ++ (otherEL net q e').map edgeN)) := by
          rw [removeNodes_fGraph (mkBN net) hnd]
          refine fGraph_congr _ fun x => ?_
          simp [postP, decide_mem_append, Bool.or_assoc]
        have hP3s : postP net q e'
            (((.season :: (orphanEL net q e').map edgeN)
              ++ (keptVL net q e').map .vertex)
              ++ (otherEL net q e').map edgeN) .season = true := by
          simp [postP]
        have hP3v : ∀ v ∈ net.verts,
            postP net q e' (((.season :: (orphanEL net q e').map edgeN)
              ++ (keptVL net q e').map .vertex)
              ++ (otherEL net q e').map edgeN) (.vertex v) = true := by
          intro v hv
          by_cases hvr : vRemb net q e' v = true
          · simp [postP, remPb_vertex_mem net q e' v hv, hvr]
          · simp only [Bool.not_eq_true] at hvr
            have hmem : v ∈ keptVL net q e' := (mem_keptVL net q e' v).2 ⟨hv, hvr⟩
            simp [postP, decide_mem_append,
              decide_vertex_mem_edgeN_map, decide_vertex_mem_vertex_map,
            decide_vertex_eq_season, beq_vertex_season, decide_mem_cons, hmem]
        have hP3e : ∀ ed ∈ net.edges,
            postP net q e' (((.season :: (orphanEL net q e').map edgeN)
              ++ (keptVL net q e').map .vertex)
              ++ (otherEL net q e').map edgeN) (edgeN ed)
              = ((edRemb q e' ed || decide (ed ∈ orphanEL net q e'))
                || decide (ed ∈ otherEL net q e')) := by
          intro ed hed
          have h1 : (edgeN ed = BNNode.season) = False := by simp [edgeN]
          simp [postP, remPb_edgeN_mem net q e' ed hed, h1, decide_mem_append,
            decide_edgeN_mem_edgeN_map, decide_edgeN_mem_vertex_map,
            decide_edgeN_eq_season, beq_edgeN_season, decide_mem_cons,
            Bool.or_assoc]
        have hn3 : (fGraph (mkBN net) (postP net q e'
            (((.season :: (orphanEL net q e').map edgeN)
              ++ (keptVL net q e').map .vertex)
              ++ (otherEL net q e').map edgeN))).nodes = [] := by
          rw [fGraph_mkBN_nodes, if_pos hP3s, edFilter_nil_of_post2 net q e' _ hP3e,
            vFilter_of_true net _ hP3v]
          simp
        obtain ⟨k, hk⟩ : ∃ k,
            (fGraph (mkBN net) (remPb net q e')).nodes.length = ((k + 1) + 1) + 1 :=
          ⟨(keptEL net q e').length + (keptVL net q e').length - 2, by
            rw [hnodes]
            simp only [List.length_cons, List.length_append, List.length_map]
            omega⟩
        rw [hk, kahn_step _ _ _ hg1 (by simp), hrem1,
          kahn_step _ _ _ hg2 (by simp [hKV]), hrem2,
          kahn_step _ _ _ hg3 (by simp [hOther]), hrem3,
          kahn_nil _ _ hn3]
        simp

/-! ### Factor peeling: the pruned enumeration differs from the full one by
a factor that does not depend on the query option -/

theorem coordLeB_of_coordLtB (a b : Coord) (h : coordLtB a b = true) :
    coordLeB a b = true := by
  simp only [coordLtB, Bool.or_eq_true, Bool.and_eq_true, decide_eq_true_eq] at h
  simp only [coordLeB, Bool.or_eq_true, Bool.and_eq_true, decide_eq_true_eq]
  omega

theorem canon_edgeN_of_mem (net : BNet) (hwf : WFNet net) (ed : GEdge)
    (hed : ed ∈ net.edges) : canon (edgeN ed) = edgeN ed := by
  have hlt := (hwf.2.2 ed hed).2.2
  cases ed with
  | mk a b =>
    simp only [edgeN, canon]
    rw [if_pos (coordLeB_of_coordLtB a b hlt)]

/-- The contribution of an edge variable to the barren-removal factor: its
probability if the forward pass removed it (observed), `1` otherwise. -/
def edgeFac (net : BNet) (q : BNNode) (e' : Evid) (ed : GEdge) : ℚ :=
  if edRb q e' ed then Probability net (edgeN ed) e' (eget e' (edgeN ed)) else 1

/-- The contribution of a vertex variable to the barren-removal factor. -/
def vertFac (net : BNet) (q : BNNode) (e' : Evid) (v : Coord) : ℚ :=
  if vRb q e' v then Probability net (.vertex v) e' (eget e' (.vertex v)) else 1

/-- The contribution of the season variable to the barren-removal factor. -/
def seasonFac (net : BNet) (q : BNNode) (e' : Evid) : ℚ :=
  if sRb q e' then Probability net .season e' (eget e' .season)
  else if sBb net q e' then net.pLow + net.pMed + net.pHigh else 1

/-- The full ratio between the unpruned and the pruned enumeration. -/
def pruneFactor (net : BNet) (q : BNNode) (e' : Evid) : ℚ :=
  seasonFac net q e' * (net.verts.map (vertFac net q e')).prod
    * (net.edges.map (edgeFac net q e')).prod

theorem peel_edges (net : BNet) (hwf : WFNet net) (q : BNNode) (e' : Evid) :
    ∀ (E : List GEdge) (X : List BNNode),
      (∀ ed ∈ E, ed ∈ net.edges) → E.Nodup →
      (∀ ed ∈ E, ∀ y ∈ X, canon y ≠ edgeN ed) →
      enumAll net (X ++ E.map edgeN) e' =
        (E.map (edgeFac net q e')).prod *
          enumAll net (X ++ (E.filter fun ed => !edRemb q e' ed).map edgeN) e' := by
  intro E
  induction E with
  | nil =>
    intro X _ _ _
    simp
  | cons ed E' ih =>
    intro X hmem hnd hX
    have hed : ed ∈ net.edges := hmem ed (List.mem_cons_self _ _)
    have hmem' : ∀ e ∈ E', e ∈ net.edges := fun e he => hmem e (List.mem_cons_of_mem _ he)
    have hnd' : E'.Nodup := hnd.of_cons
    have hni : ed ∉ E' := (List.nodup_cons.1 hnd).1
    have hcn : canon (edgeN ed) = edgeN ed := canon_edgeN_of_mem net hwf ed hed
    by_cases hR : edRb q e' ed = true
    · -- forward-removed: observed with observed endpoints, pull it out
      have hRu := hR
      simp only [edRb, Bool.and_eq_true, decide_eq_true_eq] at hRu
      obtain ⟨⟨⟨hv1, hv2⟩, hobs⟩, -⟩ := hRu
      have hv1u := hv1
      have hv2u := hv2
      simp only [vRb, sRb, Bool.and_eq_true, decide_eq_true_eq] at hv1u hv2u
      have hreads : ∀ k ∈ reads (edgeN ed), emem e' k = true := by
        intro k hk
        simp only [edgeN, reads, List.mem_cons, List.not_mem_nil, or_false] at hk
        rcases hk with rfl | rfl
        · exact hv1u.1.2
        · exact hv2u.1.2
      have hdrop : edRemb q e' ed = true := by simp [edRemb, hR]
      have hlist : X ++ (ed :: E').map edgeN = X ++ edgeN ed :: E'.map edgeN := by
        simp
      rw [hlist, enumAll_pull_observed net (edgeN ed) hcn (E'.map edgeN) X e' hobs hreads,
        ih X hmem' hnd' (fun e he y hy => hX e (List.mem_cons_of_mem _ he) y hy)]
      rw [List.filter_cons_of_neg (by simp [hdrop])]
      simp only [List.map_cons, List.prod_cons, edgeFac, if_pos hR]
      ring
    · by_cases hB : edBb q e' ed = true
      · -- backward-removed: unobserved with no remaining reader, sum it out
        have hBu := hB
        simp only [edBb, Bool.and_eq_true, Bool.not_eq_true', decide_eq_true_eq] at hBu
        obtain ⟨⟨-, hnobs⟩, -⟩ := hBu
        have hns : edgeN ed ≠ .season := by simp [edgeN]
        have hL2 : ∀ y ∈ E'.map edgeN,
            canon y ≠ edgeN ed ∧ edgeN ed ∉ reads (canon y) := by
          intro y hy
          obtain ⟨ed2, hed2, rfl⟩ := List.mem_map.1 hy
          have hc2 : canon (edgeN ed2) = edgeN ed2 :=
            canon_edgeN_of_mem net hwf ed2 (hmem' ed2 hed2)
          refine ⟨by rw [hc2]; exact fun hc => hni (edgeN_injective hc ▸ hed2), ?_⟩
          rw [hc2]
          simp [edgeN, reads]
        have hdrop : edRemb q e' ed = true := by simp [edRemb, hB]
        have hlist : X ++ (ed :: E').map edgeN = X ++ edgeN ed :: E'.map edgeN := by
          simp
        rw [hlist, enumAll_sumout_bool net (edgeN ed) hcn hns (E'.map edgeN) hL2 X e' hnobs
            (fun y hy => hX ed (List.mem_cons_self _ _) y hy),
          ih X hmem' hnd' (fun e he y hy => hX e (List.mem_cons_of_mem _ he) y hy)]
        rw [List.filter_cons_of_neg (by simp [hdrop])]
        simp only [List.map_cons, List.prod_cons, edgeFac, if_neg hR]
        ring
      · -- kept: shift it into the processed prefix
        have hkeep : edRemb q e' ed = false := by
          simp only [Bool.not_eq_true] at hR hB
          simp [edRemb, hR, hB]
        have hX' : ∀ e2 ∈ E', ∀ y ∈ X ++ [edgeN ed], canon y ≠ edgeN e2 := by
          intro e2 he2 y hy
          rcases List.mem_append.1 hy with hyX | hyc
          · exact hX e2 (List.mem_cons_of_mem _ he2) y hyX
          · rw [List.mem_singleton.1 hyc, hcn]
            exact fun hc => hni (edgeN_injective hc ▸ he2)
        have hlist : X ++ (ed :: E').map edgeN = (X ++ [edgeN ed]) ++ E'.map edgeN := by
          simp
        rw [hlist, ih (X ++ [edgeN ed]) hmem' hnd' hX']
        rw [List.filter_cons_of_pos (by simp [hkeep])]
        simp only [List.map_cons, List.prod_cons, edgeFac, if_neg hR]
        have hlist2 : X ++ edgeN ed :: (E'.filter fun e2 => !edRemb q e' e2).map edgeN
            = (X ++ [edgeN ed]) ++ (E'.filter fun e2 => !edRemb q e' e2).map edgeN := by
          simp
        rw [hlist2]
        ring

theorem peel_verts (net : BNet) (hwf : WFNet net) (q : BNNode) (e' : Evid)
    (Y : List BNNode)
    (hY : ∀ y ∈ Y, ∃ ed ∈ net.edges, edRemb q e' ed = false ∧ y = edgeN ed) :
    ∀ (V : List Coord) (X : List BNNode),
      (∀ v ∈ V, v ∈ net.verts) → V.Nodup →
      (∀ v ∈ V, ∀ y ∈ X, canon y ≠ .vertex v) →
      enumAll net (X ++ V.map .vertex ++ Y) e' =
        (V.map (vertFac net q e')).prod *
          enumAll net (X ++ (V.filter fun v => !vRemb net q e' v).map .vertex ++ Y) e' := by
  intro V
  induction V with
  | nil =>
    intro X _ _ _
    simp
  | cons v V' ih =>
    intro X hmem hnd hX
    have hv : v ∈ net.verts := hmem v (List.mem_cons_self _ _)
    have hmem' : ∀ w ∈ V', w ∈ net.verts := fun w hw => hmem w (List.mem_cons_of_mem _ hw)
    have hnd' : V'.Nodup := hnd.of_cons
    have hni : v ∉ V' := (List.nodup_cons.1 hnd).1
    have hXrest : ∀ w ∈ V', ∀ y ∈ X, canon y ≠ .vertex w :=
      fun w hw y hy => hX w (List.mem_cons_of_mem _ hw) y hy
    by_cases hR : vRb q e' v = true
    · have hRu := hR
      simp only [vRb, sRb, Bool.and_eq_true, decide_eq_true_eq] at hRu
      obtain ⟨⟨⟨hseas, -⟩, hobs⟩, -⟩ := hRu
      have hreads : ∀ k ∈ reads (.vertex v), emem e' k = true := by
        intro k hk
        simp only [reads, List.mem_cons, List.not_mem_nil, or_false] at hk
        rw [hk]
        exact hseas
      have hdrop : vRemb net q e' v = true := by simp [vRemb, hR]
      have hlist : X ++ (v :: V').map BNNode.vertex ++ Y
          = X ++ BNNode.vertex v :: (V'.map BNNode.vertex ++ Y) := by
        simp
      have hlist2 : X ++ (V'.map BNNode.vertex ++ Y) = X ++ V'.map BNNode.vertex ++ Y := by
        simp
      rw [hlist, enumAll_pull_observed net (.vertex v) rfl (V'.map BNNode.vertex ++ Y)
          X e' hobs hreads, hlist2, ih X hmem' hnd' hXrest]
      rw [List.filter_cons_of_neg (by simp [hdrop])]
      simp only [List.map_cons, List.prod_cons, vertFac, if_pos hR]
      ring
    · by_cases hB : vBb net q e' v = true
      · have hBu := hB
        simp only [vBb, Bool.and_eq_true, Bool.not_eq_true', decide_eq_true_eq] at hBu
        obtain ⟨⟨⟨-, hall⟩, hnobs⟩, -⟩ := hBu
        have hns : BNNode.vertex v ≠ .season := by simp
        have hL2 : ∀ y ∈ V'.map BNNode.vertex ++ Y,
            canon y ≠ .vertex v ∧ BNNode.vertex v ∉ reads (canon y) := by
          intro y hy
          rcases List.mem_append.1 hy with hyv | hyY
          · obtain ⟨w, hw, rfl⟩ := List.mem_map.1 hyv
            refine ⟨?_, by simp [canon, reads]⟩
            intro hc
            rw [show canon (BNNode.vertex w) = BNNode.vertex w from rfl] at hc
            exact hni (vertex_injective hc ▸ hw)
          · obtain ⟨ed, hed, hkeep, rfl⟩ := hY y hyY
            have hc2 : canon (edgeN ed) = edgeN ed := canon_edgeN_of_mem net hwf ed hed
            rw [hc2]
            refine ⟨by simp [edgeN], ?_⟩
            have hinc := List.all_eq_true.1 hall ed hed
            simp only [hkeep, Bool.or_false, Bool.not_eq_true',
              decide_eq_false_iff_not] at hinc
            simp only [edgeN, reads, List.mem_cons, List.not_mem_nil, or_false]
            rintro (hc | hc)
            · exact hinc (Or.inl (vertex_injective hc))
            · exact hinc (Or.inr (vertex_injective hc))
        have hdrop : vRemb net q e' v = true := by simp [vRemb, hB]
        have hlist : X ++ (v :: V').map BNNode.vertex ++ Y
            = X ++ BNNode.vertex v :: (V'.map BNNode.vertex ++ Y) := by
          simp
        have hlist2 : X ++ (V'.map BNNode.vertex ++ Y) = X ++ V'.map BNNode.vertex ++ Y := by
          simp
        rw [hlist, enumAll_sumout_bool net (.vertex v) rfl hns
            (V'.map BNNode.vertex ++ Y) hL2 X e' hnobs
            (fun y hy => hX v (List.mem_cons_self _ _) y hy),
          hlist2, ih X hmem' hnd' hXrest]
        rw [List.filter_cons_of_neg (by simp [hdrop])]
        simp only [List.map_cons, List.prod_cons, vertFac, if_neg hR]
        ring
      · have hkeep : vRemb net q e' v = false := by
          simp only [Bool.not_eq_true] at hR hB
          simp [vRemb, hR, hB]
        have hX' : ∀ w ∈ V', ∀ y ∈ X ++ [BNNode.vertex v], canon y ≠ .vertex w := by
          intro w hw y hy
          rcases List.mem_append.1 hy with hyX | hyc
          · exact hXrest w hw y hyX
          · rw [List.mem_singleton.1 hyc,
              show canon (BNNode.vertex v) = BNNode.vertex v from rfl]
            exact fun hc => hni (vertex_injective hc ▸ hw)
        have hlist : X ++ (v :: V').map BNNode.vertex ++ Y
            = (X ++ [BNNode.vertex v]) ++ V'.map BNNode.vertex ++ Y := by
          simp
        rw [hlist, ih (X ++ [BNNode.vertex v]) hmem' hnd' hX']
        rw [List.filter_cons_of_pos (by simp [hkeep])]
        simp only [List.map_cons, List.prod_cons, vertFac, if_neg hR]
        have hlist2 : X ++ (BNNode.vertex v ::
              (V'.filter fun w => !vRemb net q e' w).map BNNode.vertex) ++ Y
            = (X ++ [BNNode.vertex v])
              ++ (V'.filter fun w => !vRemb net q e' w).map BNNode.vertex ++ Y := by
          simp
        rw [hlist2]
        ring

theorem peel_season (net : BNet) (hwf : WFNet net) (q : BNNode) (e' : Evid)
    (Z : List BNNode)
    (hZ : ∀ y ∈ Z, (∃ v ∈ net.verts, vRemb net q e' v = false ∧ y = .vertex v) ∨
                   (∃ ed ∈ net.edges, edRemb q e' ed = false ∧ y = edgeN ed)) :
    enumAll net (.season :: Z) e' =
      seasonFac net q e' *
        enumAll net ((if sRemb net q e' then ([] : List BNNode) else [.season]) ++ Z) e' := by
  by_cases hR : sRb q e' = true
  · have hobs : emem e' .season = true := by
      have hRu := hR
      simp only [sRb, Bool.and_eq_true, decide_eq_true_eq] at hRu
      exact hRu.1
    have hrem : sRemb net q e' = true := by simp [sRemb, hR]
    have hpull := enumAll_pull_observed net .season rfl Z [] e' hobs (by simp [reads])
    simp only [List.nil_append] at hpull
    rw [hpull, if_pos hrem, List.nil_append]
    simp [seasonFac, hR]
  · by_cases hBk : sBb net q e' = true
    · have hBu := hBk
      simp only [sBb, Bool.and_eq_true, Bool.not_eq_true', decide_eq_true_eq] at hBu
      obtain ⟨⟨⟨-, hall⟩, hnobs⟩, -⟩ := hBu
      have hrem : sRemb net q e' = true := by simp [sRemb, hBk]
      have hL2 : ∀ y ∈ Z, canon y ≠ .season ∧ BNNode.season ∉ reads (canon y) := by
        intro y hy
        rcases hZ y hy with ⟨v, hv, hkeep, rfl⟩ | ⟨ed, hed, hkeep, rfl⟩
        · exact absurd (List.all_eq_true.1 hall v hv) (by simp [hkeep])
        · have hc2 := canon_edgeN_of_mem net hwf ed hed
          rw [hc2]
          exact ⟨by simp [edgeN], by simp [edgeN, reads]⟩
      have hsum := enumAll_sumout_season net Z hL2 [] e' hnobs (by simp)
      simp only [List.nil_append] at hsum
      rw [hsum, if_pos hrem, List.nil_append]
      simp [seasonFac, hR, hBk]
    · have hrem : sRemb net q e' = false := by
        simp only [Bool.not_eq_true] at hR hBk
        simp [sRemb, hR, hBk]
      rw [if_neg (by simp [hrem])]
      simp [seasonFac, hR, hBk]

theorem pull_obs_edges (net : BNet) (hwf : WFNet net) (e' : Evid) (Z : List BNNode) :
    ∀ (E : List GEdge) (X : List BNNode),
      (∀ ed ∈ E, ed ∈ net.edges ∧ emem e' (edgeN ed) = true ∧
        emem e' (.vertex ed.1) = true ∧ emem e' (.vertex ed.2) = true) →
      enumAll net (X ++ E.map edgeN ++ Z) e' =
        (E.map fun ed => Probability net (edgeN ed) e' (eget e' (edgeN ed))).prod *
          enumAll net (X ++ Z) e' := by
  intro E
  induction E with
  | nil =>
    intro X _
    simp
  | cons ed E' ih =>
    intro X h
    obtain ⟨hed, hobs, h1, h2⟩ := h ed (List.mem_cons_self _ _)
    have hcn := canon_edgeN_of_mem net hwf ed hed
    have hreads : ∀ k ∈ reads (edgeN ed), emem e' k = true := by
      intro k hk
      simp only [edgeN, reads, List.mem_cons, List.not_mem_nil, or_false] at hk
      rcases hk with rfl | rfl
      · exact h1
      · exact h2
    have hlist : X ++ (ed :: E').map edgeN ++ Z
        = X ++ edgeN ed :: (E'.map edgeN ++ Z) := by
      simp
    have hlist2 : X ++ (E'.map edgeN ++ Z) = X ++ E'.map edgeN ++ Z := by simp
    rw [hlist, enumAll_pull_observed net (edgeN ed) hcn (E'.map edgeN ++ Z) X e'
        hobs hreads, hlist2, ih X (fun e2 he2 => h e2 (List.mem_cons_of_mem _ he2))]
    simp only [List.map_cons, List.prod_cons]
    ring

theorem orphan_obs (net : BNet) (q : BNNode) (e' : Evid) (hqo : emem e' q = true)
    (ed : GEdge) (hed : ed ∈ net.edges) (hkeep : edRemb q e' ed = false)
    (h1 : vRemb net q e' ed.1 = true) (h2 : vRemb net q e' ed.2 = true) :
    emem e' (edgeN ed) = true ∧ emem e' (.vertex ed.1) = true ∧
      emem e' (.vertex ed.2) = true := by
  have hkeepu := hkeep
  simp only [edRemb, Bool.or_eq_false_iff] at hkeepu
  obtain ⟨hRf, hBf⟩ := hkeepu
  have hvb : ∀ w, (w = ed.1 ∨ w = ed.2) → vRemb net q e' w = true →
      emem e' (.vertex w) = true := by
    intro w hw hrem
    simp only [vRemb, Bool.or_eq_true] at hrem
    rcases hrem with hr | hb
    · simp only [vRb, sRb, Bool.and_eq_true, decide_eq_true_eq] at hr
      exact hr.1.2
    · exfalso
      simp only [vBb, Bool.and_eq_true, Bool.not_eq_true', decide_eq_true_eq] at hb
      have hinc := List.all_eq_true.1 hb.1.1.2 ed hed
      rw [hkeep] at hinc
      simp only [Bool.or_false, Bool.not_eq_true', decide_eq_false_iff_not] at hinc
      exact hinc hw
  refine ⟨?_, hvb ed.1 (Or.inl rfl) h1, hvb ed.2 (Or.inr rfl) h2⟩
  simp only [edBb, hRf, Bool.not_false, Bool.true_and, Bool.and_eq_false_iff,
    Bool.not_eq_false', decide_eq_false_iff_not, not_not] at hBf
  rcases hBf with h | h
  · exact h
  · rw [h]
    exact hqo

theorem prod_if_filter (p : GEdge → Bool) (f : GEdge → ℚ) :
    ∀ l : List GEdge,
      (l.map fun x => if p x then f x else 1).prod = ((l.filter p).map f).prod := by
  intro l
  induction l with
  | nil => simp
  | cons x l' ih =>
    by_cases hx : p x = true
    · rw [List.filter_cons_of_pos hx]
      simp [hx, ih]
    · rw [List.filter_cons_of_neg (by simp [hx])]
      simp [hx, ih]

theorem split_keptE (net : BNet) (hwf : WFNet net) (q : BNNode) (e' : Evid)
    (hqo : emem e' q = true) :
    ∀ (E : List GEdge) (X : List BNNode),
      (∀ ed ∈ E, ed ∈ net.edges ∧ edRemb q e' ed = false) →
      enumAll net (X ++ E.map edgeN) e' =
        (E.map fun ed => if vRemb net q e' ed.1 && vRemb net q e' ed.2 then
            Probability net (edgeN ed) e' (eget e' (edgeN ed)) else 1).prod *
          enumAll net (X ++ (E.filter fun ed =>
            !(vRemb net q e' ed.1 && vRemb net q e' ed.2)).map edgeN) e' := by
  intro E
  induction E with
  | nil =>
    intro X _
    simp
  | cons ed E' ih =>
    intro X h
    obtain ⟨hed, hkeep⟩ := h ed (List.mem_cons_self _ _)
    have h' : ∀ e2 ∈ E', e2 ∈ net.edges ∧ edRemb q e' e2 = false :=
      fun e2 he2 => h e2 (List.mem_cons_of_mem _ he2)
    have hcn := canon_edgeN_of_mem net hwf ed hed
    by_cases horp : (vRemb net q e' ed.1 && vRemb net q e' ed.2) = true
    · have horp2 : vRemb net q e' ed.1 = true ∧ vRemb net q e' ed.2 = true := by
        have h0 := horp
        simp only [Bool.and_eq_true] at h0
        exact h0
      obtain ⟨hobs, hv1, hv2⟩ :=
        orphan_obs net q e' hqo ed hed hkeep horp2.1 horp2.2
      have hreads : ∀ k ∈ reads (edgeN ed), emem e' k = true := by
        intro k hk
        simp only [edgeN, reads, List.mem_cons, List.not_mem_nil, or_false] at hk
        rcases hk with rfl | rfl
        · exact hv1
        · exact hv2
      have hlist : X ++ (ed :: E').map edgeN = X ++ edgeN ed :: E'.map edgeN := by simp
      rw [hlist, enumAll_pull_observed net (edgeN ed) hcn (E'.map edgeN) X e'
          hobs hreads, ih X h']
      rw [List.filter_cons_of_neg (by simp [horp])]
      simp only [List.map_cons, List.prod_cons, if_pos horp]
      ring
    · have hlist : X ++ (ed :: E').map edgeN = (X ++ [edgeN ed]) ++ E'.map edgeN := by
        simp
      rw [hlist, ih (X ++ [edgeN ed]) h']
      rw [List.filter_cons_of_pos (by simp [horp])]
      simp only [List.map_cons, List.prod_cons, if_neg horp]
      have hlist2 : X ++ edgeN ed :: (E'.filter fun e2 =>
            !(vRemb net q e' e2.1 && vRemb net q e' e2.2)).map edgeN
          = (X ++ [edgeN ed]) ++ (E'.filter fun e2 =>
            !(vRemb net q e' e2.1 && vRemb net q e' e2.2)).map edgeN := by
        simp
      rw [hlist2]
      ring

/-- Peeling the full topological order: the enumeration over the complete
network equals the barren factor times the enumeration over the kept
season/vertex/edge nodes. -/
theorem full_peel (net : BNet) (hwf : WFNet net) (q : BNNode) (e' : Evid) :
    enumAll net (topoSort (mkBN net)) e' =
      pruneFactor net q e' *
        enumAll net ((if sRemb net q e' then ([] : List BNNode) else [.season])
          ++ (keptVL net q e').map .vertex ++ (keptEL net q e').map edgeN) e' := by
  simp only [keptVL, keptEL]
  have hX1 : ∀ ed ∈ net.edges, ∀ y ∈ (BNNode.season :: vNodes net), canon y ≠ edgeN ed := by
    intro ed hed y hy
    rcases List.mem_cons.1 hy with rfl | hyv
    · simp [canon, edgeN]
    · obtain ⟨v, hv, rfl⟩ := List.mem_map.1 hyv
      simp [canon, edgeN]
  have hY2 : ∀ y ∈ (net.edges.filter fun ed => !edRemb q e' ed).map edgeN,
      ∃ ed ∈ net.edges, edRemb q e' ed = false ∧ y = edgeN ed := by
    intro y hy
    obtain ⟨ed, hedf, rfl⟩ := List.mem_map.1 hy
    obtain ⟨hede, hkeep⟩ := List.mem_filter.1 hedf
    exact ⟨ed, hede, by simpa using hkeep, rfl⟩
  have hX2 : ∀ v ∈ net.verts, ∀ y ∈ ([BNNode.season] : List BNNode),
      canon y ≠ .vertex v := by
    intro v hv y hy
    rw [List.mem_singleton.1 hy]
    simp [canon]
  have hZ : ∀ y ∈ (net.verts.filter fun v => !vRemb net q e' v).map BNNode.vertex
        ++ (net.edges.filter fun ed => !edRemb q e' ed).map edgeN,
      (∃ v ∈ net.verts, vRemb net q e' v = false ∧ y = .vertex v) ∨
      (∃ ed ∈ net.edges, edRemb q e' ed = false ∧ y = edgeN ed) := by
    intro y hy
    rcases List.mem_append.1 hy with hyv | hye
    · obtain ⟨v, hvf, rfl⟩ := List.mem_map.1 hyv
      obtain ⟨hv, hkeep⟩ := List.mem_filter.1 hvf
      exact Or.inl ⟨v, hv, by simpa using hkeep, rfl⟩
    · obtain ⟨ed, hedf, rfl⟩ := List.mem_map.1 hye
      obtain ⟨hede, hkeep⟩ := List.mem_filter.1 hedf
      exact Or.inr ⟨ed, hede, by simpa using hkeep, rfl⟩
  have h1 := peel_edges net hwf q e' net.edges (BNNode.season :: vNodes net)
    (fun ed hed => hed) hwf.2.1 hX1
  have h2 := peel_verts net hwf q e'
    ((net.edges.filter fun ed => !edRemb q e' ed).map edgeN) hY2 net.verts
    [BNNode.season] (fun v hv => hv) hwf.1 hX2
  have h3 := peel_season net hwf q e'
    ((net.verts.filter fun v => !vRemb net q e' v).map BNNode.vertex
      ++ (net.edges.filter fun ed => !edRemb q e' ed).map edgeN) hZ
  have hs1 : BNNode.season :: (vNodes net ++ eNodes net)
      = (BNNode.season :: vNodes net) ++ net.edges.map edgeN := by
    simp [vNodes, eNodes]
  have hs2 : ([BNNode.season] ++ net.verts.map BNNode.vertex
        ++ (net.edges.filter fun ed => !edRemb q e' ed).map edgeN)
      = (BNNode.season :: vNodes net)
        ++ (net.edges.filter fun ed => !edRemb q e' ed).map edgeN := by
    simp [vNodes]
  have hs3 : ([BNNode.season]
        ++ (net.verts.filter fun v => !vRemb net q e' v).map BNNode.vertex
        ++ (net.edges.filter fun ed => !edRemb q e' ed).map edgeN)
      = BNNode.season ::
          ((net.verts.filter fun v => !vRemb net q e' v).map BNNode.vertex
            ++ (net.edges.filter fun ed => !edRemb q e' ed).map edgeN) := by
    simp
  rw [hs2] at h2
  rw [hs3] at h2
  rw [topoSort_mkBN net hwf, hs1, h1, h2, h3]
  simp only [pruneFactor, List.append_assoc]
  ring

/-- The enumeration over the pruned topological order equals the
enumeration over the kept nodes in canonical season/vertex/edge order. -/
theorem pruned_peel (net : BNet) (hwf : WFNet net) (q : BNNode) (e' : Evid)
    (hqo : emem e' q = true) :
    enumAll net (topoSort (removeBarren (mkBN net) [q] e')) e' =
      enumAll net ((if sRemb net q e' then ([] : List BNNode) else [.season])
        ++ (keptVL net q e').map .vertex ++ (keptEL net q e').map edgeN) e' := by
  rw [removeBarren_mkBN net hwf q e', topoSort_pruned net hwf q e']
  have horph : ∀ ed ∈ orphanEL net q e', ed ∈ net.edges ∧
      emem e' (edgeN ed) = true ∧ emem e' (.vertex ed.1) = true ∧
      emem e' (.vertex ed.2) = true := by
    intro ed hed
    obtain ⟨hk, h1, h2⟩ := (mem_orphanEL net q e' ed).1 hed
    obtain ⟨hede, hkeep⟩ := (mem_keptEL net q e' ed).1 hk
    obtain ⟨ho, hv1, hv2⟩ := orphan_obs net q e' hqo ed hede hkeep h1 h2
    exact ⟨hede, ho, hv1, hv2⟩
  have hkept : ∀ ed ∈ keptEL net q e', ed ∈ net.edges ∧ edRemb q e' ed = false :=
    fun ed hed => (mem_keptEL net q e' ed).1 hed
  have hL := pull_obs_edges net hwf e'
    ((keptVL net q e').map BNNode.vertex ++ (otherEL net q e').map edgeN)
    (orphanEL net q e')
    (if sRemb net q e' then ([] : List BNNode) else [.season]) horph
  have hR := split_keptE net hwf q e' hqo (keptEL net q e')
    ((if sRemb net q e' then ([] : List BNNode) else [.season])
      ++ (keptVL net q e').map BNNode.vertex) hkept
  have hshape1 : ((if sRemb net q e' then ([] : List BNNode) else [.season])
        ++ (orphanEL net q e').map edgeN ++ (keptVL net q e').map BNNode.vertex
        ++ (otherEL net q e').map edgeN)
      = ((if sRemb net q e' then ([] : List BNNode) else [.season])
          ++ (orphanEL net q e').map edgeN
          ++ ((keptVL net q e').map BNNode.vertex ++ (otherEL net q e').map edgeN)) := by
    simp
  have hshape2 : ((if sRemb net q e' then ([] : List BNNode) else [.season])
        ++ (keptVL net q e').map BNNode.vertex ++ (keptEL net q e').map edgeN)
      = (((if sRemb net q e' then ([] : List BNNode) else [.season])
          ++ (keptVL net q e').map BNNode.vertex) ++ (keptEL net q e').map edgeN) := by
    simp
  rw [hshape1, hL, hshape2, hR, prod_if_filter]
  have hfo : ((keptEL net q e').filter fun ed =>
      vRemb net q e' ed.1 && vRemb net q e' ed.2) = orphanEL net q e' := rfl
  have hff : ((keptEL net q e').filter fun ed =>
      !(vRemb net q e' ed.1 && vRemb net q e' ed.2)) = otherEL net q e' := rfl
  rw [hfo, hff]
  simp only [List.append_assoc]

theorem full_eq_factor_mul_pruned (net : BNet) (hwf : WFNet net) (q : BNNode)
    (e' : Evid) (hqo : emem e' q = true) :
    enumAll net (topoSort (mkBN net)) e' =
      pruneFactor net q e' *
        enumAll net (topoSort (removeBarren (mkBN net) [q] e')) e' := by
  rw [pruned_peel net hwf q e' hqo, full_peel net hwf q e']

theorem sRb_emem_congr (q : BNNode) {e1 e2 : Evid}
    (h : ∀ k, emem e1 k = emem e2 k) : sRb q e1 = sRb q e2 := by
  simp [sRb, h]

theorem vRb_emem_congr (q : BNNode) {e1 e2 : Evid}
    (h : ∀ k, emem e1 k = emem e2 k) (v : Coord) : vRb q e1 v = vRb q e2 v := by
  simp [vRb, sRb, h]

theorem edRb_emem_congr (q : BNNode) {e1 e2 : Evid}
    (h : ∀ k, emem e1 k = emem e2 k) (ed : GEdge) : edRb q e1 ed = edRb q e2 ed := by
  simp [edRb, vRb, sRb, h]

theorem edBb_emem_congr (q : BNNode) {e1 e2 : Evid}
    (h : ∀ k, emem e1 k = emem e2 k) (ed : GEdge) : edBb q e1 ed = edBb q e2 ed := by
  simp [edBb, edRb, vRb, sRb, h]

theorem edRemb_emem_congr (q : BNNode) {e1 e2 : Evid}
    (h : ∀ k, emem e1 k = emem e2 k) (ed : GEdge) :
    edRemb q e1 ed = edRemb q e2 ed := by
  simp [edRemb, edRb_emem_congr q h ed, edBb_emem_congr q h ed]

theorem vBb_emem_congr (net : BNet) (q : BNNode) {e1 e2 : Evid}
    (h : ∀ k, emem e1 k = emem e2 k) (v : Coord) :
    vBb net q e1 v = vBb net q e2 v := by
  have hall : (fun ed => !(decide (v = ed.1 ∨ v = ed.2)) || edRemb q e1 ed)
      = (fun ed => !(decide (v = ed.1 ∨ v = ed.2)) || edRemb q e2 ed) :=
    funext fun ed => by rw [edRemb_emem_congr q h ed]
  simp only [vBb]
  rw [vRb_emem_congr q h v, hall, h (BNNode.vertex v)]

theorem vRemb_emem_congr (net : BNet) (q : BNNode) {e1 e2 : Evid}
    (h : ∀ k, emem e1 k = emem e2 k) (v : Coord) :
    vRemb net q e1 v = vRemb net q e2 v := by
  simp [vRemb, vRb_emem_congr q h v, vBb_emem_congr net q h v]

theorem sBb_emem_congr (net : BNet) (q : BNNode) {e1 e2 : Evid}
    (h : ∀ k, emem e1 k = emem e2 k) : sBb net q e1 = sBb net q e2 := by
  have hall : vRemb net q e1 = vRemb net q e2 :=
    funext fun v => vRemb_emem_congr net q h v
  simp [sBb, hall, sRb_emem_congr q h, h]

theorem sRemb_emem_congr (net : BNet) (q : BNNode) {e1 e2 : Evid}
    (h : ∀ k, emem e1 k = emem e2 k) : sRemb net q e1 = sRemb net q e2 := by
  simp [sRemb, sRb_emem_congr q h, sBb_emem_congr net q h]

theorem eget_congr_ne {e1 e2 : Evid} (q : BNNode)
    (hq : ∀ k, k ≠ q → elookup e1 k = elookup e2 k) (k : BNNode) (hk : k ≠ q) :
    eget e1 k = eget e2 k := by
  simp [eget, hq k hk]

theorem seasonFac_congr (net : BNet) (q : BNNode) {e1 e2 : Evid}
    (h : ∀ k, emem e1 k = emem e2 k)
    (hq : ∀ k, k ≠ q → elookup e1 k = elookup e2 k) :
    seasonFac net q e1 = seasonFac net q e2 := by
  rw [seasonFac, seasonFac, sRb_emem_congr q h, sBb_emem_congr net q h]
  by_cases hR : sRb q e2 = true
  · rw [if_pos hR, if_pos hR]
    have hnq : BNNode.season ≠ q := by
      have hRu := hR
      simp only [sRb, Bool.and_eq_true, decide_eq_true_eq] at hRu
      exact hRu.2
    rw [eget_congr_ne q hq .season hnq]
    rfl
  · rw [if_neg hR, if_neg hR]

theorem vertFac_congr (net : BNet) (q : BNNode) {e1 e2 : Evid}
    (h : ∀ k, emem e1 k = emem e2 k)
    (hq : ∀ k, k ≠ q → elookup e1 k = elookup e2 k) (v : Coord) :
    vertFac net q e1 v = vertFac net q e2 v := by
  rw [vertFac, vertFac, vRb_emem_congr q h v]
  by_cases hR : vRb q e2 v = true
  · rw [if_pos hR, if_pos hR]
    have hRu := hR
    simp only [vRb, sRb, Bool.and_eq_true, decide_eq_true_eq] at hRu
    obtain ⟨⟨⟨-, hsq⟩, -⟩, hvq⟩ := hRu
    have hrd : ∀ k ∈ reads (.vertex v), elookup e1 k = elookup e2 k := by
      intro k hk
      simp only [reads, List.mem_cons, List.not_mem_nil, or_false] at hk
      rw [hk]
      exact hq .season hsq
    rw [eget_congr_ne q hq (.vertex v) hvq,
      Probability_congr net (.vertex v) hrd]
  · rw [if_neg hR, if_neg hR]

theorem edgeFac_congr (net : BNet) (q : BNNode) {e1 e2 : Evid}
    (h : ∀ k, emem e1 k = emem e2 k)
    (hq : ∀ k, k ≠ q → elookup e1 k = elookup e2 k) (ed : GEdge) :
    edgeFac net q e1 ed = edgeFac net q e2 ed := by
  rw [edgeFac, edgeFac, edRb_emem_congr q h ed]
  by_cases hR : edRb q e2 ed = true
  · rw [if_pos hR, if_pos hR]
    have hRu := hR
    simp only [edRb, vRb, sRb, Bool.and_eq_true, decide_eq_true_eq] at hRu
    obtain ⟨⟨⟨⟨-, h1q⟩, ⟨-, h2q⟩⟩, -⟩, heq⟩ := hRu
    have hrd : ∀ k ∈ reads (edgeN ed), elookup e1 k = elookup e2 k := by
      intro k hk
      simp only [edgeN, reads, List.mem_cons, List.not_mem_nil, or_false] at hk
      rcases hk with rfl | rfl
      · exact hq _ h1q
      · exact hq _ h2q
    rw [eget_congr_ne q hq (edgeN ed) heq,
      Probability_congr net (edgeN ed) hrd]
  · rw [if_neg hR, if_neg hR]

theorem pruneFactor_congr (net : BNet) (q : BNNode) {e1 e2 : Evid}
    (h : ∀ k, emem e1 k = emem e2 k)
    (hq : ∀ k, k ≠ q → elookup e1 k = elookup e2 k) :
    pruneFactor net q e1 = pruneFactor net q e2 := by
  rw [pruneFactor, pruneFactor, seasonFac_congr net q h hq]
  have hv : net.verts.map (vertFac net q e1) = net.verts.map (vertFac net q e2) :=
    List.map_congr_left fun v _ => vertFac_congr net q h hq v
  have he : net.edges.map (edgeFac net q e1) = net.edges.map (edgeFac net q e2) :=
    List.map_congr_left fun ed _ => edgeFac_congr net q h hq ed
  rw [hv, he]

theorem pruneFactor_einsert_indep (net : BNet) (q : BNNode) (e : Evid)
    (opt opt' : BNVal) :
    pruneFactor net q (einsert e q opt) = pruneFactor net q (einsert e q opt') := by
  refine pruneFactor_congr net q (fun k => ?_) (fun k hk => ?_)
  · by_cases hkq : k = q
    · subst hkq
      simp [emem, elookup_einsert_self]
    · simp [emem, elookup_einsert_ne e q k opt hkq, elookup_einsert_ne e q k opt' hkq]
  · rw [elookup_einsert_ne e q k opt hk, elookup_einsert_ne e q k opt' hk]

theorem sum_map_scale (c : ℚ) :
    ∀ d : List (BNVal × ℚ),
      (d.map fun kv => c * kv.2).sum = c * (d.map Prod.snd).sum := by
  intro d
  induction d with
  | nil => simp
  | cons kv d' ih =>
    simp only [List.map_cons, List.sum_cons, ih]
    ring

theorem Normalize_scale (c : ℚ) (hc : c ≠ 0) (d : List (BNVal × ℚ))
    (hs : (d.map Prod.snd).sum ≠ 0) :
    Normalize (d.map fun kv => (kv.1, c * kv.2)) = Normalize d := by
  have hsum : ((d.map fun kv => (kv.1, c * kv.2)).map Prod.snd).sum
      = c * (d.map Prod.snd).sum := by
    rw [List.map_map]
    rw [show (Prod.snd ∘ fun kv : BNVal × ℚ => (kv.1, c * kv.2))
        = fun kv : BNVal × ℚ => c * kv.2 from rfl]
    exact sum_map_scale c d
  simp only [Normalize, hsum]
  rw [if_neg (by exact mul_ne_zero hc hs), if_neg hs, List.map_map]
  refine List.map_congr_left fun kv _ => ?_
  simp only [Function.comp_apply]
  rw [mul_div_mul_left kv.2 _ hc]

/-- Claim C1-as-amended in general form: whenever the unpruned enumeration
attributes nonzero total weight to the query options, `EnumerationAsk` with
barren-node removal returns exactly the distribution of the same
computation without `RemoveBarrenNodes`. -/
theorem C1_amended (net : BNet) (hwf : WFNet net) (q0 : BNNode)
    (rest : List BNNode) (e : Evid)
    (hsum : ((optionsOf (canon q0)).map fun opt =>
        enumAll net (topoSort (mkBN net)) (einsert e (canon q0) opt)).sum ≠ 0) :
    (EnumerationAsk net (q0 :: rest) e).1 =
      (EnumerationAskNoPrune net (q0 :: rest) e).1 := by
  by_cases h1 : canon q0 ∈ (mkBN net).nodes
  · by_cases h2 : emem e (canon q0) = true
    · simp [EnumerationAsk, EnumerationAskNoPrune, h1, h2]
    · have h2f : emem e (canon q0) = false := by
        simp only [Bool.not_eq_true] at h2
        exact h2
      rw [enumAsk_eval net q0 rest e h1 h2f, enumAskNP_eval net q0 rest e h1 h2f]
      show Normalize _ = Normalize _
      have hqo : ∀ opt : BNVal, emem (einsert e (canon q0) opt) (canon q0) = true := by
        intro opt
        simp [emem, elookup_einsert_self]
      have hw : ∀ opt : BNVal,
          enumAll net (topoSort (mkBN net)) (einsert e (canon q0) opt)
            = pruneFactor net (canon q0) (einsert e (canon q0) (.b false)) *
              enumAll net (topoSort (removeBarren (mkBN net) [canon q0]
                (einsert e (canon q0) opt))) (einsert e (canon q0) opt) := by
        intro opt
        rw [full_eq_factor_mul_pruned net hwf (canon q0) (einsert e (canon q0) opt)
            (hqo opt),
          pruneFactor_einsert_indep net (canon q0) e opt (.b false)]
      have hsum2 : ((optionsOf (canon q0)).map fun opt =>
          enumAll net (topoSort (mkBN net)) (einsert e (canon q0) opt)).sum
          = pruneFactor net (canon q0) (einsert e (canon q0) (.b false)) *
            ((optionsOf (canon q0)).map fun opt =>
              enumAll net (topoSort (removeBarren (mkBN net) [canon q0]
                (einsert e (canon q0) opt))) (einsert e (canon q0) opt)).sum := by
        rw [List.map_congr_left fun opt _ => hw opt]
        generalize ((optionsOf (canon q0)) : List BNVal) = opts
        induction opts with
        | nil => simp
        | cons o os ih =>
          simp only [List.map_cons, List.sum_cons, ih]
          ring
      have hC0 : pruneFactor net (canon q0) (einsert e (canon q0) (.b false)) ≠ 0 :=
        fun h0 => hsum (by rw [hsum2, h0, zero_mul])
      have hps : ((optionsOf (canon q0)).map fun opt =>
          enumAll net (topoSort (removeBarren (mkBN net) [canon q0]
            (einsert e (canon q0) opt))) (einsert e (canon q0) opt)).sum ≠ 0 :=
        fun h0 => hsum (by rw [hsum2, h0, mul_zero])
      have hfl : ((optionsOf (canon q0)).map fun opt =>
            (opt, enumAll net (topoSort (mkBN net)) (einsert e (canon q0) opt)))
          = (((optionsOf (canon q0)).map fun opt =>
              (opt, enumAll net (topoSort (removeBarren (mkBN net) [canon q0]
                (einsert e (canon q0) opt))) (einsert e (canon q0) opt))).map
            fun kv => (kv.1,
              pruneFactor net (canon q0) (einsert e (canon q0) (.b false)) * kv.2)) := by
        rw [List.map_map]
        refine List.map_congr_left fun opt _ => ?_
        simp only [Function.comp_apply]
        rw [hw opt]
      rw [hfl, Normalize_scale _ hC0 _ ?hsnd]
      case hsnd =>
        rw [List.map_map]
        rw [show (Prod.snd ∘ fun opt => (opt, enumAll net (topoSort (removeBarren
            (mkBN net) [canon q0] (einsert e (canon q0) opt)))
            (einsert e (canon q0) opt)))
          = fun opt => enumAll net (topoSort (removeBarren (mkBN net) [canon q0]
            (einsert e (canon q0) opt))) (einsert e (canon q0) opt) from rfl]
        exact hps
  · simp [EnumerationAsk, EnumerationAskNoPrune, h1]

/-- Witness for `C1_amended` at a concrete instance: the one-vertex network
`net2` with observed low season; the unpruned weights sum to `1/2 ≠ 0` and
the two Ask variants agree. -/
theorem C1_amended_witness :
    WFNet net2 ∧
    ((optionsOf (canon (.vertex (0,0)))).map fun opt =>
        enumAll net2 (topoSort (mkBN net2))
          (einsert [(.season, .s .low)] (canon (.vertex (0,0))) opt)).sum ≠ 0 ∧
    (EnumerationAsk net2 [.vertex (0,0)] [(.season, .s .low)]).1 =
      (EnumerationAskNoPrune net2 [.vertex (0,0)] [(.season, .s .low)]).1 := by
  have hwf2 : WFNet net2 := by
    refine ⟨by decide, by decide, ?_⟩
    intro ed hed
    cases hed
  have hsum2 : ((optionsOf (canon (.vertex (0,0)))).map fun opt =>
      enumAll net2 (topoSort (mkBN net2))
        (einsert [(.season, .s .low)] (canon (.vertex (0,0))) opt)).sum ≠ 0 := by
    rw [show (topoSort (mkBN net2)) = [.season, .vertex (0,0)] from by decide]
    norm_num +decide [enumAll, Probability, net2_vertCPT, net2_seasonP_low, emem,
      elookup, eget, einsert, canon, optionsOf, truthy, asSeason, asBool, CPTVertex,
      round5, min_def, List.append_eq]
  exact ⟨hwf2, hsum2,
    C1_amended net2 hwf2 (.vertex (0,0)) [] [(.season, .s .low)] hsum2⟩
